import Mathlib

/-!
# timingwheel: a verification development

Shallow embedding of `timingwheelm.go` (package `timingwheel`).

Modelling conventions.

* `time.Duration`, `int64` and `int` are modelled by `Int`; `int` is taken to
  be 64 bits wide.  The one arithmetic step on caller-supplied numbers
  (`s++` in `NewTimingWheel`) wraps explicitly through `wrapInt64`.
  `tw.curIndex + 1` and the running total of `itemCount` are bounded by the
  length of a slice, respectively by the number of live map entries, so they
  are modelled without wrap-around.
* An item (`interface{}` used as a map key) is a value of a type `α` with
  decidable equality: a comparable handle such as the `*Item` pointers of the
  tests.  Keys that Go cannot hash, or that are not equal to themselves, are
  the other two kinds of `AnyItem`; `AddItemAny`, `stepForwardAny` and `runAny`
  are the operations on a wheel that holds such keys.
* `itemCon` (`map[interface{}]bool`) is modelled by the list of its keys; the
  only value the code ever stores is `true` and no value is ever read.  The
  order of the list is the order in which `range` produces the keys.
* The behaviour of the items (`k.(Releaser)`, `ShouldRelease()`, `Release()`)
  is supplied by an `Env`: user code runs on an external world state `σ`
  (clocks, counters, ...), which it may read and change.
* An index out of range (a Go run-time panic) is the result `none`, and so is
  the panic of a map assignment whose key cannot be hashed.
* The mutex is not modelled: every operation is one atomic transition.  User
  code runs while the mutex is held, so it cannot call back into the wheel.
* Each operation reports the calls it makes to user code as a list of
  `Event`s, so that statements about which methods were invoked can be made.
* The order in which `range` visits a map is unspecified in Go:
  `stepForwardVisiting` takes it as an argument, `stepForward` is the instance
  that follows the list.
* The methods of a `timingwheelObserver` are user code like the methods of the
  items: they run on the world state.
* `Run` is modelled against a finite supply of ticks: each tick comes with what
  the other goroutines do to the wheel and the world while `Run` waits for it,
  and `Run` is `waiting` when the supply is used up.  The `i`-th call of
  `shouldQuit()` is `shouldQuit i`, run on the world state.  `Run` records
  what it does in a trace of `RunEvent`s.
-/

namespace timingwheel

/-! ## Data model -/

/-- The package has one error value, `errInvalidDuration`. -/
inductive Error where
  | errInvalidDuration
  deriving DecidableEq, Repr

/-- Go type `itemCon` (`map[interface{}]bool`), as the list of its keys. -/
abbrev itemCon (α : Type) := List α

/-- Go type `slotCon` (`[]itemCon`). -/
abbrev slotCon (α : Type) := List (itemCon α)

/-- Go struct `TimingWheel` (without its mutex). -/
structure TimingWheel (α : Type) where
  stepTime : Int
  slots : slotCon α
  curIndex : Int
  deriving DecidableEq, Repr

/-- The methods of the `timingwheelObserver` interface. -/
inductive Hook where
  | beforeStep
  | afterStep
  | afterRelease
  | afterMove
  deriving DecidableEq, Repr

/-- What a wheel operation does to user code, in the order it does it:
`visit k` when the `range` loop produces key `k`, `shouldRelease k r` when
`k.ShouldRelease()` is called and answers `r`, `release k` when `k.Release()`
is called, `hook h` when an observer method is called. -/
inductive Event (α : Type) where
  | visit (k : α)
  | shouldRelease (k : α) (r : Bool)
  | release (k : α)
  | hook (h : Hook)
  deriving DecidableEq, Repr

/-- The user code behind the items: `isReleaser k` is the outcome of the type
assertion `k.(Releaser)`; `ShouldRelease k` and `Release k` are the two methods,
run on the external world state. -/
structure Env (α σ : Type) where
  isReleaser : α → Bool
  ShouldRelease : α → σ → Bool × σ
  Release : α → σ → σ

/-! ## Machine integers -/

/-- Two's-complement wrap-around of a 64 bit signed integer. -/
def wrapInt64 (x : Int) : Int := (x + 2 ^ 63) % 2 ^ 64 - 2 ^ 63

/-- The values of `int64` (and of `int` and `time.Duration`). -/
def inInt64 (x : Int) : Prop := -(2 ^ 63) ≤ x ∧ x < 2 ^ 63

instance (x : Int) : Decidable (inInt64 x) := by
  unfold inInt64; infer_instance

/-! ## Maps and slices -/

/-- Go `m[k] = true`: a key that is present stays where it is, a new key is
added. -/
def itemCon.insert {α : Type} [DecidableEq α] (m : itemCon α) (k : α) : itemCon α :=
  if k ∈ m then m else m ++ [k]

/-- Go `delete(m, k)`. -/
def itemCon.delete {α : Type} [DecidableEq α] (m : itemCon α) (k : α) : itemCon α :=
  m.filter (fun x => decide (x ≠ k))

/-- Go `slots[i]`: `none` is the index-out-of-range panic. -/
def slotAt {α : Type} (slots : slotCon α) (i : Int) : Option (itemCon α) :=
  if 0 ≤ i then slots[i.toNat]? else none

/-! ## NewTimingWheel -/

/-- Go `NewTimingWheel(max, slotCnt)`.  `max.Nanoseconds()`, `int64(slotCnt)`
and `time.Duration(s)` are the identity on the numbers; `/` and `%` are Go's
truncated division and remainder. -/
def NewTimingWheel {α : Type} (max : Int) (slotCnt : Int) : Except Error (TimingWheel α) :=
  if max ≤ 0 ∨ slotCnt ≤ 0 then
    Except.error Error.errInvalidDuration
  else
    let n := max
    let c := slotCnt
    if n < c then
      Except.error Error.errInvalidDuration
    else
      let s := Int.tdiv n c
      let s := if Int.tmod n c > 0 then wrapInt64 (s + 1) else s
      let slots : slotCon α := List.replicate slotCnt.toNat []
      Except.ok { stepTime := s, slots := slots, curIndex := 0 }

/-! ## AddItem, itemCount -/

/-- Go `(*TimingWheel).AddItem(item)`: `tw.slots[tw.curIndex][item] = true`, for
items that Go can hash and that are equal to themselves, which is what a type
with decidable equality holds.  `AddItemAny` is the function on items of any
type; the two agree on comparable items (`AddItemAny_comparable`). -/
def AddItem {α : Type} [DecidableEq α] (tw : TimingWheel α) (item : α) :
    Option (TimingWheel α) :=
  match slotAt tw.slots tw.curIndex with
  | none => none
  | some m =>
    some { tw with slots := tw.slots.set tw.curIndex.toNat (itemCon.insert m item) }

/-- Go `(*TimingWheel).itemCount()`: the running total of `len(slot)`. -/
def itemCount {α : Type} (tw : TimingWheel α) : Int :=
  tw.slots.foldl (fun total slot => total + (slot.length : Int)) 0

/-! ## stepForward -/

/-- What the scan of a slot leaves behind: the slot, the world state and the
calls made to user code. -/
structure Scan (α σ : Type) where
  slot : itemCon α
  world : σ
  log : List (Event α)

/-- Puts the events `es` in front of the log of a scan. -/
def Scan.emit {α σ : Type} (es : List (Event α)) (r : Scan α σ) : Scan α σ :=
  { r with log := es ++ r.log }

/-- The loop `for k := range curSlot { ... }` of `stepForward`.  The first
argument is what `range` has still to produce, in order; `m` is the map as it
is now.  A key deleted before it is reached is not produced; a key that is
produced is tested for `Releaser`, asked `ShouldRelease()` and, on `true`,
deleted from the map and then released. -/
def rangeLoop {α σ : Type} [DecidableEq α] (env : Env α σ) :
    List α → itemCon α → σ → Scan α σ
  | [], m, w => { slot := m, world := w, log := [] }
  | k :: ks, m, w =>
    if k ∈ m then
      if env.isReleaser k then
        if (env.ShouldRelease k w).1 then
          Scan.emit [Event.visit k, Event.shouldRelease k true, Event.release k]
            (rangeLoop env ks (itemCon.delete m k)
              (env.Release k (env.ShouldRelease k w).2))
        else
          Scan.emit [Event.visit k, Event.shouldRelease k false]
            (rangeLoop env ks m (env.ShouldRelease k w).2)
      else
        Scan.emit [Event.visit k] (rangeLoop env ks m w)
    else
      rangeLoop env ks m w

/-- The result of an operation that runs user code: the wheel, the world
state, and the calls made. -/
structure Stepped (α σ : Type) where
  tw : TimingWheel α
  world : σ
  log : List (Event α)

/-- Go `(*TimingWheel).stepForward()`: move the cursor one index forward,
wrapping to 0, and scan the slot at the new index.  The map is a reference, so
the deletions of the scan land in `tw.slots[idx]`. -/
def stepForward {α σ : Type} [DecidableEq α] (env : Env α σ) (tw : TimingWheel α) (w : σ) :
    Option (Stepped α σ) :=
  let idx := tw.curIndex + 1
  let idx := if idx ≥ (tw.slots.length : Int) then 0 else idx
  match slotAt tw.slots idx with
  | none => none
  | some curSlot =>
    let r := rangeLoop env curSlot curSlot w
    some { tw := { tw with curIndex := idx, slots := tw.slots.set idx.toNat r.slot },
           world := r.world, log := r.log }

/-! ## Sequences of operations -/

/-- One thing that happens to a wheel and its surroundings: a call of
`AddItem`, a call of `stepForward` (one tick of `Run`), or anything outside
the wheel changing the world state (time passing, user code running). -/
inductive Op (α σ : Type) where
  | addItem (item : α)
  | step
  | external (f : σ → σ)

/-- A wheel, the world state, and the logs of the Steps performed so far, the
oldest first. -/
structure Sys (α σ : Type) where
  tw : TimingWheel α
  world : σ
  logs : List (List (Event α))

/-- Performs one operation. -/
def applyOp {α σ : Type} [DecidableEq α] (env : Env α σ) (s : Sys α σ) :
    Op α σ → Option (Sys α σ)
  | Op.addItem item =>
    match AddItem s.tw item with
    | none => none
    | some tw1 => some { s with tw := tw1 }
  | Op.step =>
    match stepForward env s.tw s.world with
    | none => none
    | some r => some { tw := r.tw, world := r.world, logs := s.logs ++ [r.log] }
  | Op.external f => some { s with world := f s.world }

/-- Performs a sequence of operations, the head of the list first. -/
def run {α σ : Type} [DecidableEq α] (env : Env α σ) : List (Op α σ) → Sys α σ → Option (Sys α σ)
  | [], s => some s
  | op :: ops, s =>
    match applyOp env s op with
    | none => none
    | some s1 => run env ops s1

/-- The number of Steps in a sequence of operations. -/
def countSteps {α σ : Type} : List (Op α σ) → Nat
  | [] => 0
  | Op.step :: ops => countSteps ops + 1
  | _ :: ops => countSteps ops

/-- Holds when the sequence contains a call `AddItem(k)`. -/
def addsItem {α σ : Type} [DecidableEq α] (k : α) : List (Op α σ) → Bool
  | [] => false
  | Op.addItem x :: ops => decide (x = k) || addsItem k ops
  | _ :: ops => addsItem k ops

/-- The number of `Release()` calls on `k` in a log. -/
def releaseCount {α : Type} [DecidableEq α] (k : α) (log : List (Event α)) : Nat :=
  log.count (Event.release k)

/-- Holds when the scan reached `k`. -/
def examined {α : Type} [DecidableEq α] (k : α) (log : List (Event α)) : Prop :=
  Event.visit k ∈ log

/-- Holds when no call in the log concerns `k`. -/
def untouched {α : Type} [DecidableEq α] (k : α) (log : List (Event α)) : Prop :=
  Event.visit k ∉ log ∧ (∀ r, Event.shouldRelease k r ∉ log) ∧ Event.release k ∉ log

/-! ## Predicates on wheels and runs -/

/-- The cursor indexes a slot: `0 <= curIndex < len(slots)`. -/
def inRange {α : Type} (tw : TimingWheel α) : Prop :=
  0 ≤ tw.curIndex ∧ tw.curIndex < (tw.slots.length : Int)

instance {α : Type} (tw : TimingWheel α) : Decidable (inRange tw) := by
  unfold inRange; infer_instance

/-- Item `k` is a member of the slot at index `c`. -/
def memberAt {α : Type} (k : α) (c : Int) (tw : TimingWheel α) : Prop :=
  ∃ m, slotAt tw.slots c = some m ∧ k ∈ m

/-- Item `k` is a member of no slot other than the one at index `c`. -/
def nowhereBut {α : Type} (k : α) (c : Int) (tw : TimingWheel α) : Prop :=
  ∀ (i : Int) (m : itemCon α), i ≠ c → slotAt tw.slots i = some m → k ∉ m

/-- An item that the scan can never release: it does not implement `Releaser`,
or its `ShouldRelease()` answers `false` in every state of the world. -/
def inert {α σ : Type} (env : Env α σ) (k : α) : Prop :=
  env.isReleaser k = false ∨ ∀ w, (env.ShouldRelease k w).1 = false

/-- The items passed to `AddItem` in a sequence of operations. -/
def addedItems {α σ : Type} : List (Op α σ) → List α
  | [] => []
  | Op.addItem x :: ops => x :: addedItems ops
  | _ :: ops => addedItems ops

/-- A Go `interface{}` value as a map key sees it.  A `comparable` value can be
hashed and is equal to itself (a pointer, an integer, a string).  A
`notSelfEqual` value can be hashed but is not equal to itself (a floating-point
NaN): no lookup finds it, every assignment adds an entry, and `delete` does
nothing.  An `unhashable` value (a slice, a map, a function) makes a map
assignment panic. -/
inductive AnyItem (α : Type) where
  | comparable (k : α)
  | notSelfEqual (k : α)
  | unhashable (k : α)
  deriving DecidableEq, Repr

/-- Holds for the items Go can hash. -/
def AnyItem.hashable {α : Type} : AnyItem α → Bool
  | AnyItem.unhashable _ => false
  | _ => true

/-- Fails for the items that are not equal to themselves.  (Comparing an item
that cannot be hashed with itself panics in Go; such an item never gets into a
map, and `selfEqual` is `true` for it by convention.) -/
def AnyItem.selfEqual {α : Type} : AnyItem α → Bool
  | AnyItem.notSelfEqual _ => false
  | _ => true

/-- Go `(*TimingWheel).AddItem(item)` for an item of any type:
`tw.slots[tw.curIndex][item] = true`.  The slot is indexed first (`none` when
the index is out of range); then an unhashable item makes the map assignment
panic, an item not equal to itself gets a new entry, and a comparable item is
inserted as by `AddItem`. -/
def AddItemAny {α : Type} [DecidableEq α] (tw : TimingWheel (AnyItem α)) (item : AnyItem α) :
    Option (TimingWheel (AnyItem α)) :=
  match slotAt tw.slots tw.curIndex with
  | none => none
  | some m =>
    match item with
    | AnyItem.unhashable _ => none
    | AnyItem.notSelfEqual _ =>
      some { tw with slots := tw.slots.set tw.curIndex.toNat (m ++ [item]) }
    | AnyItem.comparable _ =>
      some { tw with slots := tw.slots.set tw.curIndex.toNat (itemCon.insert m item) }

/-- Go `delete(m, k)` for a key of any type: a key not equal to itself is not
found, and nothing is deleted. -/
def deleteAny {α : Type} [DecidableEq α] (m : itemCon (AnyItem α)) (k : AnyItem α) :
    itemCon (AnyItem α) :=
  if k.selfEqual then itemCon.delete m k else m

/-- The loop `for k := range curSlot { ... }` of `stepForward` over keys of any
type: as `rangeLoop`, with `deleteAny` for `delete`. -/
def rangeLoopAny {α σ : Type} [DecidableEq α] (env : Env (AnyItem α) σ) :
    List (AnyItem α) → itemCon (AnyItem α) → σ → Scan (AnyItem α) σ
  | [], m, w => { slot := m, world := w, log := [] }
  | k :: ks, m, w =>
    if k ∈ m then
      if env.isReleaser k then
        if (env.ShouldRelease k w).1 then
          Scan.emit [Event.visit k, Event.shouldRelease k true, Event.release k]
            (rangeLoopAny env ks (deleteAny m k)
              (env.Release k (env.ShouldRelease k w).2))
        else
          Scan.emit [Event.visit k, Event.shouldRelease k false]
            (rangeLoopAny env ks m (env.ShouldRelease k w).2)
      else
        Scan.emit [Event.visit k] (rangeLoopAny env ks m w)
    else
      rangeLoopAny env ks m w

/-- Go `(*TimingWheel).stepForward()` on a wheel that holds keys of any
type. -/
def stepForwardAny {α σ : Type} [DecidableEq α] (env : Env (AnyItem α) σ)
    (tw : TimingWheel (AnyItem α)) (w : σ) : Option (Stepped (AnyItem α) σ) :=
  let idx := tw.curIndex + 1
  let idx := if idx ≥ (tw.slots.length : Int) then 0 else idx
  match slotAt tw.slots idx with
  | none => none
  | some curSlot =>
    let r := rangeLoopAny env curSlot curSlot w
    some { tw := { tw with curIndex := idx, slots := tw.slots.set idx.toNat r.slot },
           world := r.world, log := r.log }

/-- Performs one operation on a wheel that holds keys of any type. -/
def applyOpAny {α σ : Type} [DecidableEq α] (env : Env (AnyItem α) σ)
    (s : Sys (AnyItem α) σ) : Op (AnyItem α) σ → Option (Sys (AnyItem α) σ)
  | Op.addItem item =>
    match AddItemAny s.tw item with
    | none => none
    | some tw1 => some { s with tw := tw1 }
  | Op.step =>
    match stepForwardAny env s.tw s.world with
    | none => none
    | some r => some { tw := r.tw, world := r.world, logs := s.logs ++ [r.log] }
  | Op.external f => some { s with world := f s.world }

/-- Performs a sequence of operations on a wheel that holds keys of any type,
the head of the list first. -/
def runAny {α σ : Type} [DecidableEq α] (env : Env (AnyItem α) σ) :
    List (Op (AnyItem α) σ) → Sys (AnyItem α) σ → Option (Sys (AnyItem α) σ)
  | [], s => some s
  | op :: ops, s =>
    match applyOpAny env s op with
    | none => none
    | some s1 => runAny env ops s1

/-! ## Counting items, adds and releases -/

/-- Every slot is a map: it holds each key at most once. -/
def validMaps {α : Type} (tw : TimingWheel α) : Prop :=
  ∀ m, m ∈ tw.slots → m.Nodup

/-- Holds for the events that are a call of `Release()`. -/
def Event.isRelease {α : Type} : Event α → Bool
  | Event.release _ => true
  | _ => false

/-- Holds for the events that are a call of an observer method. -/
def Event.isHook {α : Type} : Event α → Bool
  | Event.hook _ => true
  | _ => false

/-- The number of `Release()` calls in a log, whatever the item. -/
def releaseTotal {α : Type} (log : List (Event α)) : Nat :=
  log.countP Event.isRelease

/-- The number of calls of the observer method `h` in a log. -/
def hookCount {α : Type} [DecidableEq α] (h : Hook) (log : List (Event α)) : Nat :=
  log.count (Event.hook h)

/-- The log without the calls of observer methods. -/
def eraseHooks {α : Type} (log : List (Event α)) : List (Event α) :=
  log.filter (fun e => !e.isHook)

/-- `stepForward` with the order in which `range` produces the keys of the
current slot given explicitly (Go leaves it unspecified); `stepForward` itself
takes the order of the list. -/
def stepForwardVisiting {α σ : Type} [DecidableEq α] (env : Env α σ) (order : List α)
    (tw : TimingWheel α) (w : σ) : Option (Stepped α σ) :=
  let idx := tw.curIndex + 1
  let idx := if idx ≥ (tw.slots.length : Int) then 0 else idx
  match slotAt tw.slots idx with
  | none => none
  | some curSlot =>
    let r := rangeLoop env order curSlot w
    some { tw := { tw with curIndex := idx, slots := tw.slots.set idx.toNat r.slot },
           world := r.world, log := r.log }

/-- The answer of `ShouldRelease()` of an item does not depend on the other
items: it is the same before and after a `ShouldRelease()` or `Release()` call
on another item. -/
def independentItems {α σ : Type} (env : Env α σ) : Prop :=
  ∀ (j k : α) (w : σ), j ≠ k →
    (env.ShouldRelease k (env.ShouldRelease j w).2).1 = (env.ShouldRelease k w).1 ∧
    (env.ShouldRelease k (env.Release j w)).1 = (env.ShouldRelease k w).1

/-! ## The observer -/

/-- Go interface `timingwheelObserver`: four methods without arguments or
results, run on the world state like all user code. -/
structure Observer (σ : Type) where
  beforeStep : σ → σ
  afterStep : σ → σ
  afterRelease : σ → σ
  afterMove : σ → σ

/-- The loop `for k := range curSlot { ... }` of `stepForwardWithObserver`: as
in `stepForward`, with `ob.afterRelease()` after each `r.Release()`. -/
def rangeLoopWithObserver {α σ : Type} [DecidableEq α] (env : Env α σ) (ob : Observer σ) :
    List α → itemCon α → σ → Scan α σ
  | [], m, w => { slot := m, world := w, log := [] }
  | k :: ks, m, w =>
    if k ∈ m then
      if env.isReleaser k then
        if (env.ShouldRelease k w).1 then
          Scan.emit [Event.visit k, Event.shouldRelease k true, Event.release k,
              Event.hook Hook.afterRelease]
            (rangeLoopWithObserver env ob ks (itemCon.delete m k)
              (ob.afterRelease (env.Release k (env.ShouldRelease k w).2)))
        else
          Scan.emit [Event.visit k, Event.shouldRelease k false]
            (rangeLoopWithObserver env ob ks m (env.ShouldRelease k w).2)
      else
        Scan.emit [Event.visit k] (rangeLoopWithObserver env ob ks m w)
    else
      rangeLoopWithObserver env ob ks m w

/-- Go `(*TimingWheel).stepForwardWithObserver(ob)`. -/
def stepForwardWithObserver {α σ : Type} [DecidableEq α] (env : Env α σ) (ob : Observer σ)
    (tw : TimingWheel α) (w : σ) : Option (Stepped α σ) :=
  let idx := tw.curIndex + 1
  let idx := if idx ≥ (tw.slots.length : Int) then 0 else idx
  match slotAt tw.slots idx with
  | none => none
  | some curSlot =>
    let r := rangeLoopWithObserver env ob curSlot curSlot w
    some { tw := { tw with curIndex := idx, slots := tw.slots.set idx.toNat r.slot },
           world := r.world, log := r.log }

/-! ## Run -/

/-- What `Run` does, in the order it does it: `shouldQuit r` when
`shouldQuit()` is called and answers `r`, `tick` when a tick is received from
the ticker, `step log` when a Step is performed, with the calls it made,
`hook h` when `Run` itself calls an observer method, `deferFunc` when
`deferFunc()` is called. -/
inductive RunEvent (α : Type) where
  | shouldQuit (r : Bool)
  | tick
  | step (log : List (Event α))
  | hook (h : Hook)
  | deferFunc

/-- The wheel, the world state and what `Run` has done so far. -/
structure RunState (α σ : Type) where
  tw : TimingWheel α
  world : σ
  trace : List (RunEvent α)

/-- How a call of `Run` stands when the ticks supplied are used up: it has
`returned`; or it is `waiting` for a tick that has not come; or it has
`panicked` (its deferred call has run); or the program has `crashed` in
another goroutine. -/
inductive Outcome (α σ : Type) where
  | returned (s : RunState α σ)
  | waiting (s : RunState α σ)
  | panicked (s : RunState α σ)
  | crashed (s : RunState α σ)

/-- The loop `for { ... }` of `Run`.  `shouldQuit i` is the `i`-th call of
`shouldQuit()`, counted from 0.  The list holds one entry for each tick that
comes: what the other goroutines do to the wheel and the world while `Run`
waits for it. -/
def runLoop {α σ : Type} [DecidableEq α] (env : Env α σ) (shouldQuit : Nat → σ → Bool × σ) :
    List (List (Op α σ)) → Nat → RunState α σ → Outcome α σ
  | ticks, i, s =>
    let q := shouldQuit i s.world
    let s1 : RunState α σ :=
      { s with world := q.2, trace := s.trace ++ [RunEvent.shouldQuit q.1] }
    if q.1 then
      Outcome.returned s1
    else
      match ticks with
      | [] => Outcome.waiting s1
      | others :: rest =>
        match run env others { tw := s1.tw, world := s1.world, logs := [] } with
        | none => Outcome.crashed s1
        | some t =>
          match stepForward env t.tw t.world with
          | none =>
            Outcome.panicked { tw := t.tw, world := t.world,
                               trace := s1.trace ++ [RunEvent.tick] }
          | some r =>
            runLoop env shouldQuit rest (i + 1)
              { tw := r.tw, world := r.world,
                trace := s1.trace ++ [RunEvent.tick, RunEvent.step r.log] }

/-- Go `defer deferFunc()`: the call is made when the function returns and
when it panics. -/
def deferred {α σ : Type} (deferFunc : σ → σ) : Outcome α σ → Outcome α σ
  | Outcome.returned s =>
    Outcome.returned { s with world := deferFunc s.world,
                              trace := s.trace ++ [RunEvent.deferFunc] }
  | Outcome.panicked s =>
    Outcome.panicked { s with world := deferFunc s.world,
                              trace := s.trace ++ [RunEvent.deferFunc] }
  | Outcome.waiting s => Outcome.waiting s
  | Outcome.crashed s => Outcome.crashed s

/-- Go `(*TimingWheel).Run(shouldQuit, deferFunc)`.  `time.NewTicker` panics
when the step time is not positive. -/
def Run {α σ : Type} [DecidableEq α] (env : Env α σ) (shouldQuit : Nat → σ → Bool × σ)
    (deferFunc : σ → σ) (ticks : List (List (Op α σ))) (tw : TimingWheel α) (w : σ) :
    Outcome α σ :=
  deferred deferFunc
    (if tw.stepTime ≤ 0 then
      Outcome.panicked { tw := tw, world := w, trace := [] }
    else
      runLoop env shouldQuit ticks 0 { tw := tw, world := w, trace := [] })

/-- The loop `for { ... }` of `runWithStepObserver`. -/
def runLoopWithStepObserver {α σ : Type} [DecidableEq α] (env : Env α σ)
    (shouldQuit : Nat → σ → Bool × σ) (ob : Observer σ) :
    List (List (Op α σ)) → Nat → RunState α σ → Outcome α σ
  | ticks, i, s =>
    let q := shouldQuit i s.world
    let s1 : RunState α σ :=
      { s with world := q.2, trace := s.trace ++ [RunEvent.shouldQuit q.1] }
    if q.1 then
      Outcome.returned s1
    else
      match ticks with
      | [] => Outcome.waiting s1
      | others :: rest =>
        match run env others { tw := s1.tw, world := s1.world, logs := [] } with
        | none => Outcome.crashed s1
        | some t =>
          match stepForwardWithObserver env ob t.tw (ob.beforeStep t.world) with
          | none =>
            Outcome.panicked { tw := t.tw, world := ob.beforeStep t.world,
                               trace := s1.trace ++
                                 [RunEvent.tick, RunEvent.hook Hook.beforeStep] }
          | some r =>
            runLoopWithStepObserver env shouldQuit ob rest (i + 1)
              { tw := r.tw, world := ob.afterStep r.world,
                trace := s1.trace ++
                  [RunEvent.tick, RunEvent.hook Hook.beforeStep, RunEvent.step r.log,
                   RunEvent.hook Hook.afterStep] }

/-- Go `(*TimingWheel).runWithStepObserver(shouldQuit, deferFunc, ob)`. -/
def runWithStepObserver {α σ : Type} [DecidableEq α] (env : Env α σ)
    (shouldQuit : Nat → σ → Bool × σ) (deferFunc : σ → σ) (ob : Observer σ)
    (ticks : List (List (Op α σ))) (tw : TimingWheel α) (w : σ) : Outcome α σ :=
  deferred deferFunc
    (if tw.stepTime ≤ 0 then
      Outcome.panicked { tw := tw, world := w, trace := [] }
    else
      runLoopWithStepObserver env shouldQuit ob ticks 0 { tw := tw, world := w, trace := [] })

/-- The trace of `k` rounds of the loop of `Run`, the `i`-th with the Step log
`logs[i]`. -/
def roundsTrace {α : Type} (logs : List (List (Event α))) : List (RunEvent α) :=
  logs.flatMap (fun log => [RunEvent.shouldQuit false, RunEvent.tick, RunEvent.step log])

/-- The trace of `k` rounds of the loop of `runWithStepObserver`. -/
def observedRoundsTrace {α : Type} (logs : List (List (Event α))) : List (RunEvent α) :=
  logs.flatMap (fun log =>
    [RunEvent.shouldQuit false, RunEvent.tick, RunEvent.hook Hook.beforeStep,
     RunEvent.step log, RunEvent.hook Hook.afterStep])

/-- Holds for the events of `Run` that are a Step. -/
def RunEvent.isStep {α : Type} : RunEvent α → Bool
  | RunEvent.step _ => true
  | _ => false

/-- Holds for the events of `Run` that are a call of `deferFunc()`. -/
def RunEvent.isDeferFunc {α : Type} : RunEvent α → Bool
  | RunEvent.deferFunc => true
  | _ => false

/-- The function `f` on the world respects the relation `R`: it takes related
worlds to related worlds. -/
def respects {σ : Type} (R : σ → σ → Prop) (f : σ → σ) : Prop :=
  ∀ a b, R a b → R (f a) (f b)

/-- The relation `R` does not see the function `h`: a world stays related to
another whatever `h` does to that other. -/
def unseen {σ : Type} (R : σ → σ → Prop) (h : σ → σ) : Prop :=
  ∀ a b, R a b → R a (h b)

/-- The items respect `R`: in related worlds `ShouldRelease()` gives the same
answer, and `ShouldRelease()` and `Release()` lead to related worlds. -/
def itemsRespect {α σ : Type} (env : Env α σ) (R : σ → σ → Prop) : Prop :=
  ∀ k a b, R a b →
    (env.ShouldRelease k a).1 = (env.ShouldRelease k b).1 ∧
    R (env.ShouldRelease k a).2 (env.ShouldRelease k b).2 ∧
    R (env.Release k a) (env.Release k b)

/-- The function `shouldQuit` respects `R`: in related worlds it gives the same
answer and leads to related worlds. -/
def quitRespects {σ : Type} (shouldQuit : Nat → σ → Bool × σ) (R : σ → σ → Prop) : Prop :=
  ∀ i a b, R a b →
    (shouldQuit i a).1 = (shouldQuit i b).1 ∧ R (shouldQuit i a).2 (shouldQuit i b).2

/-- What the other goroutines do to the world respects `R`. -/
def opsRespect {α σ : Type} (ops : List (Op α σ)) (R : σ → σ → Prop) : Prop :=
  ∀ f, Op.external f ∈ ops → respects R f

/-- The trace of `runWithStepObserver` without what the observer adds: the
calls of `beforeStep()` and `afterStep()`, and the calls of observer methods
inside the Steps. -/
def eraseObserver {α : Type} : List (RunEvent α) → List (RunEvent α)
  | [] => []
  | RunEvent.hook _ :: es => eraseObserver es
  | RunEvent.step log :: es => RunEvent.step (eraseHooks log) :: eraseObserver es
  | RunEvent.shouldQuit r :: es => RunEvent.shouldQuit r :: eraseObserver es
  | RunEvent.tick :: es => RunEvent.tick :: eraseObserver es
  | RunEvent.deferFunc :: es => RunEvent.deferFunc :: eraseObserver es

/-- The state `s1` of an observed run is the state `s0` of a plain run, but for
the observer: the same wheel, the same trace once the observer is erased, and
worlds that `R` relates. -/
def sameState {α σ : Type} (R : σ → σ → Prop) (s0 s1 : RunState α σ) : Prop :=
  s1.tw = s0.tw ∧ eraseObserver s1.trace = s0.trace ∧ R s0.world s1.world

/-- The outcome of an observed run is the outcome of a plain run, but for the
observer: both have returned, or both wait, or both have panicked, or both
have crashed, in the same state. -/
def sameRun {α σ : Type} (R : σ → σ → Prop) : Outcome α σ → Outcome α σ → Prop
  | Outcome.returned s0, Outcome.returned s1 => sameState R s0 s1
  | Outcome.waiting s0, Outcome.waiting s1 => sameState R s0 s1
  | Outcome.panicked s0, Outcome.panicked s1 => sameState R s0 s1
  | Outcome.crashed s0, Outcome.crashed s1 => sameState R s0 s1
  | _, _ => False

/-- The operations that the first `k` rounds of the loop of `Run` amount to,
when the first of them makes the call `i` of `shouldQuit()`: in each round the
effect of `shouldQuit()` on the world, what the other goroutines do while `Run`
waits for the tick, and one Step. -/
def roundsOps {α σ : Type} (shouldQuit : Nat → σ → Bool × σ) :
    List (List (Op α σ)) → Nat → Nat → List (Op α σ)
  | others :: rest, i, k + 1 =>
    Op.external (fun w => (shouldQuit i w).2) ::
      (others ++ Op.step :: roundsOps shouldQuit rest (i + 1) k)
  | _, _, _ => []

/-- Of the logs of the Steps of a run of `roundsOps`, those of the Steps that
`Run` makes itself: in each round the Steps of the other goroutines, if any,
come first. -/
def ownLogs {α σ : Type} :
    List (List (Op α σ)) → List (List (Event α)) → List (List (Event α))
  | [], _ => []
  | others :: rest, logs =>
    (logs.drop (countSteps others)).take 1 ++
      ownLogs rest (logs.drop (countSteps others + 1))

/-- The items as `stepForwardWithObserver` treats them: each `Release()` is
followed by the observer's `afterRelease()`. -/
def observedEnv {α σ : Type} (env : Env α σ) (ob : Observer σ) : Env α σ where
  isReleaser := env.isReleaser
  ShouldRelease := env.ShouldRelease
  Release := fun k w => ob.afterRelease (env.Release k w)

/-- The operations that the first `k` rounds of the loop of
`runWithStepObserver` amount to: as `roundsOps`, with `beforeStep()` before and
`afterStep()` after each Step. -/
def observedRoundsOps {α σ : Type} (shouldQuit : Nat → σ → Bool × σ) (ob : Observer σ) :
    List (List (Op α σ)) → Nat → Nat → List (Op α σ)
  | others :: rest, i, k + 1 =>
    Op.external (fun w => (shouldQuit i w).2) ::
      (others ++ Op.external ob.beforeStep :: Op.step :: Op.external ob.afterStep ::
        observedRoundsOps shouldQuit ob rest (i + 1) k)
  | _, _, _ => []

/-! ## A sample environment -/

/-- Items in the manner of the test's `Item`: the world is a clock, the even
handles implement `Releaser`, item `k` asks to be released once the clock has
passed `k`; every call of `ShouldRelease()` takes one unit of time, every call
of `Release()` ten. -/
def sampleEnv : Env Nat Nat where
  isReleaser := fun k => k % 2 == 0
  ShouldRelease := fun k w => (decide (k < w), w + 1)
  Release := fun _ w => w + 10

/-- Items whose `ShouldRelease()` answer is fixed: the even handles implement
`Releaser` and are due when below 10; the world counts the calls made. -/
def fixedEnv : Env Nat Nat where
  isReleaser := fun k => k % 2 == 0
  ShouldRelease := fun k w => (decide (k < 10), w + 1)
  Release := fun _ w => w + 1

/-- Items that are all Releasers and are due as long as the world, a flag, is
0. -/
def flagEnv : Env Nat Nat where
  isReleaser := fun _ => true
  ShouldRelease := fun _ w => (decide (w = 0), w)
  Release := fun _ w => w

/-- An observer whose `afterRelease()` raises the flag. -/
def flagObserver : Observer Nat where
  beforeStep := fun w => w
  afterStep := fun w => w
  afterRelease := fun _ => 1
  afterMove := fun w => w

/-- The items of `sampleEnv` in a world that has, beside the clock, a counter
for an observer. -/
def pairEnv : Env Nat (Nat × Nat) where
  isReleaser := fun k => k % 2 == 0
  ShouldRelease := fun k w => (decide (k < w.1), (w.1 + 1, w.2))
  Release := fun _ w => (w.1 + 10, w.2)

/-- An observer that counts the calls of its methods and leaves the clock
alone. -/
def countingObserver : Observer (Nat × Nat) where
  beforeStep := fun w => (w.1, w.2 + 1)
  afterStep := fun w => (w.1, w.2 + 1)
  afterRelease := fun w => (w.1, w.2 + 1)
  afterMove := fun w => (w.1, w.2 + 1)

/-- A `shouldQuit` that answers `false` on its first `k` calls and `true`
after, whatever the world. -/
def quitAfter {σ : Type} (k : Nat) : Nat → σ → Bool × σ :=
  fun i w => (decide (k ≤ i), w)

/-- Items of any type whose `ShouldRelease()` answers `true` once the clock has
reached 2: every item implements `Releaser`, every call of `ShouldRelease()`
takes one unit of time, every call of `Release()` ten. -/
def anyEnv : Env (AnyItem Nat) Nat where
  isReleaser := fun _ => true
  ShouldRelease := fun _ w => (decide (2 ≤ w), w + 1)
  Release := fun _ w => w + 10

/-! ## Arithmetic of the step time -/

theorem wrapInt64_of_inInt64 (x : Int) (h : inInt64 x) : wrapInt64 x = x := by
  unfold inInt64 at h
  unfold wrapInt64
  have h1 : (x + 2 ^ 63) % 2 ^ 64 = x + 2 ^ 63 :=
    Int.emod_eq_of_lt (by omega) (by omega)
  omega

/-- On a successful path the step computed by `NewTimingWheel`. -/
theorem NewTimingWheel_eq_ok {α : Type} (max slotCnt : Int) (hmax : 0 < max)
    (hcnt : 0 < slotCnt) (hge : slotCnt ≤ max) :
    (NewTimingWheel max slotCnt : Except Error (TimingWheel α)) =
      Except.ok { stepTime := if Int.tmod max slotCnt > 0
                    then wrapInt64 (Int.tdiv max slotCnt + 1) else Int.tdiv max slotCnt,
                  slots := List.replicate slotCnt.toNat [], curIndex := 0 } := by
  unfold NewTimingWheel
  have h1 : ¬ (max ≤ 0 ∨ slotCnt ≤ 0) := by omega
  have h2 : ¬ (max < slotCnt) := by omega
  simp only [h1, h2, if_false]

theorem NewTimingWheel_error_iff {α : Type} (max slotCnt : Int) :
    (NewTimingWheel max slotCnt : Except Error (TimingWheel α)) =
        Except.error Error.errInvalidDuration ↔
      (max ≤ 0 ∨ slotCnt ≤ 0 ∨ max < slotCnt) := by
  constructor
  · intro h
    by_contra hcon
    have hok := @NewTimingWheel_eq_ok α max slotCnt (by omega) (by omega) (by omega)
    rw [hok] at h
    cases h
  · intro h
    unfold NewTimingWheel
    by_cases h1 : max ≤ 0 ∨ slotCnt ≤ 0
    · simp only [h1, if_true]
    · have h2 : max < slotCnt := by omega
      simp only [h1, h2, if_false, if_true]

theorem step_spec (n c : Int) (hn : 0 < n) (hc : 0 < c) (hr : n < 2 ^ 63) :
    let s := if Int.tmod n c > 0 then wrapInt64 (Int.tdiv n c + 1) else Int.tdiv n c
    (s - 1) * c < n ∧ n ≤ s * c := by
  have hd : Int.tdiv n c = n / c := Int.tdiv_eq_ediv (le_of_lt hn) (le_of_lt hc)
  have hm : Int.tmod n c = n % c := Int.tmod_eq_emod (le_of_lt hn) (le_of_lt hc)
  have hdm : c * (n / c) + n % c = n := Int.ediv_add_emod n c
  have hm0 : 0 ≤ n % c := Int.emod_nonneg n (by omega)
  have hmc : n % c < c := Int.emod_lt_of_pos n hc
  have hq0 : 0 ≤ n / c := Int.ediv_nonneg (le_of_lt hn) (le_of_lt hc)
  have hqn : n / c ≤ n := Int.ediv_le_self c (le_of_lt hn)
  rw [hd, hm]
  by_cases hpos : n % c > 0
  · have hlt : n / c < n := by
      by_contra hcon
      have heq : n / c = n := by omega
      rw [heq] at hdm
      have : n ≤ c * n := by nlinarith
      omega
    have hw : wrapInt64 (n / c + 1) = n / c + 1 :=
      wrapInt64_of_inInt64 _ ⟨by omega, by omega⟩
    simp only [hpos, if_true, hw]
    constructor <;> nlinarith
  · have hz : n % c = 0 := by omega
    simp only [hpos, if_false]
    constructor <;> nlinarith

/-! ## Claims on NewTimingWheel -/

/-- C1: for every `max > 0`, `slotCnt > 0` with `max.Nanoseconds() >= slotCnt`
(`max` an int64), `NewTimingWheel(max, slotCnt)` returns a wheel and no error,
and the wheel's `stepTime` is the ceiling of `max_ns / slotCnt`. -/
theorem C1_NewTimingWheel_succeeds_with_ceil_step {α : Type} (max slotCnt : Int)
    (hmax : 0 < max) (hcnt : 0 < slotCnt) (hge : slotCnt ≤ max) (hr : inInt64 max) :
    ∃ tw : TimingWheel α, NewTimingWheel max slotCnt = Except.ok tw ∧
      tw.stepTime = ⌈(max : ℚ) / (slotCnt : ℚ)⌉ := by
  refine ⟨_, NewTimingWheel_eq_ok max slotCnt hmax hcnt hge, ?_⟩
  have hs := step_spec max slotCnt hmax hcnt hr.2
  simp only at hs ⊢
  generalize (if Int.tmod max slotCnt > 0 then wrapInt64 (Int.tdiv max slotCnt + 1)
    else Int.tdiv max slotCnt) = s at hs ⊢
  have hcq : (0 : ℚ) < (slotCnt : ℚ) := by exact_mod_cast hcnt
  symm
  rw [Int.ceil_eq_iff]
  constructor
  · rw [lt_div_iff₀ hcq]
    have : (((s - 1) * slotCnt : Int) : ℚ) < ((max : Int) : ℚ) := by exact_mod_cast hs.1
    push_cast at this
    linarith
  · rw [div_le_iff₀ hcq]
    have : ((max : Int) : ℚ) ≤ ((s * slotCnt : Int) : ℚ) := by exact_mod_cast hs.2
    push_cast at this
    linarith

/-- C1 at the input of the test: `NewTimingWheel(3ns, 2)` succeeds and its
`stepTime` is 2ns. -/
theorem C1_witness :
    (0 : Int) < 3 ∧ (0 : Int) < 2 ∧ (2 : Int) ≤ 3 ∧ inInt64 3 ∧
    ∃ tw : TimingWheel Nat, NewTimingWheel 3 2 = Except.ok tw ∧
      tw.stepTime = ⌈((3 : Int) : ℚ) / ((2 : Int) : ℚ)⌉ ∧ tw.stepTime = 2 := by
  refine ⟨by decide, by decide, by decide, by decide, ?_⟩
  obtain ⟨tw, h1, h2⟩ := @C1_NewTimingWheel_succeeds_with_ceil_step Nat 3 2
    (by decide) (by decide) (by decide) (by decide)
  refine ⟨tw, h1, h2, ?_⟩
  have h3 : (NewTimingWheel 3 2 : Except Error (TimingWheel Nat)) =
      Except.ok { stepTime := 2, slots := [[], []], curIndex := 0 } := by rfl
  rw [h3] at h1
  cases h1
  rfl

/-- C2: `NewTimingWheel(max, slotCnt)` fails with the invalid-duration error
exactly when `max <= 0`, or `slotCnt <= 0`, or `max.Nanoseconds() < slotCnt`;
it fails for (-1ns, 2), (0, 2), (2ns, -1), (2ns, 0) and (1ns, 2). -/
theorem C2_NewTimingWheel_fails_iff {α : Type} :
    (∀ max slotCnt : Int,
      (NewTimingWheel max slotCnt : Except Error (TimingWheel α)) =
          Except.error Error.errInvalidDuration ↔
        (max ≤ 0 ∨ slotCnt ≤ 0 ∨ max < slotCnt)) ∧
    (NewTimingWheel (-1) 2 : Except Error (TimingWheel α)) =
      Except.error Error.errInvalidDuration ∧
    (NewTimingWheel 0 2 : Except Error (TimingWheel α)) =
      Except.error Error.errInvalidDuration ∧
    (NewTimingWheel 2 (-1) : Except Error (TimingWheel α)) =
      Except.error Error.errInvalidDuration ∧
    (NewTimingWheel 2 0 : Except Error (TimingWheel α)) =
      Except.error Error.errInvalidDuration ∧
    (NewTimingWheel 1 2 : Except Error (TimingWheel α)) =
      Except.error Error.errInvalidDuration := by
  refine ⟨fun max slotCnt => NewTimingWheel_error_iff max slotCnt, ?_, ?_, ?_, ?_, ?_⟩
  all_goals simp [NewTimingWheel]

/-! ## Slices and maps: basic facts -/

theorem slotAt_eq_some {α : Type} (slots : slotCon α) (i : Int) (h0 : 0 ≤ i)
    (hlt : i < (slots.length : Int)) : ∃ m, slotAt slots i = some m := by
  have hn : i.toNat < slots.length := by omega
  refine ⟨slots[i.toNat], ?_⟩
  simp [slotAt, h0, List.getElem?_eq_getElem hn]

theorem slotAt_range {α : Type} (slots : slotCon α) (i : Int) (m : itemCon α)
    (h : slotAt slots i = some m) : 0 ≤ i ∧ i < (slots.length : Int) := by
  unfold slotAt at h
  by_cases h0 : 0 ≤ i
  · simp only [h0, if_true] at h
    have := List.getElem?_eq_some_iff.mp h
    obtain ⟨hn, _⟩ := this
    omega
  · simp [h0] at h

theorem slotAt_mem {α : Type} (slots : slotCon α) (i : Int) (m : itemCon α)
    (h : slotAt slots i = some m) : m ∈ slots := by
  unfold slotAt at h
  by_cases h0 : 0 ≤ i
  · simp only [h0, if_true] at h
    exact List.getElem?_mem h
  · simp [h0] at h

theorem slotAt_set_same {α : Type} (slots : slotCon α) (i : Int) (m : itemCon α)
    (h0 : 0 ≤ i) (hlt : i < (slots.length : Int)) :
    slotAt (slots.set i.toNat m) i = some m := by
  have hn : i.toNat < slots.length := by omega
  simp [slotAt, h0, hn]

theorem slotAt_set_other {α : Type} (slots : slotCon α) (i j : Int) (m : itemCon α)
    (h0 : 0 ≤ j) (hne : i ≠ j) :
    slotAt (slots.set j.toNat m) i = slotAt slots i := by
  unfold slotAt
  by_cases hi : 0 ≤ i
  · have hn : j.toNat ≠ i.toNat := by omega
    simp [hi, List.getElem?_set_ne hn]
  · simp [hi]

theorem foldl_total {α : Type} (slots : slotCon α) (init : Int) :
    slots.foldl (fun total slot => total + (slot.length : Int)) init =
      init + ((slots.map List.length).sum : Nat) := by
  induction slots generalizing init with
  | nil => simp
  | cons m ms ih =>
    simp only [List.foldl_cons, List.map_cons, List.sum_cons, ih]
    push_cast
    ring

/-- The value of `itemCount` is the sum of the sizes of the slots. -/
theorem itemCount_eq_sum {α : Type} (tw : TimingWheel α) :
    itemCount tw = ((tw.slots.map List.length).sum : Nat) := by
  unfold itemCount
  rw [foldl_total]
  simp

theorem insert_mem {α : Type} [DecidableEq α] (m : itemCon α) (k x : α) :
    x ∈ itemCon.insert m k ↔ x ∈ m ∨ x = k := by
  unfold itemCon.insert
  by_cases h : k ∈ m
  · simp only [h, if_true]
    constructor
    · intro hx; exact Or.inl hx
    · rintro (hx | hx)
      · exact hx
      · rw [hx]; exact h
  · simp [h]

theorem insert_length {α : Type} [DecidableEq α] (m : itemCon α) (k : α) :
    (itemCon.insert m k).length = if k ∈ m then m.length else m.length + 1 := by
  unfold itemCon.insert
  by_cases h : k ∈ m <;> simp [h]

theorem insert_insert {α : Type} [DecidableEq α] (m : itemCon α) (k : α) :
    itemCon.insert (itemCon.insert m k) k = itemCon.insert m k := by
  have h : k ∈ itemCon.insert m k := (insert_mem m k k).mpr (Or.inr rfl)
  generalize itemCon.insert m k = m1 at h ⊢
  unfold itemCon.insert
  simp only [h, if_true]

/-- C3: a wheel returned by a successful `NewTimingWheel(max, slotCnt)` has
exactly `slotCnt` slots, all of them empty, its `curIndex` is 0 and its
`itemCount()` is 0. -/
theorem C3_fresh_wheel_is_empty {α : Type} (max slotCnt : Int) (tw : TimingWheel α)
    (h : NewTimingWheel max slotCnt = Except.ok tw) :
    (tw.slots.length : Int) = slotCnt ∧ (∀ slot ∈ tw.slots, slot = []) ∧
      tw.curIndex = 0 ∧ itemCount tw = 0 := by
  have hv : ¬ (max ≤ 0 ∨ slotCnt ≤ 0 ∨ max < slotCnt) := by
    intro hcon
    rw [(NewTimingWheel_error_iff max slotCnt).mpr hcon] at h
    cases h
  rw [NewTimingWheel_eq_ok max slotCnt (by omega) (by omega) (by omega)] at h
  cases h
  refine ⟨?_, ?_, rfl, ?_⟩
  · simp only [List.length_replicate]
    omega
  · intro slot hslot
    exact (List.mem_replicate.mp hslot).2
  · rw [itemCount_eq_sum]
    simp

/-- C3 at `NewTimingWheel(3ns, 2)`: two empty slots, cursor 0, no items. -/
theorem C3_witness :
    (NewTimingWheel 3 2 : Except Error (TimingWheel Nat)) =
        Except.ok { stepTime := 2, slots := [[], []], curIndex := 0 } ∧
    (([[], []] : slotCon Nat).length : Int) = 2 ∧
    (∀ slot ∈ ([[], []] : slotCon Nat), slot = []) ∧
    itemCount ({ stepTime := 2, slots := [[], []], curIndex := 0 } : TimingWheel Nat) = 0 :=
  have h := C3_fresh_wheel_is_empty 3 2
    ({ stepTime := 2, slots := [[], []], curIndex := 0 } : TimingWheel Nat) rfl
  ⟨rfl, h.1, h.2.1, h.2.2.2⟩

/-! ## Claims on AddItem -/

theorem AddItem_eq {α : Type} [DecidableEq α] (tw : TimingWheel α) (item : α)
    (m : itemCon α) (h : slotAt tw.slots tw.curIndex = some m) :
    AddItem tw item =
      some { tw with slots := tw.slots.set tw.curIndex.toNat (itemCon.insert m item) } := by
  unfold AddItem
  rw [h]

theorem AddItem_eq_none {α : Type} [DecidableEq α] (tw : TimingWheel α) (item : α)
    (h : slotAt tw.slots tw.curIndex = none) : AddItem tw item = none := by
  unfold AddItem
  rw [h]

/-- What `AddItem` does with a comparable item on a wheel whose `curIndex` is in
range: it returns, the current slot holds its previous members and `item`, its
size grows by 1 if `item` was not in it and by 0 if it was, and the other
slots, `curIndex`, `stepTime` and the number of slots are as before. -/
theorem AddItem_frame {α : Type} [DecidableEq α] (tw : TimingWheel α) (item : α)
    (h0 : 0 ≤ tw.curIndex) (hlt : tw.curIndex < (tw.slots.length : Int)) :
    ∃ (tw1 : TimingWheel α) (m m1 : itemCon α),
      AddItem tw item = some tw1 ∧
      slotAt tw.slots tw.curIndex = some m ∧
      slotAt tw1.slots tw.curIndex = some m1 ∧
      item ∈ m1 ∧
      (∀ x, x ∈ m → x ∈ m1) ∧
      (∀ x, x ∈ m1 → x ∈ m ∨ x = item) ∧
      m1.length = (if item ∈ m then m.length else m.length + 1) ∧
      (∀ i : Int, i ≠ tw.curIndex → slotAt tw1.slots i = slotAt tw.slots i) ∧
      tw1.curIndex = tw.curIndex ∧
      tw1.stepTime = tw.stepTime ∧
      tw1.slots.length = tw.slots.length := by
  obtain ⟨m, hm⟩ := slotAt_eq_some tw.slots tw.curIndex h0 hlt
  refine ⟨_, m, itemCon.insert m item, AddItem_eq tw item m hm, hm, ?_, ?_, ?_, ?_, ?_, ?_,
    rfl, rfl, ?_⟩
  · exact slotAt_set_same tw.slots tw.curIndex _ h0 hlt
  · exact (insert_mem m item item).mpr (Or.inr rfl)
  · intro x hx
    exact (insert_mem m item x).mpr (Or.inl hx)
  · intro x hx
    exact (insert_mem m item x).mp hx
  · exact insert_length m item
  · intro i hi
    exact slotAt_set_other tw.slots i tw.curIndex _ h0 hi
  · simp

/-- Calling `AddItem` twice in a row with the same comparable item leaves the
wheel in exactly the state one call leaves it in, with the same `itemCount()`;
where one call panics, so do two. -/
theorem AddItem_twice {α : Type} [DecidableEq α] (tw : TimingWheel α) (item : α) :
    (AddItem tw item).bind (fun tw1 => AddItem tw1 item) = AddItem tw item ∧
    ((AddItem tw item).bind (fun tw1 => AddItem tw1 item)).map itemCount =
      (AddItem tw item).map itemCount := by
  have key : (AddItem tw item).bind (fun tw1 => AddItem tw1 item) = AddItem tw item := by
    cases hm : slotAt tw.slots tw.curIndex with
    | none => rw [AddItem_eq_none tw item hm]; rfl
    | some m =>
      obtain ⟨h0, hlt⟩ := slotAt_range tw.slots tw.curIndex m hm
      rw [AddItem_eq tw item m hm]
      simp only [Option.some_bind]
      have h2 : slotAt (tw.slots.set tw.curIndex.toNat (itemCon.insert m item)) tw.curIndex =
          some (itemCon.insert m item) := slotAt_set_same tw.slots tw.curIndex _ h0 hlt
      rw [AddItem_eq _ item (itemCon.insert m item) h2]
      simp only [insert_insert, List.set_set]
  exact ⟨key, by rw [key]⟩

/-! ## The scan of a slot -/

@[simp] theorem emit_slot {α σ : Type} (es : List (Event α)) (r : Scan α σ) :
    (Scan.emit es r).slot = r.slot := rfl

@[simp] theorem emit_log {α σ : Type} (es : List (Event α)) (r : Scan α σ) :
    (Scan.emit es r).log = es ++ r.log := rfl

@[simp] theorem emit_world {α σ : Type} (es : List (Event α)) (r : Scan α σ) :
    (Scan.emit es r).world = r.world := rfl

theorem delete_mem {α : Type} [DecidableEq α] (m : itemCon α) (k x : α) :
    x ∈ itemCon.delete m k ↔ x ∈ m ∧ x ≠ k := by
  simp [itemCon.delete]

theorem rangeLoop_nil {α σ : Type} [DecidableEq α] (env : Env α σ) (m : itemCon α) (w : σ) :
    rangeLoop env [] m w = { slot := m, world := w, log := [] } := rfl

theorem rangeLoop_skip {α σ : Type} [DecidableEq α] (env : Env α σ) (a : α) (ks : List α)
    (m : itemCon α) (w : σ) (ha : a ∉ m) :
    rangeLoop env (a :: ks) m w = rangeLoop env ks m w := by
  simp [rangeLoop, ha]

theorem rangeLoop_plain {α σ : Type} [DecidableEq α] (env : Env α σ) (a : α) (ks : List α)
    (m : itemCon α) (w : σ) (ha : a ∈ m) (hr : env.isReleaser a = false) :
    rangeLoop env (a :: ks) m w = Scan.emit [Event.visit a] (rangeLoop env ks m w) := by
  simp [rangeLoop, ha, hr]

theorem rangeLoop_keep {α σ : Type} [DecidableEq α] (env : Env α σ) (a : α) (ks : List α)
    (m : itemCon α) (w : σ) (ha : a ∈ m) (hr : env.isReleaser a = true)
    (hs : (env.ShouldRelease a w).1 = false) :
    rangeLoop env (a :: ks) m w =
      Scan.emit [Event.visit a, Event.shouldRelease a false]
        (rangeLoop env ks m (env.ShouldRelease a w).2) := by
  simp [rangeLoop, ha, hr, hs]

theorem rangeLoop_release {α σ : Type} [DecidableEq α] (env : Env α σ) (a : α) (ks : List α)
    (m : itemCon α) (w : σ) (ha : a ∈ m) (hr : env.isReleaser a = true)
    (hs : (env.ShouldRelease a w).1 = true) :
    rangeLoop env (a :: ks) m w =
      Scan.emit [Event.visit a, Event.shouldRelease a true, Event.release a]
        (rangeLoop env ks (itemCon.delete m a) (env.Release a (env.ShouldRelease a w).2)) := by
  simp [rangeLoop, ha, hr, hs]

/-- The four ways one round of the loop can go. -/
theorem rangeLoop_cases {α σ : Type} [DecidableEq α] (env : Env α σ) (a : α) (ks : List α)
    (m : itemCon α) (w : σ) :
    (a ∉ m ∧ rangeLoop env (a :: ks) m w = rangeLoop env ks m w) ∨
    (a ∈ m ∧ env.isReleaser a = false ∧
      rangeLoop env (a :: ks) m w = Scan.emit [Event.visit a] (rangeLoop env ks m w)) ∨
    (a ∈ m ∧ env.isReleaser a = true ∧ (env.ShouldRelease a w).1 = false ∧
      rangeLoop env (a :: ks) m w =
        Scan.emit [Event.visit a, Event.shouldRelease a false]
          (rangeLoop env ks m (env.ShouldRelease a w).2)) ∨
    (a ∈ m ∧ env.isReleaser a = true ∧ (env.ShouldRelease a w).1 = true ∧
      rangeLoop env (a :: ks) m w =
        Scan.emit [Event.visit a, Event.shouldRelease a true, Event.release a]
          (rangeLoop env ks (itemCon.delete m a)
            (env.Release a (env.ShouldRelease a w).2))) := by
  by_cases ha : a ∈ m
  · cases hr : env.isReleaser a
    · exact Or.inr (Or.inl ⟨ha, rfl, rangeLoop_plain env a ks m w ha hr⟩)
    · cases hs : (env.ShouldRelease a w).1
      · exact Or.inr (Or.inr (Or.inl ⟨ha, rfl, rfl, rangeLoop_keep env a ks m w ha hr hs⟩))
      · exact Or.inr (Or.inr (Or.inr ⟨ha, rfl, rfl, rangeLoop_release env a ks m w ha hr hs⟩))
  · exact Or.inl ⟨ha, rangeLoop_skip env a ks m w ha⟩

theorem rangeLoop_visit {α σ : Type} [DecidableEq α] (env : Env α σ) (ks : List α)
    (m : itemCon α) (w : σ) (k : α) (h : Event.visit k ∈ (rangeLoop env ks m w).log) :
    k ∈ ks ∧ k ∈ m := by
  induction ks generalizing m w with
  | nil => simp [rangeLoop] at h
  | cons a ks ih =>
    rcases rangeLoop_cases env a ks m w with ⟨ha, e⟩ | ⟨ha, hr, e⟩ | ⟨ha, hr, hs, e⟩ |
      ⟨ha, hr, hs, e⟩ <;> rw [e] at h
    · have := ih _ _ h
      exact ⟨List.mem_cons_of_mem _ this.1, this.2⟩
    all_goals
      simp only [emit_log, List.cons_append, List.nil_append, List.mem_cons, Event.visit.injEq,
        reduceCtorEq, false_or] at h
      rcases h with h | h
      · subst h; exact ⟨List.mem_cons_self _ _, ha⟩
      · have := ih _ _ h
        first
          | exact ⟨List.mem_cons_of_mem _ this.1, this.2⟩
          | exact ⟨List.mem_cons_of_mem _ this.1, ((delete_mem m a k).mp this.2).1⟩

theorem rangeLoop_asked {α σ : Type} [DecidableEq α] (env : Env α σ) (ks : List α)
    (m : itemCon α) (w : σ) (k : α) (b : Bool)
    (h : Event.shouldRelease k b ∈ (rangeLoop env ks m w).log) :
    Event.visit k ∈ (rangeLoop env ks m w).log ∧ env.isReleaser k = true ∧
      ∃ w1, (env.ShouldRelease k w1).1 = b := by
  induction ks generalizing m w with
  | nil => simp [rangeLoop] at h
  | cons a ks ih =>
    rcases rangeLoop_cases env a ks m w with ⟨ha, e⟩ | ⟨ha, hr, e⟩ | ⟨ha, hr, hs, e⟩ |
      ⟨ha, hr, hs, e⟩ <;> rw [e] at h ⊢
    · exact ih _ _ h
    all_goals
      simp only [emit_log, List.cons_append, List.nil_append, List.mem_cons,
        Event.shouldRelease.injEq, Event.visit.injEq, reduceCtorEq, false_or] at h ⊢
    · have := ih _ _ h
      exact ⟨Or.inr this.1, this.2⟩
    · rcases h with ⟨h1, h2⟩ | h
      · subst h1; subst h2; exact ⟨Or.inl rfl, hr, w, hs⟩
      · have := ih _ _ h
        exact ⟨Or.inr this.1, this.2⟩
    · rcases h with ⟨h1, h2⟩ | h
      · subst h1; subst h2; exact ⟨Or.inl rfl, hr, w, hs⟩
      · have := ih _ _ h
        exact ⟨Or.inr this.1, this.2⟩

theorem rangeLoop_release_iff {α σ : Type} [DecidableEq α] (env : Env α σ) (ks : List α)
    (m : itemCon α) (w : σ) (k : α) :
    Event.release k ∈ (rangeLoop env ks m w).log ↔
      Event.shouldRelease k true ∈ (rangeLoop env ks m w).log := by
  induction ks generalizing m w with
  | nil => simp [rangeLoop]
  | cons a ks ih =>
    rcases rangeLoop_cases env a ks m w with ⟨ha, e⟩ | ⟨ha, hr, e⟩ | ⟨ha, hr, hs, e⟩ |
      ⟨ha, hr, hs, e⟩ <;> rw [e]
    · exact ih _ _
    all_goals
      simp only [emit_log, List.cons_append, List.nil_append, List.mem_cons,
        Event.shouldRelease.injEq, Event.release.injEq, reduceCtorEq, false_or, and_true,
        and_false, ih]

theorem rangeLoop_no_hook {α σ : Type} [DecidableEq α] (env : Env α σ) (ks : List α)
    (m : itemCon α) (w : σ) (h : Hook) : Event.hook h ∉ (rangeLoop env ks m w).log := by
  induction ks generalizing m w with
  | nil => simp [rangeLoop]
  | cons a ks ih =>
    rcases rangeLoop_cases env a ks m w with ⟨ha, e⟩ | ⟨ha, hr, e⟩ | ⟨ha, hr, hs, e⟩ |
      ⟨ha, hr, hs, e⟩ <;> rw [e]
    · exact ih _ _
    all_goals
      simp only [emit_log, List.cons_append, List.nil_append, List.mem_cons, reduceCtorEq,
        false_or]
      exact ih _ _

/-- What the scan leaves in the map: the keys that did not answer `true`. -/
theorem rangeLoop_slot {α σ : Type} [DecidableEq α] (env : Env α σ) (ks : List α)
    (m : itemCon α) (w : σ) :
    (rangeLoop env ks m w).slot =
      m.filter (fun x => decide (Event.shouldRelease x true ∉ (rangeLoop env ks m w).log)) := by
  induction ks generalizing m w with
  | nil => simp [rangeLoop]
  | cons a ks ih =>
    rcases rangeLoop_cases env a ks m w with ⟨ha, e⟩ | ⟨ha, hr, e⟩ | ⟨ha, hr, hs, e⟩ |
      ⟨ha, hr, hs, e⟩ <;> rw [e]
    · exact ih _ _
    · simp only [emit_slot, emit_log]
      rw [ih]
      apply List.filter_congr
      intro x _
      simp
    · simp only [emit_slot, emit_log]
      rw [ih]
      apply List.filter_congr
      intro x _
      simp
    · simp only [emit_slot, emit_log]
      rw [ih]
      unfold itemCon.delete
      rw [List.filter_filter]
      apply List.filter_congr
      intro x _
      simp only [List.cons_append, List.nil_append, List.mem_cons,
        Event.shouldRelease.injEq, reduceCtorEq, false_or, and_true]
      by_cases hx : x = a <;> simp [hx]

/-- The scan produces every key that is in the map when the loop starts, and
asks it `ShouldRelease()` if it is a Releaser. -/
theorem rangeLoop_examines {α σ : Type} [DecidableEq α] (env : Env α σ) (ks : List α)
    (m : itemCon α) (w : σ) (k : α) (hks : k ∈ ks) (hk : k ∈ m) :
    Event.visit k ∈ (rangeLoop env ks m w).log ∧
      (env.isReleaser k = true → ∃ b, Event.shouldRelease k b ∈ (rangeLoop env ks m w).log) := by
  induction ks generalizing m w with
  | nil => cases hks
  | cons a ks ih =>
    by_cases hak : a = k
    · subst hak
      rcases rangeLoop_cases env a ks m w with ⟨ha, e⟩ | ⟨ha, hr, e⟩ | ⟨ha, hr, hs, e⟩ |
        ⟨ha, hr, hs, e⟩
      · exact absurd hk ha
      · rw [e]
        refine ⟨by simp, ?_⟩
        intro h; rw [hr] at h; cases h
      · rw [e]
        exact ⟨by simp, fun _ => ⟨false, by simp⟩⟩
      · rw [e]
        exact ⟨by simp, fun _ => ⟨true, by simp⟩⟩
    · have hks1 : k ∈ ks := by
        rcases List.mem_cons.mp hks with h | h
        · exact absurd h.symm hak
        · exact h
      have hdel : k ∈ itemCon.delete m a := (delete_mem m a k).mpr ⟨hk, fun h => hak h.symm⟩
      rcases rangeLoop_cases env a ks m w with ⟨ha, e⟩ | ⟨ha, hr, e⟩ | ⟨ha, hr, hs, e⟩ |
        ⟨ha, hr, hs, e⟩ <;> rw [e]
      · exact ih m w hks1 hk
      · obtain ⟨h1, h2⟩ := ih m w hks1 hk
        refine ⟨by simp [h1], fun hr1 => ?_⟩
        obtain ⟨b, hb⟩ := h2 hr1
        exact ⟨b, by simp [hb]⟩
      · obtain ⟨h1, h2⟩ := ih m (env.ShouldRelease a w).2 hks1 hk
        refine ⟨by simp [h1], fun hr1 => ?_⟩
        obtain ⟨b, hb⟩ := h2 hr1
        exact ⟨b, by simp [hb]⟩
      · obtain ⟨h1, h2⟩ := ih (itemCon.delete m a)
          (env.Release a (env.ShouldRelease a w).2) hks1 hdel
        refine ⟨by simp [h1], fun hr1 => ?_⟩
        obtain ⟨b, hb⟩ := h2 hr1
        exact ⟨b, by simp [hb]⟩

/-! ## stepForward: the claim -/

/-- The value of `stepForward` once the slot at the next index is known. -/
theorem stepForward_eq {α σ : Type} [DecidableEq α] (env : Env α σ) (tw : TimingWheel α)
    (w : σ) (idx : Int) (old : itemCon α)
    (hidx : idx = if tw.curIndex + 1 ≥ (tw.slots.length : Int) then 0 else tw.curIndex + 1)
    (hold : slotAt tw.slots idx = some old) :
    stepForward env tw w =
      some { tw := { tw with curIndex := idx,
                             slots := tw.slots.set idx.toNat (rangeLoop env old old w).slot },
             world := (rangeLoop env old old w).world,
             log := (rangeLoop env old old w).log } := by
  unfold stepForward
  simp only [← hidx, hold]

theorem stepForward_eq_none {α σ : Type} [DecidableEq α] (env : Env α σ) (tw : TimingWheel α)
    (w : σ) (idx : Int)
    (hidx : idx = if tw.curIndex + 1 ≥ (tw.slots.length : Int) then 0 else tw.curIndex + 1)
    (hold : slotAt tw.slots idx = none) :
    stepForward env tw w = none := by
  unfold stepForward
  simp only [← hidx, hold]

theorem nextIndex_range (c n : Int) (h0 : 0 ≤ c) (hlt : c < n) :
    0 ≤ (if c + 1 ≥ n then 0 else c + 1) ∧ (if c + 1 ≥ n then 0 else c + 1) < n := by
  by_cases h : c + 1 ≥ n
  · simp only [h, if_true]; omega
  · simp only [h, if_false]; omega

theorem emod_next (c n : Int) (h0 : 0 ≤ c) (hlt : c < n) :
    (if c + 1 ≥ n then 0 else c + 1) = (c + 1) % n := by
  by_cases h : c + 1 ≥ n
  · have : c + 1 = n := by omega
    rw [if_pos h, this, Int.emod_self]
  · simp only [h, if_false]
    exact (Int.emod_eq_of_lt (by omega) (by omega)).symm

/-- With the cursor in range `stepForward` returns, and this is what it
returns. -/
theorem stepForward_ok {α σ : Type} [DecidableEq α] (env : Env α σ) (tw : TimingWheel α)
    (w : σ) (hr : inRange tw) :
    ∃ old, slotAt tw.slots ((tw.curIndex + 1) % (tw.slots.length : Int)) = some old ∧
      stepForward env tw w =
        some { tw := { tw with
                 curIndex := (tw.curIndex + 1) % (tw.slots.length : Int),
                 slots := tw.slots.set ((tw.curIndex + 1) % (tw.slots.length : Int)).toNat
                   (rangeLoop env old old w).slot },
               world := (rangeLoop env old old w).world,
               log := (rangeLoop env old old w).log } := by
  obtain ⟨h0, hlt⟩ := hr
  have hidx := emod_next tw.curIndex tw.slots.length h0 hlt
  obtain ⟨hi0, hilt⟩ := nextIndex_range tw.curIndex tw.slots.length h0 hlt
  rw [hidx] at hi0 hilt
  obtain ⟨old, hold⟩ := slotAt_eq_some tw.slots _ hi0 hilt
  exact ⟨old, hold, stepForward_eq env tw w _ old hidx.symm hold⟩

theorem AddItem_ok {α : Type} [DecidableEq α] (tw : TimingWheel α) (item : α)
    (hr : inRange tw) :
    ∃ m, slotAt tw.slots tw.curIndex = some m ∧
      AddItem tw item =
        some { tw with slots := tw.slots.set tw.curIndex.toNat (itemCon.insert m item) } := by
  obtain ⟨m, hm⟩ := slotAt_eq_some tw.slots tw.curIndex hr.1 hr.2
  exact ⟨m, hm, AddItem_eq tw item m hm⟩

theorem countSteps_cons {α σ : Type} (op : Op α σ) (ops : List (Op α σ)) :
    countSteps (op :: ops) = countSteps [op] + countSteps ops := by
  cases op <;> simp only [countSteps] <;> omega

theorem countSteps_append {α σ : Type} (a b : List (Op α σ)) :
    countSteps (a ++ b) = countSteps a + countSteps b := by
  induction a with
  | nil => simp [countSteps]
  | cons op a ih =>
    rw [List.cons_append, countSteps_cons, ih, countSteps_cons op a]
    omega

theorem countSteps_replicate {α σ : Type} (n : Nat) :
    countSteps (List.replicate n (Op.step : Op α σ)) = n := by
  induction n with
  | zero => rfl
  | succ n ih => simp only [List.replicate_succ, countSteps, ih]

theorem run_append {α σ : Type} [DecidableEq α] (env : Env α σ) (a b : List (Op α σ))
    (s : Sys α σ) : run env (a ++ b) s = (run env a s).bind (run env b) := by
  induction a generalizing s with
  | nil => rfl
  | cons op a ih =>
    simp only [List.cons_append, run]
    cases applyOp env s op with
    | none => rfl
    | some s1 => exact ih s1

/-- Every operation returns on a wheel whose cursor is in range, leaves the
cursor in range, keeps the number of slots and the step time, and moves the
cursor exactly when it is a Step. -/
theorem applyOp_ok {α σ : Type} [DecidableEq α] (env : Env α σ) (s : Sys α σ) (op : Op α σ)
    (hr : inRange s.tw) :
    ∃ s1, applyOp env s op = some s1 ∧ inRange s1.tw ∧
      s1.tw.slots.length = s.tw.slots.length ∧ s1.tw.stepTime = s.tw.stepTime ∧
      s1.tw.curIndex =
        (s.tw.curIndex + (countSteps [op] : Nat)) % (s.tw.slots.length : Int) := by
  have hself : s.tw.curIndex % (s.tw.slots.length : Int) = s.tw.curIndex :=
    Int.emod_eq_of_lt hr.1 hr.2
  cases op with
  | addItem item =>
    obtain ⟨m, _, hadd⟩ := AddItem_ok s.tw item hr
    have happ : applyOp env s (Op.addItem item) = some { s with tw :=
        { s.tw with slots := s.tw.slots.set s.tw.curIndex.toNat (itemCon.insert m item) } } := by
      simp only [applyOp, hadd]
    refine ⟨_, happ, ?_, ?_, rfl, ?_⟩
    · unfold inRange; simpa using hr
    · simp
    · simpa [countSteps] using hself.symm
  | step =>
    obtain ⟨old, _, hstep⟩ := stepForward_ok env s.tw s.world hr
    have hpos : (0 : Int) < (s.tw.slots.length : Int) := lt_of_le_of_lt hr.1 hr.2
    have happ : applyOp env s Op.step = some
        { tw := { s.tw with
            curIndex := (s.tw.curIndex + 1) % (s.tw.slots.length : Int),
            slots := s.tw.slots.set ((s.tw.curIndex + 1) % (s.tw.slots.length : Int)).toNat
              (rangeLoop env old old s.world).slot },
          world := (rangeLoop env old old s.world).world,
          logs := s.logs ++ [(rangeLoop env old old s.world).log] } := by
      simp only [applyOp, hstep]
    refine ⟨_, happ, ?_, ?_, rfl, ?_⟩
    · unfold inRange
      simp only [List.length_set]
      exact ⟨Int.emod_nonneg _ (by omega), Int.emod_lt_of_pos _ hpos⟩
    · simp
    · simp [countSteps]
  | external f =>
    refine ⟨{ s with world := f s.world }, rfl, hr, rfl, rfl, ?_⟩
    simpa [countSteps] using hself.symm

/-- Every sequence of operations returns on a wheel whose cursor is in range,
and the cursor has then advanced, circularly, by the number of Steps. -/
theorem run_ok {α σ : Type} [DecidableEq α] (env : Env α σ) (ops : List (Op α σ))
    (s : Sys α σ) (hr : inRange s.tw) :
    ∃ s1, run env ops s = some s1 ∧ inRange s1.tw ∧
      s1.tw.slots.length = s.tw.slots.length ∧ s1.tw.stepTime = s.tw.stepTime ∧
      s1.tw.curIndex =
        (s.tw.curIndex + (countSteps ops : Nat)) % (s.tw.slots.length : Int) := by
  induction ops generalizing s with
  | nil =>
    refine ⟨s, rfl, hr, rfl, rfl, ?_⟩
    simpa [countSteps] using (Int.emod_eq_of_lt hr.1 hr.2).symm
  | cons op ops ih =>
    obtain ⟨s1, h1, hr1, hl1, ht1, hc1⟩ := applyOp_ok env s op hr
    obtain ⟨s2, h2, hr2, hl2, ht2, hc2⟩ := ih s1 hr1
    refine ⟨s2, by simp only [run, h1, h2], hr2, by rw [hl2, hl1], by rw [ht2, ht1], ?_⟩
    rw [hc2, hc1, hl1, countSteps_cons op ops, Int.emod_add_emod]
    push_cast
    rw [add_assoc]

/-- C7: on a wheel with `N` slots and cursor `c` in `[0, N)`, every sequence
of operations with `k` Steps in it (AddItem calls interleaved at will) returns
and leaves the cursor at `(c + k) mod N`; after exactly `N` successive Steps
the cursor is back at `c`; and a freshly constructed wheel starts at cursor
0. -/
theorem C7_cursor_advances_mod_N {α σ : Type} [DecidableEq α] (env : Env α σ) (s : Sys α σ)
    (h0 : 0 ≤ s.tw.curIndex) (hlt : s.tw.curIndex < (s.tw.slots.length : Int)) :
    (∀ ops : List (Op α σ), ∃ s1, run env ops s = some s1 ∧
      s1.tw.curIndex =
        (s.tw.curIndex + (countSteps ops : Nat)) % (s.tw.slots.length : Int)) ∧
    (∃ s1, run env (List.replicate s.tw.slots.length Op.step) s = some s1 ∧
      s1.tw.curIndex = s.tw.curIndex) ∧
    (∀ (max slotCnt : Int) (tw0 : TimingWheel α),
      NewTimingWheel max slotCnt = Except.ok tw0 → tw0.curIndex = 0) := by
  have hr : inRange s.tw := ⟨h0, hlt⟩
  refine ⟨?_, ?_, ?_⟩
  · intro ops
    obtain ⟨s1, h1, _, _, _, hc⟩ := run_ok env ops s hr
    exact ⟨s1, h1, hc⟩
  · obtain ⟨s1, h1, _, _, _, hc⟩ := run_ok env (List.replicate s.tw.slots.length Op.step) s hr
    refine ⟨s1, h1, ?_⟩
    rw [hc, countSteps_replicate, Int.add_emod_self]
    exact Int.emod_eq_of_lt h0 hlt
  · intro max slotCnt tw0 h
    have hv : ¬ (max ≤ 0 ∨ slotCnt ≤ 0 ∨ max < slotCnt) := by
      intro hcon
      rw [(NewTimingWheel_error_iff max slotCnt).mpr hcon] at h
      cases h
    rw [NewTimingWheel_eq_ok max slotCnt (by omega) (by omega) (by omega)] at h
    cases h
    rfl

/-- C7 on a wheel of three slots with the cursor at 1: four Steps with an
AddItem and a change of the clock in between leave the cursor at
`(1 + 4) mod 3 = 2`, three Steps bring it back to 1. -/
theorem C7_witness :
    (0 : Int) ≤ 1 ∧ (1 : Int) < (([[4], [5], []] : slotCon Nat).length : Int) ∧
    (∃ s1, run sampleEnv
        [Op.step, Op.addItem 8, Op.step, Op.external (fun w => w + 5), Op.step, Op.step]
        { tw := { stepTime := 2, slots := [[4], [5], []], curIndex := 1 },
          world := 0, logs := [] } = some s1 ∧
      s1.tw.curIndex = 2) ∧
    (∃ s1, run sampleEnv (List.replicate 3 Op.step)
        { tw := { stepTime := 2, slots := [[4], [5], []], curIndex := 1 },
          world := 0, logs := [] } = some s1 ∧
      s1.tw.curIndex = 1) := by
  have h := C7_cursor_advances_mod_N sampleEnv
    { tw := { stepTime := 2, slots := [[4], [5], []], curIndex := 1 }, world := 0, logs := [] }
    (by decide) (by decide)
  refine ⟨by decide, by decide, ?_, h.2.1⟩
  obtain ⟨s1, h1, h2⟩ := h.1
    [Op.step, Op.addItem 8, Op.step, Op.external (fun w => w + 5), Op.step, Op.step]
  exact ⟨s1, h1, h2.trans (by decide)⟩

/-! ## Which items a scan touches -/

theorem rangeLoop_untouched {α σ : Type} [DecidableEq α] (env : Env α σ) (ks : List α)
    (m : itemCon α) (w : σ) (k : α) (hk : k ∉ m) :
    untouched k (rangeLoop env ks m w).log := by
  have hv : Event.visit k ∉ (rangeLoop env ks m w).log :=
    fun h => hk (rangeLoop_visit env ks m w k h).2
  refine ⟨hv, ?_, ?_⟩
  · intro b hb
    exact hv (rangeLoop_asked env ks m w k b hb).1
  · intro hrel
    exact hv (rangeLoop_asked env ks m w k true
      ((rangeLoop_release_iff env ks m w k).mp hrel)).1

theorem rangeLoop_subset {α σ : Type} [DecidableEq α] (env : Env α σ) (ks : List α)
    (m : itemCon α) (w : σ) (k : α) (h : k ∈ (rangeLoop env ks m w).slot) : k ∈ m := by
  rw [rangeLoop_slot] at h
  exact (List.mem_filter.mp h).1

theorem rangeLoop_stays {α σ : Type} [DecidableEq α] (env : Env α σ) (ks : List α)
    (m : itemCon α) (w : σ) (k : α) (hk : k ∈ m)
    (hn : Event.shouldRelease k true ∉ (rangeLoop env ks m w).log) :
    k ∈ (rangeLoop env ks m w).slot := by
  rw [rangeLoop_slot]
  exact List.mem_filter.mpr ⟨hk, by simpa using hn⟩

/-! ## The effect of one operation on where an item is -/

theorem slotAt_set {α : Type} (slots : slotCon α) (i j : Int) (m : itemCon α)
    (h0 : 0 ≤ j) (hlt : j < (slots.length : Int)) :
    slotAt (slots.set j.toNat m) i = if i = j then some m else slotAt slots i := by
  by_cases h : i = j
  · subst h
    simp only [if_true]
    exact slotAt_set_same slots i m h0 hlt
  · simp only [h, if_false]
    exact slotAt_set_other slots i j m h0 h

/-- What a Step does to the system, with the cursor in range. -/
theorem applyOp_step {α σ : Type} [DecidableEq α] (env : Env α σ) (s : Sys α σ)
    (hr : inRange s.tw) :
    ∃ old, slotAt s.tw.slots ((s.tw.curIndex + 1) % (s.tw.slots.length : Int)) = some old ∧
      applyOp env s Op.step = some
        { tw := { s.tw with
            curIndex := (s.tw.curIndex + 1) % (s.tw.slots.length : Int),
            slots := s.tw.slots.set ((s.tw.curIndex + 1) % (s.tw.slots.length : Int)).toNat
              (rangeLoop env old old s.world).slot },
          world := (rangeLoop env old old s.world).world,
          logs := s.logs ++ [(rangeLoop env old old s.world).log] } := by
  obtain ⟨old, hold, hstep⟩ := stepForward_ok env s.tw s.world hr
  exact ⟨old, hold, by simp only [applyOp, hstep]⟩

/-- What `AddItem` does to the system, with the cursor in range. -/
theorem applyOp_addItem {α σ : Type} [DecidableEq α] (env : Env α σ) (s : Sys α σ) (x : α)
    (hr : inRange s.tw) :
    ∃ m, slotAt s.tw.slots s.tw.curIndex = some m ∧
      applyOp env s (Op.addItem x) = some { s with tw :=
        { s.tw with slots := s.tw.slots.set s.tw.curIndex.toNat (itemCon.insert m x) } } := by
  obtain ⟨m, hm, hadd⟩ := AddItem_ok s.tw x hr
  exact ⟨m, hm, by simp only [applyOp, hadd]⟩

/-- A Step that scans a slot other than `c` does not touch an item that is
nowhere but in slot `c`, and leaves it where it is. -/
theorem step_elsewhere {α σ : Type} [DecidableEq α] (env : Env α σ) (s : Sys α σ) (k : α)
    (c : Int) (hr : inRange s.tw) (hnb : nowhereBut k c s.tw)
    (hne : (s.tw.curIndex + 1) % (s.tw.slots.length : Int) ≠ c) :
    ∃ s1 log, applyOp env s Op.step = some s1 ∧ s1.logs = s.logs ++ [log] ∧
      untouched k log ∧ nowhereBut k c s1.tw ∧
      (memberAt k c s.tw → memberAt k c s1.tw) ∧
      s1.tw.curIndex = (s.tw.curIndex + 1) % (s.tw.slots.length : Int) := by
  obtain ⟨old, hold, happ⟩ := applyOp_step env s hr
  obtain ⟨hj0, hjlt⟩ := slotAt_range _ _ _ hold
  have hk : k ∉ old := hnb _ old hne hold
  refine ⟨_, _, happ, rfl, rangeLoop_untouched env old old s.world k hk, ?_, ?_, rfl⟩
  · intro i m hi hm
    simp only [slotAt_set _ i _ _ hj0 hjlt] at hm
    by_cases hij : i = (s.tw.curIndex + 1) % (s.tw.slots.length : Int)
    · simp only [hij, if_true, Option.some.injEq] at hm
      subst hm
      exact fun h => hk (rangeLoop_subset env old old s.world k h)
    · simp only [hij, if_false] at hm
      exact hnb i m hi hm
  · rintro ⟨m, hm, hkm⟩
    exact ⟨m, (slotAt_set_other _ c _ _ hj0 (fun h => hne h.symm)).trans hm, hkm⟩

/-- A Step that scans slot `c` examines every member of slot `c`: it produces
it, asks it `ShouldRelease()` if it is a Releaser, and keeps it unless the
answer is `true`. -/
theorem step_here {α σ : Type} [DecidableEq α] (env : Env α σ) (s : Sys α σ) (k : α)
    (c : Int) (hr : inRange s.tw) (hnb : nowhereBut k c s.tw) (hmem : memberAt k c s.tw)
    (he : (s.tw.curIndex + 1) % (s.tw.slots.length : Int) = c) :
    ∃ s1 log, applyOp env s Op.step = some s1 ∧ s1.logs = s.logs ++ [log] ∧
      examined k log ∧
      (env.isReleaser k = true → ∃ b, Event.shouldRelease k b ∈ log) ∧
      nowhereBut k c s1.tw ∧
      (Event.shouldRelease k true ∉ log → memberAt k c s1.tw) ∧
      s1.tw.curIndex = c := by
  obtain ⟨old, hold, happ⟩ := applyOp_step env s hr
  obtain ⟨hj0, hjlt⟩ := slotAt_range _ _ _ hold
  obtain ⟨m, hm, hkm⟩ := hmem
  rw [he] at hold hj0 hjlt
  have hmo : m = old := by rw [hm] at hold; exact Option.some.inj hold
  subst hmo
  obtain ⟨hv, hask⟩ := rangeLoop_examines env m m s.world k hkm hkm
  refine ⟨_, _, happ, rfl, hv, hask, ?_, ?_, he⟩
  · intro i m1 hi hm1
    simp only [he, slotAt_set _ i _ _ hj0 hjlt, hi, if_false] at hm1
    exact hnb i m1 hi hm1
  · intro hn
    refine ⟨_, ?_, rangeLoop_stays env m m s.world k hkm hn⟩
    simp only [he]
    exact slotAt_set_same _ c _ hj0 hjlt

/-- `AddItem(x)` leaves every item where it is; an item other than `x` that is
nowhere but in slot `c` is still nowhere but in slot `c`. -/
theorem addItem_keeps {α σ : Type} [DecidableEq α] (env : Env α σ) (s : Sys α σ) (x k : α)
    (c : Int) (hr : inRange s.tw) :
    ∃ s1, applyOp env s (Op.addItem x) = some s1 ∧ s1.logs = s.logs ∧
      s1.world = s.world ∧ s1.tw.curIndex = s.tw.curIndex ∧
      (memberAt k c s.tw → memberAt k c s1.tw) ∧
      (x ≠ k ∨ c = s.tw.curIndex → nowhereBut k c s.tw → nowhereBut k c s1.tw) ∧
      memberAt x s.tw.curIndex s1.tw := by
  obtain ⟨m, hm, happ⟩ := applyOp_addItem env s x hr
  refine ⟨_, happ, rfl, rfl, rfl, ?_, ?_, ?_⟩
  · rintro ⟨m1, hm1, hk⟩
    by_cases hc : c = s.tw.curIndex
    · subst hc
      refine ⟨itemCon.insert m x, slotAt_set_same _ _ _ hr.1 hr.2, ?_⟩
      rw [hm] at hm1
      cases hm1
      exact (insert_mem m x k).mpr (Or.inl hk)
    · refine ⟨m1, ?_, hk⟩
      simp only [slotAt_set _ c _ _ hr.1 hr.2, hc, if_false]
      exact hm1
  · intro hx hnb i m1 hi hm1
    simp only [slotAt_set _ i _ _ hr.1 hr.2] at hm1
    by_cases hic : i = s.tw.curIndex
    · simp only [hic, if_true, Option.some.injEq] at hm1
      subst hm1
      intro hk
      rcases (insert_mem m x k).mp hk with h | h
      · exact hnb i m hi (hic ▸ hm) h
      · rcases hx with hx | hx
        · exact hx h.symm
        · exact hi (hic.trans hx.symm)
    · simp only [hic, if_false] at hm1
      exact hnb i m1 hi hm1
  · exact ⟨itemCon.insert m x, slotAt_set_same _ _ _ hr.1 hr.2,
      (insert_mem m x x).mpr (Or.inr rfl)⟩

/-! ## One rotation of the wheel -/

theorem emod_shift_ne (c n : Int) (e : Nat) (h0 : 0 ≤ c) (hlt : c < n) (he1 : 1 ≤ e)
    (he2 : (e : Int) < n) : (c + (e : Int)) % n ≠ c := by
  by_cases h : c + (e : Int) < n
  · rw [Int.emod_eq_of_lt (by omega) h]
    omega
  · rw [Int.emod_eq_sub_self_emod, Int.emod_eq_of_lt (by omega) (by omega)]
    omega

theorem addsItem_cons_addItem {α σ : Type} [DecidableEq α] (k x : α) (ops : List (Op α σ))
    (h : addsItem k (Op.addItem x :: ops) = false) : x ≠ k ∧ addsItem k ops = false := by
  simp only [addsItem, Bool.or_eq_false_iff, decide_eq_false_iff_not] at h
  exact h

theorem addsItem_append {α σ : Type} [DecidableEq α] (k : α) (a b : List (Op α σ)) :
    addsItem k (a ++ b) = (addsItem k a || addsItem k b) := by
  induction a with
  | nil => simp [addsItem]
  | cons op a ih =>
    cases op with
    | addItem x =>
      show (decide (x = k) || addsItem k (a ++ b)) = _
      rw [ih]
      simp only [addsItem, Bool.or_assoc]
    | step =>
      show addsItem k (a ++ b) = _
      rw [ih]
      rfl
    | external f =>
      show addsItem k (a ++ b) = _
      rw [ih]
      rfl

/-- While fewer than `N` Steps have passed since slot `c` was current, an item
that is in slot `c` and nowhere else is touched by no Step and stays in slot
`c`, whatever else is added and whatever happens to the world.  Here `d` Steps
have passed already. -/
theorem quiet_run {α σ : Type} [DecidableEq α] (env : Env α σ) (k : α) (c : Int)
    (ops : List (Op α σ)) :
    ∀ (s : Sys α σ) (d : Nat), inRange s.tw → nowhereBut k c s.tw → memberAt k c s.tw →
      s.tw.curIndex = (c + (d : Int)) % (s.tw.slots.length : Int) →
      addsItem k ops = false → d + countSteps ops + 1 ≤ s.tw.slots.length →
      ∃ s1 quiet, run env ops s = some s1 ∧ s1.logs = s.logs ++ quiet ∧
        quiet.length = countSteps ops ∧ (∀ log, log ∈ quiet → untouched k log) ∧
        inRange s1.tw ∧ s1.tw.slots.length = s.tw.slots.length ∧
        nowhereBut k c s1.tw ∧ memberAt k c s1.tw ∧
        s1.tw.curIndex =
          (c + ((d + countSteps ops : Nat) : Int)) % (s.tw.slots.length : Int) := by
  induction ops with
  | nil =>
    intro s d hr hnb hmem hcur _ _
    exact ⟨s, [], rfl, by simp, rfl, by simp, hr, rfl, hnb, hmem, by simpa [countSteps] using hcur⟩
  | cons op ops ih =>
    intro s d hr hnb hmem hcur hadds hcount
    obtain ⟨s1, h1, hr1, hl1, _, _⟩ := applyOp_ok env s op hr
    cases op with
    | addItem x =>
      obtain ⟨hx, hadds1⟩ := addsItem_cons_addItem k x ops hadds
      obtain ⟨s1a, h1a, hlog, _, hcur1, hmem1, hnb1, _⟩ := addItem_keeps env s x k c hr
      rw [h1] at h1a
      cases h1a
      obtain ⟨s2, quiet, h2, hlogs, hlen, hq, hr2, hl2, hnb2, hmem2, hcur2⟩ :=
        ih s1 d hr1 (hnb1 (Or.inl hx) hnb) (hmem1 hmem) (by rw [hcur1, hl1]; exact hcur) hadds1
          (by rw [hl1]; simpa [countSteps] using hcount)
      refine ⟨s2, quiet, by simp only [run, h1, h2], by rw [hlogs, hlog], ?_, hq, hr2,
        by rw [hl2, hl1], hnb2, hmem2, ?_⟩
      · simpa [countSteps] using hlen
      · rw [hcur2, hl1]
        simp [countSteps]
    | external f =>
      have h1a : applyOp env s (Op.external f) = some { s with world := f s.world } := rfl
      rw [h1] at h1a
      cases h1a
      obtain ⟨s2, quiet, h2, hlogs, hlen, hq, hr2, hl2, hnb2, hmem2, hcur2⟩ :=
        ih { s with world := f s.world } d hr hnb hmem hcur
          (by simpa [addsItem] using hadds) (by simpa [countSteps] using hcount)
      refine ⟨s2, quiet, by simp only [run, h1, h2], hlogs, ?_, hq, hr2, hl2, hnb2, hmem2, ?_⟩
      · simpa [countSteps] using hlen
      · rw [hcur2]
        simp [countSteps]
    | step =>
      have hcs : countSteps (Op.step :: ops) = countSteps ops + 1 := rfl
      rw [hcs] at hcount
      obtain ⟨hc0, hclt⟩ := slotAt_range _ _ _ hmem.choose_spec.1
      have hnext : (s.tw.curIndex + 1) % (s.tw.slots.length : Int) =
          (c + ((d + 1 : Nat) : Int)) % (s.tw.slots.length : Int) := by
        rw [hcur, Int.emod_add_emod]
        push_cast
        rw [add_assoc]
      have hne : (s.tw.curIndex + 1) % (s.tw.slots.length : Int) ≠ c := by
        rw [hnext]
        exact emod_shift_ne c _ (d + 1) hc0 hclt (by omega) (by omega)
      obtain ⟨s1a, log, h1a, hlog, hun, hnb1, hmem1, hcur1⟩ :=
        step_elsewhere env s k c hr hnb hne
      rw [h1] at h1a
      cases h1a
      obtain ⟨s2, quiet, h2, hlogs, hlen, hq, hr2, hl2, hnb2, hmem2, hcur2⟩ :=
        ih s1 (d + 1) hr1 hnb1 (hmem1 hmem) (by rw [hcur1, hl1]; exact hnext)
          (by simpa [addsItem] using hadds) (by rw [hl1]; omega)
      refine ⟨s2, log :: quiet, by simp only [run, h1, h2], ?_, ?_, ?_, hr2,
        by rw [hl2, hl1], hnb2, hmem2, ?_⟩
      · rw [hlogs, hlog, List.append_assoc]
        rfl
      · simp only [List.length_cons, hlen, hcs]
      · intro l hl
        rcases List.mem_cons.mp hl with h | h
        · rw [h]; exact hun
        · exact hq l h
      · rw [hcur2, hl1, hcs]
        congr 2
        push_cast
        omega

/-- One full rotation: with slot `c` current and `k` in slot `c` and nowhere
else, the next `N - 1` Steps do not touch `k`, and the `N`-th examines it. -/
theorem rotation {α σ : Type} [DecidableEq α] (env : Env α σ) (k : α) (s : Sys α σ)
    (hr : inRange s.tw) (hnb : nowhereBut k s.tw.curIndex s.tw)
    (hmem : memberAt k s.tw.curIndex s.tw) (pre : List (Op α σ))
    (hadds : addsItem k pre = false) (hcount : countSteps pre + 1 = s.tw.slots.length) :
    ∃ s2 quiet logN, run env (pre ++ [Op.step]) s = some s2 ∧
      s2.logs = s.logs ++ quiet ++ [logN] ∧ quiet.length + 1 = s.tw.slots.length ∧
      (∀ log, log ∈ quiet → untouched k log) ∧ examined k logN ∧
      (env.isReleaser k = true → ∃ b, Event.shouldRelease k b ∈ logN) ∧
      inRange s2.tw ∧ s2.tw.slots.length = s.tw.slots.length ∧
      s2.tw.curIndex = s.tw.curIndex ∧ nowhereBut k s.tw.curIndex s2.tw ∧
      (Event.shouldRelease k true ∉ logN → memberAt k s.tw.curIndex s2.tw) := by
  have hcur : s.tw.curIndex = (s.tw.curIndex + ((0 : Nat) : Int)) % (s.tw.slots.length : Int) := by
    simpa using (Int.emod_eq_of_lt hr.1 hr.2).symm
  obtain ⟨s1, quiet, h1, hlogs, hlen, hq, hr1, hl1, hnb1, hmem1, hcur1⟩ :=
    quiet_run env k s.tw.curIndex pre s 0 hr hnb hmem hcur hadds (by omega)
  have he : (s1.tw.curIndex + 1) % (s1.tw.slots.length : Int) = s.tw.curIndex := by
    rw [hcur1, hl1, Int.emod_add_emod]
    have : s.tw.curIndex + ((0 + countSteps pre : Nat) : Int) + 1 =
        s.tw.curIndex + (s.tw.slots.length : Int) := by
      push_cast
      omega
    rw [this, Int.add_emod_self]
    exact Int.emod_eq_of_lt hr.1 hr.2
  obtain ⟨s2, logN, h2, hlogs2, hex, hask, hnb2, hstay, hcur2⟩ :=
    step_here env s1 k s.tw.curIndex hr1 hnb1 hmem1 he
  obtain ⟨s2a, h2a, hr2, hl2, _, _⟩ := applyOp_ok env s1 Op.step hr1
  rw [h2] at h2a
  cases h2a
  refine ⟨s2, quiet, logN, ?_, by rw [hlogs2, hlogs], by omega, hq, hex, hask, hr2,
    by rw [hl2, hl1], hcur2, hnb2, hstay⟩
  rw [run_append, h1]
  simp only [Option.some_bind, run, h2]

/-- C8: let item `k` be added by `AddItem` while the cursor is `c`, `k` being
in no other slot.  Whatever is added besides `k` and whatever the world does:
during the next `N - 1` Steps no call concerns `k` (it is not produced by the
scan, not asked `ShouldRelease()`, not released) and `k` stays in slot `c`;
the `N`-th Step, which makes slot `c` current again, examines `k` (and asks it
`ShouldRelease()` if it implements `Releaser`); if the answer is not `true`, the same holds again: the following
`N - 1` Steps do not touch `k`, the `2N`-th Step examines it. -/
theorem C8_examined_once_per_rotation {α σ : Type} [DecidableEq α] (env : Env α σ)
    (s : Sys α σ) (k : α)
    (h0 : 0 ≤ s.tw.curIndex) (hlt : s.tw.curIndex < (s.tw.slots.length : Int))
    (hnb : nowhereBut k s.tw.curIndex s.tw) :
    (∀ pre : List (Op α σ), addsItem k pre = false →
      countSteps pre + 1 ≤ s.tw.slots.length →
      ∃ s1 quiet, run env (Op.addItem k :: pre) s = some s1 ∧
        s1.logs = s.logs ++ quiet ∧ quiet.length = countSteps pre ∧
        (∀ log, log ∈ quiet → untouched k log) ∧ memberAt k s.tw.curIndex s1.tw) ∧
    (∀ pre : List (Op α σ), addsItem k pre = false →
      countSteps pre + 1 = s.tw.slots.length →
      ∃ s2 quiet logN, run env (Op.addItem k :: pre ++ [Op.step]) s = some s2 ∧
        s2.logs = s.logs ++ quiet ++ [logN] ∧ quiet.length + 1 = s.tw.slots.length ∧
        (∀ log, log ∈ quiet → untouched k log) ∧ examined k logN ∧
        (env.isReleaser k = true → ∃ b, Event.shouldRelease k b ∈ logN) ∧
        s2.tw.curIndex = s.tw.curIndex ∧
        (Event.shouldRelease k true ∉ logN →
          (∀ post : List (Op α σ), addsItem k post = false →
            countSteps post + 1 ≤ s.tw.slots.length →
            ∃ s3 quiet2, run env post s2 = some s3 ∧ s3.logs = s2.logs ++ quiet2 ∧
              quiet2.length = countSteps post ∧
              (∀ log, log ∈ quiet2 → untouched k log) ∧ memberAt k s.tw.curIndex s3.tw) ∧
          (∀ post : List (Op α σ), addsItem k post = false →
            countSteps post + 1 = s.tw.slots.length →
            ∃ s4 quiet2 log2N, run env (post ++ [Op.step]) s2 = some s4 ∧
              s4.logs = s2.logs ++ quiet2 ++ [log2N] ∧
              quiet2.length + 1 = s.tw.slots.length ∧
              (∀ log, log ∈ quiet2 → untouched k log) ∧ examined k log2N))) := by
  have hr : inRange s.tw := ⟨h0, hlt⟩
  obtain ⟨sa, ha, hloga, _, hcura, _, hnba, hmema⟩ :=
    addItem_keeps env s k k s.tw.curIndex hr
  obtain ⟨sb, hb, hra, hla, _, _⟩ := applyOp_ok env s (Op.addItem k) hr
  rw [ha] at hb
  cases hb
  have hnb1 : nowhereBut k sa.tw.curIndex sa.tw := by
    rw [hcura]; exact hnba (Or.inr rfl) hnb
  have hmem1 : memberAt k sa.tw.curIndex sa.tw := by
    rw [hcura]; exact hmema
  have hzero : ∀ t : Sys α σ, inRange t.tw →
      t.tw.curIndex = (t.tw.curIndex + ((0 : Nat) : Int)) % (t.tw.slots.length : Int) := by
    intro t ht
    simpa using (Int.emod_eq_of_lt ht.1 ht.2).symm
  refine ⟨?_, ?_⟩
  · intro pre hadds hcount
    obtain ⟨s1, quiet, h1, hlogs, hlen, hq, _, _, _, hmem, _⟩ :=
      quiet_run env k sa.tw.curIndex pre sa 0 hra hnb1 hmem1 (hzero sa hra) hadds
        (by rw [hla]; omega)
    refine ⟨s1, quiet, by simp only [run, ha, h1], by rw [hlogs, hloga], hlen, hq, ?_⟩
    rw [← hcura]; exact hmem
  · intro pre hadds hcount
    obtain ⟨s2, quiet, logN, h2, hlogs, hlen, hq, hex, hask, hr2, hl2, hcur2, hnb2, hstay⟩ :=
      rotation env k sa hra hnb1 hmem1 pre hadds (by rw [hla]; exact hcount)
    refine ⟨s2, quiet, logN, ?_, by rw [hlogs, hloga], by rw [hlen, hla], hq, hex, hask,
      by rw [hcur2, hcura], ?_⟩
    · rw [List.cons_append]
      simp only [run, ha, h2]
    · intro hn
      have hmem2 : memberAt k s2.tw.curIndex s2.tw := by rw [hcur2]; exact hstay hn
      have hnb2a : nowhereBut k s2.tw.curIndex s2.tw := by rw [hcur2]; exact hnb2
      have hcs : s2.tw.curIndex = s.tw.curIndex := by rw [hcur2, hcura]
      have hls : s2.tw.slots.length = s.tw.slots.length := by rw [hl2, hla]
      refine ⟨?_, ?_⟩
      · intro post hadds2 hcount2
        obtain ⟨s3, quiet2, h3, hlogs3, hlen3, hq3, _, _, _, hmem3, _⟩ :=
          quiet_run env k s2.tw.curIndex post s2 0 hr2 hnb2a hmem2 (hzero s2 hr2) hadds2
            (by rw [hls]; omega)
        refine ⟨s3, quiet2, h3, hlogs3, hlen3, hq3, ?_⟩
        rw [← hcs]; exact hmem3
      · intro post hadds2 hcount2
        obtain ⟨s4, quiet2, log2N, h4, hlogs4, hlen4, hq4, hex4, _⟩ :=
          rotation env k s2 hr2 hnb2a hmem2 post hadds2 (by rw [hls]; exact hcount2)
        exact ⟨s4, quiet2, log2N, h4, hlogs4, by rw [hlen4, hls], hq4, hex4⟩

/-- C8 on the wheel of the end-to-end scenario: `NewTimingWheel(1000ms, 100)`
has a step of 10ms, and an item added to the fresh wheel is left alone by the
first 99 Steps and examined by the 100th. -/
theorem C8_witness :
    (NewTimingWheel 1000000000 100 : Except Error (TimingWheel Nat)) =
      Except.ok { stepTime := 10000000, slots := List.replicate 100 [], curIndex := 0 } ∧
    (0 : Int) ≤ 0 ∧ (0 : Int) < ((List.replicate 100 ([] : itemCon Nat)).length : Int) ∧
    nowhereBut 8 0
      ({ stepTime := 10000000, slots := List.replicate 100 [], curIndex := 0 } :
        TimingWheel Nat) ∧
    ∃ s2 quiet logN,
      run sampleEnv (Op.addItem 8 :: List.replicate 99 Op.step ++ [Op.step])
        { tw := { stepTime := 10000000, slots := List.replicate 100 [], curIndex := 0 },
          world := 0, logs := [] } = some s2 ∧
      s2.logs = [] ++ quiet ++ [logN] ∧ quiet.length + 1 = 100 ∧
      (∀ log, log ∈ quiet → untouched 8 log) ∧ examined 8 logN := by
  have hnb : nowhereBut 8 0
      ({ stepTime := 10000000, slots := List.replicate 100 [], curIndex := 0 } :
        TimingWheel Nat) := by
    intro i m _ hm
    have := slotAt_mem _ i m hm
    rw [(List.mem_replicate.mp this).2]
    exact List.not_mem_nil _
  refine ⟨by rfl, by decide, by decide, hnb, ?_⟩
  obtain ⟨s2, quiet, logN, h2, hlogs, hlen, hq, hex, _⟩ :=
    (C8_examined_once_per_rotation sampleEnv
      { tw := { stepTime := 10000000, slots := List.replicate 100 [], curIndex := 0 },
        world := 0, logs := [] } 8 (by decide) (by decide) hnb).2
      (List.replicate 99 Op.step) (by rfl) (by rfl)
  exact ⟨s2, quiet, logN, h2, hlogs, by simpa using hlen, hq, hex⟩

/-! ## Counting the calls of Release -/

theorem releaseCount_emit {α σ : Type} [DecidableEq α] (k : α) (es : List (Event α))
    (r : Scan α σ) :
    releaseCount k (Scan.emit es r).log = releaseCount k es + releaseCount k r.log := by
  simp only [releaseCount, emit_log, List.count_append]

theorem releaseCount_pos_iff {α : Type} [DecidableEq α] (k : α) (log : List (Event α)) :
    0 < releaseCount k log ↔ Event.release k ∈ log := by
  unfold releaseCount
  exact List.count_pos_iff

/-- The scan calls `Release()` on `k` once if it removes `k` from the map, and
not at all otherwise. -/
theorem rangeLoop_releaseCount {α σ : Type} [DecidableEq α] (env : Env α σ) (ks : List α)
    (m : itemCon α) (w : σ) (k : α) :
    releaseCount k (rangeLoop env ks m w).log =
      if k ∈ m ∧ k ∉ (rangeLoop env ks m w).slot then 1 else 0 := by
  induction ks generalizing m w with
  | nil => simp [rangeLoop, releaseCount]
  | cons a ks ih =>
    rcases rangeLoop_cases env a ks m w with ⟨ha, e⟩ | ⟨ha, hr, e⟩ | ⟨ha, hr, hs, e⟩ |
      ⟨ha, hr, hs, e⟩ <;> rw [e]
    · exact ih m w
    · rw [releaseCount_emit, emit_slot, ih]
      simp [releaseCount]
    · rw [releaseCount_emit, emit_slot, ih]
      simp [releaseCount]
    · rw [releaseCount_emit, emit_slot, ih]
      by_cases hak : a = k
      · subst hak
        have h1 : a ∉ itemCon.delete m a := fun h => ((delete_mem m a a).mp h).2 rfl
        have h2 : a ∉ (rangeLoop env ks (itemCon.delete m a)
            (env.Release a (env.ShouldRelease a w).2)).slot :=
          fun h => h1 (rangeLoop_subset env ks _ _ a h)
        simp [releaseCount, h1, h2, ha]
      · have h1 : k ∈ itemCon.delete m a ↔ k ∈ m := by
          rw [delete_mem]
          exact ⟨fun h => h.1, fun h => ⟨h, fun h2 => hak h2.symm⟩⟩
        have h3 : releaseCount k
            [Event.visit a, Event.shouldRelease a true, Event.release a] = 0 := by
          have hne : (Event.release a : Event α) ≠ Event.release k := by
            intro h
            injection h with h
            exact hak h
          simp [releaseCount, List.count_cons, hne]
        rw [h3, Nat.zero_add]
        simp only [h1]

/-! ## What a Step does, in full -/

/-- A Step, with the cursor in range: it scans the slot `old` at the next
index `j`, leaves there the members that did not answer `true`, calls
`Release()` once on each member it removes and on nothing else, and changes no
other slot. -/
theorem step_spec_full {α σ : Type} [DecidableEq α] (env : Env α σ) (s : Sys α σ)
    (hr : inRange s.tw) :
    ∃ s1 log old new, applyOp env s Op.step = some s1 ∧ s1.logs = s.logs ++ [log] ∧
      inRange s1.tw ∧ s1.tw.slots.length = s.tw.slots.length ∧
      slotAt s.tw.slots s1.tw.curIndex = some old ∧
      slotAt s1.tw.slots s1.tw.curIndex = some new ∧
      (∀ i : Int, i ≠ s1.tw.curIndex → slotAt s1.tw.slots i = slotAt s.tw.slots i) ∧
      (∀ k, k ∈ new ↔ k ∈ old ∧ Event.shouldRelease k true ∉ log) ∧
      (∀ k, releaseCount k log = if k ∈ old ∧ k ∉ new then 1 else 0) ∧
      (∀ k, Event.release k ∈ log ↔ Event.shouldRelease k true ∈ log) ∧
      (∀ k b, Event.shouldRelease k b ∈ log →
        k ∈ old ∧ env.isReleaser k = true ∧ ∃ w1, (env.ShouldRelease k w1).1 = b) ∧
      (∀ k, k ∉ old → untouched k log) := by
  obtain ⟨old, hold, happ⟩ := applyOp_step env s hr
  obtain ⟨hj0, hjlt⟩ := slotAt_range _ _ _ hold
  obtain ⟨s1, h1, hr1, hl1, _, _⟩ := applyOp_ok env s Op.step hr
  rw [happ] at h1
  cases h1
  refine ⟨_, _, old, (rangeLoop env old old s.world).slot, happ, rfl, hr1, hl1, hold,
    slotAt_set_same _ _ _ hj0 hjlt, ?_, ?_, rangeLoop_releaseCount env old old s.world,
    rangeLoop_release_iff env old old s.world, ?_, ?_⟩
  · intro i hi
    exact slotAt_set_other _ i _ _ hj0 hi
  · intro k
    rw [rangeLoop_slot]
    simp [List.mem_filter]
  · intro k b hk
    obtain ⟨hv, hrel, hw⟩ := rangeLoop_asked env old old s.world k b hk
    exact ⟨(rangeLoop_visit env old old s.world k hv).1, hrel, hw⟩
  · intro k hk
    exact rangeLoop_untouched env old old s.world k hk

/-! ## An item is released at most once -/

theorem slotAt_neg_one {α : Type} (slots : slotCon α) : slotAt slots (-1) = none := by
  simp [slotAt]

theorem inert_no_true {α σ : Type} [DecidableEq α] (env : Env α σ) (k : α)
    (hin : inert env k) (w1 : σ) (b : Bool) (hr : env.isReleaser k = true)
    (hb : (env.ShouldRelease k w1).1 = b) : b = false := by
  rcases hin with h | h
  · rw [h] at hr
    cases hr
  · rw [← hb]
    exact h w1

/-- An inert item stays in every slot it is in and is never released. -/
theorem inert_run {α σ : Type} [DecidableEq α] (env : Env α σ) (k : α) (hin : inert env k)
    (ops : List (Op α σ)) :
    ∀ s : Sys α σ, inRange s.tw →
      ∃ s1 new, run env ops s = some s1 ∧ s1.logs = s.logs ++ new ∧ inRange s1.tw ∧
        (∀ log, log ∈ new → Event.release k ∉ log) ∧
        (∀ j, memberAt k j s.tw → memberAt k j s1.tw) := by
  induction ops with
  | nil =>
    intro s hr
    exact ⟨s, [], rfl, by simp, hr, by simp, fun _ h => h⟩
  | cons op ops ih =>
    intro s hr
    obtain ⟨s1, h1, hr1, _, _, _⟩ := applyOp_ok env s op hr
    obtain ⟨s2, new, h2, hlogs, hr2, hq, hkeep⟩ := ih s1 hr1
    cases op with
    | addItem x =>
      have hk : ∀ j, memberAt k j s.tw → memberAt k j s1.tw := by
        intro j hj
        obtain ⟨s1a, h1a, _, _, _, hmem, _, _⟩ := addItem_keeps env s x k j hr
        rw [h1] at h1a
        cases h1a
        exact hmem hj
      obtain ⟨s1a, h1a, hlog, _⟩ := addItem_keeps env s x k 0 hr
      rw [h1] at h1a
      cases h1a
      exact ⟨s2, new, by simp only [run, h1, h2], by rw [hlogs, hlog], hr2, hq,
        fun j hj => hkeep j (hk j hj)⟩
    | external f =>
      have h1a : applyOp env s (Op.external f) = some { s with world := f s.world } := rfl
      rw [h1] at h1a
      cases h1a
      exact ⟨s2, new, by simp only [run, h1, h2], hlogs, hr2, hq, hkeep⟩
    | step =>
      obtain ⟨s1a, log, old, new1, h1a, hlog, _, _, hold, hnew, hother, hmemnew, _, hiff,
        hasked, _⟩ := step_spec_full env s hr
      rw [h1] at h1a
      cases h1a
      have hs : Event.shouldRelease k true ∉ log := by
        intro h
        obtain ⟨_, hrel, w1, hb⟩ := hasked k true h
        have := inert_no_true env k hin w1 true hrel hb
        cases this
      refine ⟨s2, log :: new, by simp only [run, h1, h2], ?_, hr2, ?_, ?_⟩
      · rw [hlogs, hlog, List.append_assoc]
        rfl
      · intro l hl
        rcases List.mem_cons.mp hl with h | h
        · rw [h]
          exact fun hrel => hs ((hiff k).mp hrel)
        · exact hq l h
      · intro j hj
        apply hkeep j
        obtain ⟨m, hm, hkm⟩ := hj
        by_cases hjc : j = s1.tw.curIndex
        · rw [hjc] at hm
          rw [hm] at hold
          cases hold
          exact ⟨new1, hjc ▸ hnew, (hmemnew k).mpr ⟨hkm, hs⟩⟩
        · exact ⟨m, (hother j hjc).trans hm, hkm⟩

/-- An inert item that has been added is in some slot. -/
theorem inert_added_member {α σ : Type} [DecidableEq α] (env : Env α σ) (x : α)
    (hin : inert env x) (ops : List (Op α σ)) :
    ∀ s s1 : Sys α σ, inRange s.tw → x ∈ addedItems ops → run env ops s = some s1 →
      ∃ j, memberAt x j s1.tw := by
  induction ops with
  | nil =>
    intro s s1 _ hx _
    cases hx
  | cons op ops ih =>
    intro s s2 hr hx hrun
    obtain ⟨s1, h1, hr1, _, _, _⟩ := applyOp_ok env s op hr
    have hrun1 : run env ops s1 = some s2 := by
      simpa only [run, h1] using hrun
    cases op with
    | addItem y =>
      simp only [addedItems, List.mem_cons] at hx
      rcases hx with hxy | hx
      · subst hxy
        obtain ⟨s1a, h1a, _, _, _, _, _, hmem⟩ := addItem_keeps env s x x 0 hr
        rw [h1] at h1a
        cases h1a
        obtain ⟨s2a, _, h2a, _, _, _, hkeep⟩ := inert_run env x hin ops s1 hr1
        rw [hrun1] at h2a
        cases h2a
        exact ⟨_, hkeep _ hmem⟩
      · exact ih s1 s2 hr1 hx hrun1
    | external f => exact ih s1 s2 hr1 (by simpa [addedItems] using hx) hrun1
    | step => exact ih s1 s2 hr1 (by simpa [addedItems] using hx) hrun1

theorem memberAt_flatten {α : Type} (x : α) (j : Int) (tw : TimingWheel α)
    (h : memberAt x j tw) : x ∈ tw.slots.flatten := by
  obtain ⟨m, hm, hx⟩ := h
  exact List.mem_flatten.mpr ⟨m, slotAt_mem _ j m hm, hx⟩

theorem length_le_itemCount {α : Type} (items : List α) (tw : TimingWheel α)
    (hnd : items.Nodup) (hsub : ∀ x, x ∈ items → x ∈ tw.slots.flatten) :
    (items.length : Int) ≤ itemCount tw := by
  have h1 : items.length ≤ tw.slots.flatten.length :=
    (List.subperm_of_subset hnd hsub).length_le
  rw [List.length_flatten] at h1
  rw [itemCount_eq_sum]
  exact_mod_cast h1

/-- C10: an item that does not implement `Releaser`, or whose `ShouldRelease()`
always answers `false`, is never removed.  Once added it is a member of the
slot it was added to after every sequence of `AddItem` calls, Steps and changes
of the world, and no Step calls `Release()` on it; and after every sequence of
operations `itemCount()` is at least the number of distinct such items added
by the sequence. -/
theorem C10_inert_items_are_never_removed {α σ : Type} [DecidableEq α] (env : Env α σ)
    (s : Sys α σ)
    (h0 : 0 ≤ s.tw.curIndex) (hlt : s.tw.curIndex < (s.tw.slots.length : Int)) :
    (∀ k, inert env k → ∀ ops : List (Op α σ),
      ∃ s1 new, run env (Op.addItem k :: ops) s = some s1 ∧ s1.logs = s.logs ++ new ∧
        memberAt k s.tw.curIndex s1.tw ∧ (∀ log, log ∈ new → Event.release k ∉ log)) ∧
    (∀ (ops : List (Op α σ)) (items : List α), items.Nodup →
      (∀ x, x ∈ items → inert env x ∧ x ∈ addedItems ops) →
      ∃ s1, run env ops s = some s1 ∧ (items.length : Int) ≤ itemCount s1.tw) := by
  have hr : inRange s.tw := ⟨h0, hlt⟩
  refine ⟨?_, ?_⟩
  · intro k hin ops
    obtain ⟨sa, ha, hloga, _, _, _, _, hmema⟩ := addItem_keeps env s k k 0 hr
    obtain ⟨sb, hb, hra, _, _, _⟩ := applyOp_ok env s (Op.addItem k) hr
    rw [ha] at hb
    cases hb
    obtain ⟨s1, new, h1, hlogs, _, hq, hkeep⟩ := inert_run env k hin ops sa hra
    exact ⟨s1, new, by simp only [run, ha, h1], by rw [hlogs, hloga], hkeep _ hmema, hq⟩
  · intro ops items hnd hitems
    obtain ⟨s1, h1, _, _, _, _⟩ := run_ok env ops s hr
    refine ⟨s1, h1, length_le_itemCount items s1.tw hnd ?_⟩
    intro x hx
    obtain ⟨hin, hadd⟩ := hitems x hx
    obtain ⟨j, hj⟩ := inert_added_member env x hin ops s s1 hr hadd h1
    exact memberAt_flatten x j s1.tw hj

/-- C10 on a wheel of three slots: 7 and 9 do not implement `Releaser`; added
between Steps (7 twice), both are still in the wheel at the end, 7 in slot 0
where it was first added, and `itemCount()` is at least 2. -/
theorem C10_witness :
    (0 : Int) ≤ 0 ∧ (0 : Int) < (([[1], [2, 3, 40, 6], [5]] : slotCon Nat).length : Int) ∧
    inert sampleEnv 7 ∧ inert sampleEnv 9 ∧
    (∃ s1 new, run sampleEnv
        (Op.addItem 7 :: [Op.step, Op.addItem 9, Op.step, Op.addItem 7, Op.step, Op.step])
        { tw := { stepTime := 2, slots := [[1], [2, 3, 40, 6], [5]], curIndex := 0 },
          world := 3, logs := [] } = some s1 ∧
      s1.logs = [] ++ new ∧ memberAt 7 0 s1.tw ∧
      (∀ log, log ∈ new → Event.release 7 ∉ log)) ∧
    (∃ s1, run sampleEnv
        [Op.addItem 7, Op.step, Op.addItem 9, Op.step, Op.addItem 7, Op.step, Op.step]
        { tw := { stepTime := 2, slots := [[1], [2, 3, 40, 6], [5]], curIndex := 0 },
          world := 3, logs := [] } = some s1 ∧
      (([7, 9] : List Nat).length : Int) ≤ itemCount s1.tw) := by
  have h7 : inert sampleEnv 7 := Or.inl rfl
  have h9 : inert sampleEnv 9 := Or.inl rfl
  have h := C10_inert_items_are_never_removed sampleEnv
    { tw := { stepTime := 2, slots := [[1], [2, 3, 40, 6], [5]], curIndex := 0 },
      world := 3, logs := [] } (by decide) (by decide)
  refine ⟨by decide, by decide, h7, h9, h.1 7 h7 _, h.2 _ [7, 9] (by decide) ?_⟩
  intro x hx
  simp only [List.mem_cons, List.mem_singleton, List.not_mem_nil, or_false] at hx
  rcases hx with hx | hx
  · subst hx
    exact ⟨h7, by simp [addedItems]⟩
  · subst hx
    exact ⟨h9, by simp [addedItems]⟩

/-! ## Wheels reachable from a fresh wheel -/

/-- What a successful `NewTimingWheel` says about its arguments and result. -/
theorem fresh_facts {α : Type} (max slotCnt : Int) (tw0 : TimingWheel α)
    (h : NewTimingWheel max slotCnt = Except.ok tw0) :
    0 < max ∧ 0 < slotCnt ∧ slotCnt ≤ max ∧
      tw0 = { stepTime := if Int.tmod max slotCnt > 0
                then wrapInt64 (Int.tdiv max slotCnt + 1) else Int.tdiv max slotCnt,
              slots := List.replicate slotCnt.toNat [], curIndex := 0 } := by
  have hv : ¬ (max ≤ 0 ∨ slotCnt ≤ 0 ∨ max < slotCnt) := by
    intro hcon
    rw [(NewTimingWheel_error_iff max slotCnt).mpr hcon] at h
    cases h
  rw [NewTimingWheel_eq_ok max slotCnt (by omega) (by omega) (by omega)] at h
  cases h
  exact ⟨by omega, by omega, by omega, rfl⟩

theorem fresh_inRange {α : Type} (max slotCnt : Int) (tw0 : TimingWheel α)
    (h : NewTimingWheel max slotCnt = Except.ok tw0) :
    inRange tw0 ∧ (tw0.slots.length : Int) = slotCnt ∧ validMaps tw0 ∧
      itemCount tw0 = 0 := by
  obtain ⟨_, hc, _, htw⟩ := fresh_facts max slotCnt tw0 h
  subst htw
  refine ⟨⟨le_refl _, ?_⟩, ?_, ?_, ?_⟩
  · simp only [List.length_replicate]
    omega
  · simp only [List.length_replicate]
    omega
  · intro m hm
    rw [(List.mem_replicate.mp hm).2]
    exact List.nodup_nil
  · rw [itemCount_eq_sum]
    simp

/-! ## Bounds on the step time -/

/-- C16: for a successful `NewTimingWheel(max, slotCnt)` with `n =
max.Nanoseconds()` an int64, the step `s = stepTime` satisfies `1 <= s <= n`
and `n <= s * slotCnt < n + slotCnt`, with `s * slotCnt = n` exactly when `n`
is a multiple of `slotCnt`; and the computation does not overflow: `n /
slotCnt` and, where it is taken, `n / slotCnt + 1` are int64 values, so `s` is
the quotient, plus 1 when the remainder is positive. -/
theorem C16_step_time_bounds {α : Type} (max slotCnt : Int) (tw0 : TimingWheel α)
    (hfresh : NewTimingWheel max slotCnt = Except.ok tw0) (hr : inInt64 max) :
    1 ≤ tw0.stepTime ∧ tw0.stepTime ≤ max ∧
    max ≤ tw0.stepTime * slotCnt ∧ tw0.stepTime * slotCnt < max + slotCnt ∧
    (tw0.stepTime * slotCnt = max ↔ slotCnt ∣ max) ∧
    inInt64 (Int.tdiv max slotCnt) ∧
    (Int.tmod max slotCnt > 0 → inInt64 (Int.tdiv max slotCnt + 1)) ∧
    tw0.stepTime =
      (if Int.tmod max slotCnt > 0 then Int.tdiv max slotCnt + 1 else Int.tdiv max slotCnt) ∧
    inInt64 tw0.stepTime := by
  obtain ⟨hmax, hc, hge, htw⟩ := fresh_facts max slotCnt tw0 hfresh
  have hs := step_spec max slotCnt hmax hc hr.2
  subst htw
  simp only at hs ⊢
  have hd : Int.tdiv max slotCnt = max / slotCnt :=
    Int.tdiv_eq_ediv (le_of_lt hmax) (le_of_lt hc)
  have hq0 : 0 ≤ max / slotCnt := Int.ediv_nonneg (le_of_lt hmax) (le_of_lt hc)
  have hqn : max / slotCnt ≤ max := Int.ediv_le_self slotCnt (le_of_lt hmax)
  have hin : inInt64 (Int.tdiv max slotCnt) := by
    rw [hd]
    unfold inInt64 at hr ⊢
    omega
  generalize hsdef : (if Int.tmod max slotCnt > 0 then wrapInt64 (Int.tdiv max slotCnt + 1)
    else Int.tdiv max slotCnt) = s at hs ⊢
  obtain ⟨hs1, hs2⟩ := hs
  have hpos : 1 ≤ s := by
    by_contra hcon
    have : s ≤ 0 := by omega
    have : s * slotCnt ≤ 0 := by nlinarith
    omega
  have hle : s ≤ max := by nlinarith
  have hlt : s * slotCnt < max + slotCnt := by nlinarith
  have hin1 : Int.tmod max slotCnt > 0 → inInt64 (Int.tdiv max slotCnt + 1) := by
    intro hpm
    have hw : wrapInt64 (Int.tdiv max slotCnt + 1) = s := by
      rw [← hsdef]
      simp only [hpm, if_true]
    have hmath : (Int.tdiv max slotCnt + 1 - 1) * slotCnt < max := by
      rw [hd]
      have hm : Int.tmod max slotCnt = max % slotCnt :=
        Int.tmod_eq_emod (le_of_lt hmax) (le_of_lt hc)
      have hdm : slotCnt * (max / slotCnt) + max % slotCnt = max := Int.ediv_add_emod max slotCnt
      rw [hm] at hpm
      nlinarith
    have hle1 : Int.tdiv max slotCnt + 1 ≤ max := by
      have h0 : 0 ≤ Int.tdiv max slotCnt := by rw [hd]; exact hq0
      nlinarith
    unfold inInt64 at hr ⊢
    rw [hd] at hle1 ⊢
    omega
  have hval : s = (if Int.tmod max slotCnt > 0 then Int.tdiv max slotCnt + 1
      else Int.tdiv max slotCnt) := by
    rw [← hsdef]
    by_cases hpm : Int.tmod max slotCnt > 0
    · simp only [hpm, if_true]
      exact wrapInt64_of_inInt64 _ (hin1 hpm)
    · simp only [hpm, if_false]
  refine ⟨hpos, hle, hs2, hlt, ?_, hin, hin1, hval, ?_⟩
  · constructor
    · intro h
      exact ⟨s, by rw [← h, mul_comm]⟩
    · rintro ⟨q, hq⟩
      have h1 : (s - 1) * slotCnt < q * slotCnt := by rw [mul_comm q]; rw [← hq]; exact hs1
      have h2 : q * slotCnt ≤ s * slotCnt := by rw [mul_comm q]; rw [← hq]; exact hs2
      have h3 : s - 1 < q := lt_of_mul_lt_mul_right h1 (le_of_lt hc)
      have h4 : q ≤ s := le_of_mul_le_mul_right h2 hc
      have h5 : q = s := by omega
      rw [hq, h5, mul_comm]
  · unfold inInt64 at hr ⊢
    omega

/-- C16 at `NewTimingWheel(3ns, 2)`: the step is 2, `3 <= 2 * 2 < 3 + 2`, and
`2 * 2` is not 3 because 2 does not divide 3. -/
theorem C16_witness :
    (NewTimingWheel 3 2 : Except Error (TimingWheel Nat)) =
      Except.ok { stepTime := 2, slots := [[], []], curIndex := 0 } ∧
    inInt64 3 ∧
    (1 : Int) ≤ 2 ∧ (2 : Int) ≤ 3 ∧ (3 : Int) ≤ 2 * 2 ∧ (2 : Int) * 2 < 3 + 2 ∧
    ((2 : Int) * 2 = 3 ↔ (2 : Int) ∣ 3) ∧ inInt64 2 :=
  have h := C16_step_time_bounds 3 2
    ({ stepTime := 2, slots := [[], []], curIndex := 0 } : TimingWheel Nat) (by rfl)
    (by decide)
  ⟨by rfl, by decide, h.1, h.2.1, h.2.2.1, h.2.2.2.1, h.2.2.2.2.1, h.2.2.2.2.2.2.2.2⟩

/-! ## Accounting for itemCount -/

theorem sum_map_set {β : Type} (f : β → Nat) (l : List β) (i : Nat) (x y : β)
    (h : l[i]? = some y) :
    ((l.set i x).map f).sum + f y = (l.map f).sum + f x := by
  induction l generalizing i with
  | nil => simp at h
  | cons a l ih =>
    cases i with
    | zero =>
      simp only [List.getElem?_cons_zero, Option.some.injEq] at h
      subst h
      simp only [List.set_cons_zero, List.map_cons, List.sum_cons]
      omega
    | succ i =>
      simp only [List.getElem?_cons_succ] at h
      have := ih i h
      simp only [List.set_cons_succ, List.map_cons, List.sum_cons]
      omega

/-- Replacing the slot `old` at index `j` by `new` changes `itemCount` by the
difference of the sizes. -/
theorem itemCount_set {α : Type} (tw tw1 : TimingWheel α) (j : Int) (old new : itemCon α)
    (h : slotAt tw.slots j = some old) (h1 : tw1.slots = tw.slots.set j.toNat new) :
    itemCount tw1 + (old.length : Int) = itemCount tw + (new.length : Int) := by
  rw [itemCount_eq_sum, itemCount_eq_sum, h1]
  obtain ⟨h0, _⟩ := slotAt_range _ _ _ h
  have h2 : tw.slots[j.toNat]? = some old := by
    simpa [slotAt, h0] using h
  have := sum_map_set List.length tw.slots j.toNat new old h2
  exact_mod_cast this

/-- With independent items, the keys that answer `true` during a scan are the
Releasers among the keys produced that answer `true` in the world in which the
scan starts.  Here `w0` is that world and `w` the world reached so far, in which
the keys still to come answer as in `w0`. -/
theorem rangeLoop_true_iff {α σ : Type} [DecidableEq α] (env : Env α σ)
    (hind : independentItems env) (w0 : σ) (ks : List α) :
    ∀ (m : itemCon α) (w : σ), ks.Nodup →
      (∀ k, k ∈ ks → (env.ShouldRelease k w).1 = (env.ShouldRelease k w0).1) →
      ∀ k, Event.shouldRelease k true ∈ (rangeLoop env ks m w).log ↔
        (k ∈ ks ∧ k ∈ m ∧ env.isReleaser k = true ∧ (env.ShouldRelease k w0).1 = true) := by
  induction ks with
  | nil =>
    intro m w _ _ k
    simp [rangeLoop]
  | cons a ks ih =>
    intro m w hnd hinv k
    have ha : a ∉ ks := (List.nodup_cons.mp hnd).1
    have hks : ks.Nodup := (List.nodup_cons.mp hnd).2
    have hinv0 : ∀ k, k ∈ ks → (env.ShouldRelease k w).1 = (env.ShouldRelease k w0).1 :=
      fun k hk => hinv k (List.mem_cons_of_mem _ hk)
    have hinv1 : ∀ k, k ∈ ks →
        (env.ShouldRelease k (env.ShouldRelease a w).2).1 = (env.ShouldRelease k w0).1 := by
      intro k hk
      have hne : a ≠ k := fun h => ha (h ▸ hk)
      rw [(hind a k w hne).1]
      exact hinv0 k hk
    have hinv2 : ∀ k, k ∈ ks →
        (env.ShouldRelease k (env.Release a (env.ShouldRelease a w).2)).1 =
          (env.ShouldRelease k w0).1 := by
      intro k hk
      have hne : a ≠ k := fun h => ha (h ▸ hk)
      rw [(hind a k _ hne).2]
      exact hinv1 k hk
    have haw : (env.ShouldRelease a w).1 = (env.ShouldRelease a w0).1 :=
      hinv a (List.mem_cons_self _ _)
    rcases rangeLoop_cases env a ks m w with ⟨ha1, e⟩ | ⟨ha1, hr, e⟩ | ⟨ha1, hr, hs, e⟩ |
      ⟨ha1, hr, hs, e⟩ <;> rw [e]
    · rw [ih m w hks hinv0 k]
      constructor
      · rintro ⟨h1, h2⟩
        exact ⟨List.mem_cons_of_mem _ h1, h2⟩
      · rintro ⟨h1, h2, h3⟩
        rcases List.mem_cons.mp h1 with h | h
        · exact absurd (h ▸ h2) ha1
        · exact ⟨h, h2, h3⟩
    · simp only [emit_log, List.cons_append, List.nil_append, List.mem_cons, reduceCtorEq,
        false_or]
      rw [ih m w hks hinv0 k]
      constructor
      · rintro ⟨h1, h2⟩
        exact ⟨Or.inr h1, h2⟩
      · rintro ⟨h1, h2, h3, h4⟩
        rcases h1 with h | h
        · rw [h, hr] at h3
          cases h3
        · exact ⟨h, h2, h3, h4⟩
    · simp only [emit_log, List.cons_append, List.nil_append, List.mem_cons, reduceCtorEq,
        false_or, Event.shouldRelease.injEq, Bool.true_eq_false, and_false]
      rw [ih m _ hks hinv1 k]
      constructor
      · rintro ⟨h1, h2⟩
        exact ⟨Or.inr h1, h2⟩
      · rintro ⟨h1, h2, h3, h4⟩
        rcases h1 with h | h
        · rw [h, ← haw, hs] at h4
          cases h4
        · exact ⟨h, h2, h3, h4⟩
    · simp only [emit_log, List.cons_append, List.nil_append, List.mem_cons, reduceCtorEq,
        false_or, Event.shouldRelease.injEq, and_true]
      rw [ih _ _ hks hinv2 k]
      constructor
      · rintro (h | ⟨h1, h2, h3⟩)
        · rw [h]
          exact ⟨Or.inl rfl, ha1, hr, by rw [← haw]; exact hs⟩
        · exact ⟨Or.inr h1, ((delete_mem m a k).mp h2).1, h3⟩
      · rintro ⟨h1, h2, h3⟩
        by_cases hka : k = a
        · exact Or.inl hka
        · rcases h1 with h | h
          · exact absurd h hka
          · exact Or.inr ⟨h, (delete_mem m a k).mpr ⟨h2, hka⟩, h3⟩

/-- The scan produces each key of the map that it has to produce exactly
once, although it deletes keys on its way. -/
theorem rangeLoop_visit_count {α σ : Type} [DecidableEq α] (env : Env α σ) (ks : List α) :
    ∀ (m : itemCon α) (w : σ), ks.Nodup →
      ∀ k, List.count (Event.visit k) (rangeLoop env ks m w).log =
        if k ∈ ks ∧ k ∈ m then 1 else 0 := by
  induction ks with
  | nil =>
    intro m w _ k
    simp [rangeLoop]
  | cons a ks ih =>
    intro m w hnd k
    have ha : a ∉ ks := (List.nodup_cons.mp hnd).1
    have hks : ks.Nodup := (List.nodup_cons.mp hnd).2
    have hcount : ∀ (es : List (Event α)) (r : Scan α σ),
        List.count (Event.visit k) (Scan.emit es r).log =
          List.count (Event.visit k) es + List.count (Event.visit k) r.log := by
      intro es r
      simp only [emit_log, List.count_append]
    by_cases hka : k = a
    · subst hka
      have hrest : ∀ (m1 : itemCon α) (w1 : σ),
          List.count (Event.visit k) (rangeLoop env ks m1 w1).log = 0 := by
        intro m1 w1
        rw [ih m1 w1 hks k]
        simp [ha]
      rcases rangeLoop_cases env k ks m w with ⟨ha1, e⟩ | ⟨ha1, hr, e⟩ | ⟨ha1, hr, hs, e⟩ |
        ⟨ha1, hr, hs, e⟩ <;> rw [e]
      · rw [hrest]
        simp [ha1]
      · rw [hcount, hrest]
        simp [ha1]
      · rw [hcount, hrest]
        simp [ha1]
      · rw [hcount, hrest]
        simp [ha1]
    · have hne : (Event.visit a : Event α) ≠ Event.visit k := by
        intro h
        injection h with h
        exact hka h.symm
      have hmem : (k ∈ a :: ks ∧ k ∈ m) ↔ (k ∈ ks ∧ k ∈ m) := by
        simp [hka]
      have hmemd : (k ∈ ks ∧ k ∈ itemCon.delete m a) ↔ (k ∈ ks ∧ k ∈ m) := by
        rw [delete_mem]
        simp [hka]
      rcases rangeLoop_cases env a ks m w with ⟨ha1, e⟩ | ⟨ha1, hr, e⟩ | ⟨ha1, hr, hs, e⟩ |
        ⟨ha1, hr, hs, e⟩ <;> rw [e]
      · rw [ih m w hks k]
        simp only [hmem]
      · rw [hcount, ih m w hks k]
        simp only [hmem]
        simp [List.count_cons, hne]
      · rw [hcount, ih m _ hks k]
        simp only [hmem]
        simp [List.count_cons, hne]
      · rw [hcount, ih _ _ hks k]
        simp only [hmem, hmemd]
        simp [List.count_cons, hne]

/-- With independent items, the outcome of a scan in any order of the keys:
what stays, what is released, and that every key is produced once. -/
theorem rangeLoop_any_order {α σ : Type} [DecidableEq α] (env : Env α σ)
    (hind : independentItems env) (m order : itemCon α) (w : σ) (hnd : m.Nodup)
    (hperm : order.Perm m) :
    (rangeLoop env order m w).slot =
        m.filter (fun k => !(env.isReleaser k && (env.ShouldRelease k w).1)) ∧
    (∀ k, releaseCount k (rangeLoop env order m w).log =
      if k ∈ m ∧ env.isReleaser k = true ∧ (env.ShouldRelease k w).1 = true then 1 else 0) ∧
    (∀ k, List.count (Event.visit k) (rangeLoop env order m w).log =
      if k ∈ m then 1 else 0) := by
  have hond : order.Nodup := hperm.nodup_iff.mpr hnd
  have hmem : ∀ k, k ∈ order ↔ k ∈ m := fun k => hperm.mem_iff
  have htrue := rangeLoop_true_iff env hind w order m w hond (fun _ _ => rfl)
  have hslot : (rangeLoop env order m w).slot =
      m.filter (fun k => !(env.isReleaser k && (env.ShouldRelease k w).1)) := by
    rw [rangeLoop_slot]
    apply List.filter_congr
    intro k hk
    have := htrue k
    by_cases h1 : env.isReleaser k = true <;> by_cases h2 : (env.ShouldRelease k w).1 = true <;>
      simp [this, hk, (hmem k).mpr hk, h1, h2]
  refine ⟨hslot, ?_, ?_⟩
  · intro k
    rw [rangeLoop_releaseCount, hslot]
    by_cases hk : k ∈ m <;> by_cases h1 : env.isReleaser k = true <;>
      by_cases h2 : (env.ShouldRelease k w).1 = true <;>
      simp [List.mem_filter, hk, h1, h2]
  · intro k
    rw [rangeLoop_visit_count env order m w hond k]
    simp only [hmem k, and_self]

theorem stepForwardVisiting_eq {α σ : Type} [DecidableEq α] (env : Env α σ) (order : List α)
    (tw : TimingWheel α) (w : σ) (idx : Int) (m : itemCon α)
    (hidx : idx = if tw.curIndex + 1 ≥ (tw.slots.length : Int) then 0 else tw.curIndex + 1)
    (hm : slotAt tw.slots idx = some m) :
    stepForwardVisiting env order tw w =
      some { tw := { tw with curIndex := idx,
                             slots := tw.slots.set idx.toNat (rangeLoop env order m w).slot },
             world := (rangeLoop env order m w).world,
             log := (rangeLoop env order m w).log } := by
  unfold stepForwardVisiting
  simp only [← hidx, hm]

/-- The order of the list is one of the orders the scan can take. -/
theorem stepForwardVisiting_self {α σ : Type} [DecidableEq α] (env : Env α σ)
    (tw : TimingWheel α) (w : σ) (m : itemCon α)
    (hm : slotAt tw.slots (if tw.curIndex + 1 ≥ (tw.slots.length : Int) then 0
      else tw.curIndex + 1) = some m) :
    stepForwardVisiting env m tw w = stepForward env tw w := by
  rw [stepForwardVisiting_eq env m tw w _ m rfl hm, stepForward_eq env tw w _ m rfl hm]

/-- C18: the result of `stepForward` does not depend on the order in which the
keys of the current slot are visited.  Let `m` be the slot the Step scans, a
map, and let each item's `ShouldRelease()` answer not depend on the other
items.  Then for any two orders of the keys of `m` the Step returns, visits
each member of `m` exactly once and nothing else, leaves the same wheel (the
slot keeps the members that are no Releasers or answer `false`), and calls
`Release()` once on the same items; and `stepForward` is the Step in the
order of the list. -/
theorem C18_step_is_order_independent {α σ : Type} [DecidableEq α] (env : Env α σ)
    (tw : TimingWheel α) (w : σ) (m order1 order2 : itemCon α)
    (hind : independentItems env)
    (hm : slotAt tw.slots (if tw.curIndex + 1 ≥ (tw.slots.length : Int) then 0
      else tw.curIndex + 1) = some m)
    (hnd : m.Nodup) (hp1 : order1.Perm m) (hp2 : order2.Perm m) :
    ∃ r1 r2, stepForwardVisiting env order1 tw w = some r1 ∧
      stepForwardVisiting env order2 tw w = some r2 ∧
      r1.tw = r2.tw ∧
      slotAt r1.tw.slots r1.tw.curIndex =
        some (m.filter (fun k => !(env.isReleaser k && (env.ShouldRelease k w).1))) ∧
      (∀ k, releaseCount k r1.log = releaseCount k r2.log) ∧
      (∀ k, releaseCount k r1.log =
        if k ∈ m ∧ env.isReleaser k = true ∧ (env.ShouldRelease k w).1 = true
          then 1 else 0) ∧
      (∀ k, List.count (Event.visit k) r1.log = if k ∈ m then 1 else 0) ∧
      (∀ k, List.count (Event.visit k) r2.log = if k ∈ m then 1 else 0) ∧
      stepForwardVisiting env m tw w = stepForward env tw w := by
  obtain ⟨a1, b1, c1⟩ := rangeLoop_any_order env hind m order1 w hnd hp1
  obtain ⟨a2, b2, c2⟩ := rangeLoop_any_order env hind m order2 w hnd hp2
  obtain ⟨hi0, hilt⟩ := slotAt_range _ _ _ hm
  refine ⟨_, _, stepForwardVisiting_eq env order1 tw w _ m rfl hm,
    stepForwardVisiting_eq env order2 tw w _ m rfl hm, ?_, ?_, ?_, b1, c1, c2,
    stepForwardVisiting_self env tw w m hm⟩
  · simp only [a1, a2]
  · simp only [a1]
    exact slotAt_set_same _ _ _ hi0 hilt
  · intro k
    rw [b1 k, b2 k]

/-- The answers of the items of `fixedEnv` do not depend on the world. -/
theorem fixedEnv_independent : independentItems fixedEnv := by
  intro j k w _
  exact ⟨rfl, rfl⟩

/-- C18 on a wheel of three slots: the slot `[2, 3, 40, 6]` scanned in the
orders `[6, 40, 3, 2]` and `[3, 2, 6, 40]` is left as `[3, 40]` both times, 2
and 6 being released once each. -/
theorem C18_witness :
    independentItems fixedEnv ∧
    slotAt ([[1], [2, 3, 40, 6], [5]] : slotCon Nat)
      (if (0 : Int) + 1 ≥ (([[1], [2, 3, 40, 6], [5]] : slotCon Nat).length : Int) then 0
        else 0 + 1) = some [2, 3, 40, 6] ∧
    ([2, 3, 40, 6] : List Nat).Nodup ∧
    ([6, 40, 3, 2] : List Nat).Perm [2, 3, 40, 6] ∧
    ([3, 2, 6, 40] : List Nat).Perm [2, 3, 40, 6] ∧
    ∃ r1 r2,
      stepForwardVisiting fixedEnv [6, 40, 3, 2]
        { stepTime := 2, slots := [[1], [2, 3, 40, 6], [5]], curIndex := 0 } 0 = some r1 ∧
      stepForwardVisiting fixedEnv [3, 2, 6, 40]
        { stepTime := 2, slots := [[1], [2, 3, 40, 6], [5]], curIndex := 0 } 0 = some r2 ∧
      r1.tw = r2.tw ∧
      r1.tw = { stepTime := 2, slots := [[1], [3, 40], [5]], curIndex := 1 } ∧
      releaseCount 2 r1.log = 1 ∧ releaseCount 6 r2.log = 1 ∧ releaseCount 40 r2.log = 0 := by
  have hm : slotAt ([[1], [2, 3, 40, 6], [5]] : slotCon Nat)
      (if (0 : Int) + 1 ≥ (([[1], [2, 3, 40, 6], [5]] : slotCon Nat).length : Int) then 0
        else 0 + 1) = some [2, 3, 40, 6] := by rfl
  have hp1 : ([6, 40, 3, 2] : List Nat).Perm [2, 3, 40, 6] := by decide
  have hp2 : ([3, 2, 6, 40] : List Nat).Perm [2, 3, 40, 6] := by decide
  refine ⟨fixedEnv_independent, hm, by decide, hp1, hp2, ?_⟩
  obtain ⟨r1, r2, h1, h2, h3, _, h5, h6, _⟩ :=
    C18_step_is_order_independent fixedEnv
      ({ stepTime := 2, slots := [[1], [2, 3, 40, 6], [5]], curIndex := 0 } : TimingWheel Nat)
      0 [2, 3, 40, 6] [6, 40, 3, 2] [3, 2, 6, 40] fixedEnv_independent hm (by decide) hp1 hp2
  have hval : stepForwardVisiting fixedEnv [6, 40, 3, 2]
      ({ stepTime := 2, slots := [[1], [2, 3, 40, 6], [5]], curIndex := 0 } : TimingWheel Nat)
      0 = some { tw := { stepTime := 2, slots := [[1], [3, 40], [5]], curIndex := 1 },
                 world := 5,
                 log := [Event.visit 6, Event.shouldRelease 6 true, Event.release 6,
                   Event.visit 40, Event.shouldRelease 40 false, Event.visit 3,
                   Event.visit 2, Event.shouldRelease 2 true, Event.release 2] } := by rfl
  have htw : r1.tw = { stepTime := 2, slots := [[1], [3, 40], [5]], curIndex := 1 } := by
    rw [hval] at h1
    cases h1
    rfl
  refine ⟨r1, r2, h1, h2, h3, htw, ?_, ?_, ?_⟩
  · rw [h6 2]; rfl
  · rw [← h5 6, h6 6]; rfl
  · rw [← h5 40, h6 40]; rfl

/-! ## Run -/

theorem runLoop_quit {α σ : Type} [DecidableEq α] (env : Env α σ)
    (shouldQuit : Nat → σ → Bool × σ) (ticks : List (List (Op α σ))) (i : Nat)
    (s : RunState α σ) (hq : (shouldQuit i s.world).1 = true) :
    runLoop env shouldQuit ticks i s =
      Outcome.returned { s with world := (shouldQuit i s.world).2,
                                trace := s.trace ++ [RunEvent.shouldQuit true] } := by
  cases ticks <;> simp [runLoop, hq]

theorem runLoop_step {α σ : Type} [DecidableEq α] (env : Env α σ)
    (shouldQuit : Nat → σ → Bool × σ) (others : List (Op α σ))
    (rest : List (List (Op α σ))) (i : Nat) (s : RunState α σ) (t : Sys α σ)
    (r : Stepped α σ) (hq : (shouldQuit i s.world).1 = false)
    (ht : run env others { tw := s.tw, world := (shouldQuit i s.world).2, logs := [] } = some t)
    (hr : stepForward env t.tw t.world = some r) :
    runLoop env shouldQuit (others :: rest) i s =
      runLoop env shouldQuit rest (i + 1)
        { tw := r.tw, world := r.world,
          trace := s.trace ++ [RunEvent.shouldQuit false] ++
            [RunEvent.tick, RunEvent.step r.log] } := by
  simp [runLoop, hq, ht, hr]

/-- With the cursor in range `stepForward` returns a wheel with the cursor in
range, as many slots and the same step time. -/
theorem stepForward_inRange {α σ : Type} [DecidableEq α] (env : Env α σ) (tw : TimingWheel α)
    (w : σ) (hr : inRange tw) :
    ∃ r, stepForward env tw w = some r ∧ inRange r.tw ∧
      r.tw.slots.length = tw.slots.length ∧ r.tw.stepTime = tw.stepTime := by
  obtain ⟨old, _, hstep⟩ := stepForward_ok env tw w hr
  have hpos : (0 : Int) < (tw.slots.length : Int) := lt_of_le_of_lt hr.1 hr.2
  refine ⟨_, hstep, ?_, by simp, rfl⟩
  unfold inRange
  simp only [List.length_set]
  exact ⟨Int.emod_nonneg _ (by omega), Int.emod_lt_of_pos _ hpos⟩

theorem roundsTrace_cons {α : Type} (log : List (Event α)) (logs : List (List (Event α))) :
    roundsTrace (log :: logs) =
      [RunEvent.shouldQuit false, RunEvent.tick, RunEvent.step log] ++ roundsTrace logs := by
  simp [roundsTrace, List.flatMap_cons]

/-- The loop of `Run`: if `shouldQuit` answers `false` on the calls `i`, ...,
`i + k - 1` and `true` on the call `i + k`, and `k` ticks come, the loop makes
`k` rounds and is left. -/
theorem runLoop_returns {α σ : Type} [DecidableEq α] (env : Env α σ)
    (shouldQuit : Nat → σ → Bool × σ) (k : Nat) :
    ∀ (ticks : List (List (Op α σ))) (i : Nat) (s : RunState α σ), inRange s.tw →
      (∀ j, i ≤ j → j < i + k → ∀ w, (shouldQuit j w).1 = false) →
      (∀ w, (shouldQuit (i + k) w).1 = true) → k ≤ ticks.length →
      ∃ s1 logs, runLoop env shouldQuit ticks i s = Outcome.returned s1 ∧
        logs.length = k ∧
        s1.trace = s.trace ++ roundsTrace logs ++ [RunEvent.shouldQuit true] ∧
        inRange s1.tw ∧ s1.tw.slots.length = s.tw.slots.length ∧
        s1.tw.stepTime = s.tw.stepTime := by
  induction k with
  | zero =>
    intro ticks i s hr _ htrue _
    refine ⟨_, [], runLoop_quit env shouldQuit ticks i s (htrue s.world), rfl, ?_, hr, rfl, rfl⟩
    simp [roundsTrace]
  | succ k ih =>
    intro ticks i s hr hfalse htrue hlen
    cases ticks with
    | nil => simp at hlen
    | cons others rest =>
      have hq : (shouldQuit i s.world).1 = false := hfalse i (le_refl _) (by omega) s.world
      obtain ⟨t, ht, hrt, hlt, htt, _⟩ :=
        run_ok env others { tw := s.tw, world := (shouldQuit i s.world).2, logs := [] } hr
      obtain ⟨r, hstep, hrr, hlr, htr⟩ := stepForward_inRange env t.tw t.world hrt
      obtain ⟨s1, logs, h1, hl1, htrace, hr1, hlen1, hst1⟩ :=
        ih rest (i + 1)
          { tw := r.tw, world := r.world,
            trace := s.trace ++ [RunEvent.shouldQuit false] ++
              [RunEvent.tick, RunEvent.step r.log] } hrr
          (fun j h1 h2 w => hfalse j (by omega) (by omega) w)
          (by
            have : i + 1 + k = i + (k + 1) := by omega
            rw [this]
            exact htrue)
          (by simpa using hlen)
      refine ⟨s1, r.log :: logs, ?_, by simp [hl1], ?_, hr1, ?_, ?_⟩
      · rw [runLoop_step env shouldQuit others rest i s t r hq ht hstep]
        exact h1
      · rw [htrace, roundsTrace_cons]
        simp
      · rw [hlen1, hlr, hlt]
      · rw [hst1, htr, htt]

theorem roundsTrace_counts {α : Type} (logs : List (List (Event α))) :
    (roundsTrace logs).countP RunEvent.isStep = logs.length ∧
      (roundsTrace logs).countP RunEvent.isDeferFunc = 0 := by
  induction logs with
  | nil => simp [roundsTrace]
  | cons log logs ih =>
    rw [roundsTrace_cons]
    simp only [List.countP_append, ih.1, ih.2, List.length_cons]
    simp [List.countP_cons, RunEvent.isStep, RunEvent.isDeferFunc]
    omega

/-! ## Run: the state it leaves -/

/-- One operation adds to the logs the log of its Step, if it is one, and does
not look at the logs. -/
theorem applyOp_logs {α σ : Type} [DecidableEq α] (env : Env α σ) (s s1 : Sys α σ)
    (op : Op α σ) (h : applyOp env s op = some s1) :
    ∃ new, s1.logs = s.logs ++ new ∧ new.length = countSteps [op] ∧
      ∀ l0, applyOp env { s with logs := l0 } op = some { s1 with logs := l0 ++ new } := by
  cases op with
  | addItem x =>
    cases hA : AddItem s.tw x with
    | none => simp [applyOp, hA] at h
    | some tw1 =>
      simp only [applyOp, hA, Option.some.injEq] at h
      subst h
      exact ⟨[], by simp, rfl, fun l0 => by simp [applyOp, hA]⟩
  | step =>
    cases hA : stepForward env s.tw s.world with
    | none => simp [applyOp, hA] at h
    | some r =>
      simp only [applyOp, hA, Option.some.injEq] at h
      subst h
      exact ⟨[r.log], rfl, rfl, fun l0 => by simp [applyOp, hA]⟩
  | external f =>
    simp only [applyOp, Option.some.injEq] at h
    subst h
    exact ⟨[], by simp, rfl, fun l0 => by simp [applyOp]⟩

/-- A sequence of operations adds to the logs the logs of its Steps, and does
not look at the logs. -/
theorem run_logs {α σ : Type} [DecidableEq α] (env : Env α σ) (ops : List (Op α σ)) :
    ∀ s s1 : Sys α σ, run env ops s = some s1 →
      ∃ new, s1.logs = s.logs ++ new ∧ new.length = countSteps ops ∧
        ∀ l0, run env ops { s with logs := l0 } = some { s1 with logs := l0 ++ new } := by
  induction ops with
  | nil =>
    intro s s1 h
    simp only [run, Option.some.injEq] at h
    subst h
    exact ⟨[], by simp, rfl, fun l0 => by simp [run]⟩
  | cons op ops ih =>
    intro s s1 h
    cases hA : applyOp env s op with
    | none => simp [run, hA] at h
    | some sa =>
      have h2 : run env ops sa = some s1 := by simpa only [run, hA] using h
      obtain ⟨new1, hl1, hn1, hf1⟩ := applyOp_logs env s sa op hA
      obtain ⟨new2, hl2, hn2, hf2⟩ := ih sa s1 h2
      refine ⟨new1 ++ new2, ?_, ?_, ?_⟩
      · rw [hl2, hl1, List.append_assoc]
      · rw [List.length_append, hn1, hn2, countSteps_cons op ops]
      · intro l0
        have := hf2 (l0 ++ new1)
        simp only [run, hf1 l0]
        rw [List.append_assoc] at this
        exact this

/-- The loop of `Run`, with the state it leaves: after `k` rounds the wheel and
the world are those of the run of `roundsOps`, and the Steps made are those of
that run. -/
theorem runLoop_rounds {α σ : Type} [DecidableEq α] (env : Env α σ)
    (shouldQuit : Nat → σ → Bool × σ) (k : Nat) :
    ∀ (ticks : List (List (Op α σ))) (i : Nat) (s : RunState α σ), inRange s.tw →
      (∀ j, i ≤ j → j < i + k → ∀ w, (shouldQuit j w).1 = false) →
      (∀ w, (shouldQuit (i + k) w).1 = true) → k ≤ ticks.length →
      ∃ s1 t, runLoop env shouldQuit ticks i s = Outcome.returned s1 ∧
        run env (roundsOps shouldQuit ticks i k)
          { tw := s.tw, world := s.world, logs := [] } = some t ∧
        s1.trace = s.trace ++ roundsTrace (ownLogs (ticks.take k) t.logs) ++
          [RunEvent.shouldQuit true] ∧
        (ownLogs (ticks.take k) t.logs).length = k ∧
        s1.tw = t.tw ∧ s1.world = (shouldQuit (i + k) t.world).2 := by
  induction k with
  | zero =>
    intro ticks i s hr _ htrue _
    refine ⟨_, { tw := s.tw, world := s.world, logs := [] },
      runLoop_quit env shouldQuit ticks i s (htrue s.world), ?_, ?_, ?_, rfl, rfl⟩
    · cases ticks <;> rfl
    · simp [ownLogs, roundsTrace]
    · simp [ownLogs]
  | succ k ih =>
    intro ticks i s hr hfalse htrue hlen
    cases ticks with
    | nil => simp at hlen
    | cons others rest =>
      have hq : (shouldQuit i s.world).1 = false := hfalse i (le_refl _) (by omega) s.world
      obtain ⟨t0, ht0, hrt0, _, _, _⟩ :=
        run_ok env others { tw := s.tw, world := (shouldQuit i s.world).2, logs := [] } hr
      obtain ⟨new0, hlog0, hlen0, _⟩ := run_logs env others _ t0 ht0
      obtain ⟨r, hstep, hrr, _, _⟩ := stepForward_inRange env t0.tw t0.world hrt0
      obtain ⟨s1, t1, h1, hrun1, htrace1, hlen1, htw1, hworld1⟩ :=
        ih rest (i + 1)
          { tw := r.tw, world := r.world,
            trace := s.trace ++ [RunEvent.shouldQuit false] ++
              [RunEvent.tick, RunEvent.step r.log] } hrr
          (fun j h1 h2 w => hfalse j (by omega) (by omega) w)
          (by
            have : i + 1 + k = i + (k + 1) := by omega
            rw [this]
            exact htrue)
          (by simpa using hlen)
      obtain ⟨new1, hlog1, _, hfrom1⟩ := run_logs env _ _ t1 hrun1
      simp only [List.nil_append] at hlog0 hlog1
      have hrun : run env (roundsOps shouldQuit (others :: rest) i (k + 1))
          { tw := s.tw, world := s.world, logs := [] } =
          some { t1 with logs := new0 ++ [r.log] ++ new1 } := by
        have h2 : applyOp env t0 Op.step =
            some { tw := r.tw, world := r.world, logs := t0.logs ++ [r.log] } := by
          simp only [applyOp, hstep]
        have h3 := hfrom1 (new0 ++ [r.log])
        simp only [roundsOps, run, applyOp]
        rw [run_append, ht0]
        simp only [Option.some_bind, run, h2, hlog0]
        exact h3
      have hown : ownLogs ((others :: rest).take (k + 1)) (new0 ++ [r.log] ++ new1) =
          r.log :: ownLogs (rest.take k) t1.logs := by
        have hd1 : (new0 ++ [r.log] ++ new1).drop (countSteps others) = r.log :: new1 := by
          rw [← hlen0, List.append_assoc, List.drop_left]
          rfl
        have hd2 : (new0 ++ [r.log] ++ new1).drop (countSteps others + 1) = new1 := by
          have : countSteps others + 1 = (new0 ++ [r.log]).length := by
            simp [hlen0]
          rw [this, List.drop_left]
        simp only [List.take_succ_cons, ownLogs, hd1, hd2, hlog1]
        rfl
      refine ⟨s1, { t1 with logs := new0 ++ [r.log] ++ new1 }, ?_, hrun, ?_, ?_, htw1, ?_⟩
      · rw [runLoop_step env shouldQuit others rest i s t0 r hq ht0 hstep]
        exact h1
      · simp only [hown]
        rw [htrace1, roundsTrace_cons]
        simp
      · simp only [hown, List.length_cons, hlen1]
      · rw [hworld1]
        have : i + 1 + k = i + (k + 1) := by omega
        rw [this]

/-- C14: `Run` calls `shouldQuit` before every wait for a tick.  On a wheel
with the cursor in range and a positive step time, if `shouldQuit` answers
`false` on its first `k` calls and `true` on call `k + 1`, and at least `k`
ticks come, `Run` returns, and what it has done is: `k` times (`shouldQuit`
answering `false`, a tick, one Step), then `shouldQuit` answering `true`, then
`deferFunc`; so it performs exactly `k` Steps (none when `k = 0`) and calls
`deferFunc` exactly once, last.  The Steps are those of the sequence of
operations `roundsOps` (in each round: `shouldQuit()`, what the other
goroutines do, one Step); `Run` leaves the wheel that sequence leaves, and the
world it leaves after the last `shouldQuit()` and then `deferFunc()` have
run. -/
theorem C14_Run_steps_until_quit {α σ : Type} [DecidableEq α] (env : Env α σ)
    (shouldQuit : Nat → σ → Bool × σ) (deferFunc : σ → σ) (ticks : List (List (Op α σ)))
    (tw : TimingWheel α) (w : σ) (k : Nat)
    (h0 : 0 ≤ tw.curIndex) (hlt : tw.curIndex < (tw.slots.length : Int))
    (hstep : 0 < tw.stepTime)
    (hfalse : ∀ i, i < k → ∀ w1, (shouldQuit i w1).1 = false)
    (htrue : ∀ w1, (shouldQuit k w1).1 = true) (hticks : k ≤ ticks.length) :
    ∃ s1 logs, Run env shouldQuit deferFunc ticks tw w = Outcome.returned s1 ∧
      logs.length = k ∧
      s1.trace = roundsTrace logs ++ [RunEvent.shouldQuit true, RunEvent.deferFunc] ∧
      s1.trace.countP RunEvent.isStep = k ∧
      s1.trace.countP RunEvent.isDeferFunc = 1 ∧
      s1.trace.getLast? = some RunEvent.deferFunc ∧
      ∃ t, run env (roundsOps shouldQuit ticks 0 k)
          { tw := tw, world := w, logs := [] } = some t ∧
        logs = ownLogs (ticks.take k) t.logs ∧
        s1.tw = t.tw ∧ s1.world = deferFunc (shouldQuit k t.world).2 := by
  obtain ⟨s1, t, h1, hrun, htrace, hl, htw, hworld⟩ :=
    runLoop_rounds env shouldQuit k ticks 0 { tw := tw, world := w, trace := [] } ⟨h0, hlt⟩
      (fun j _ h2 w1 => hfalse j (by omega) w1) (by simpa using htrue) hticks
  have hns : ¬ (tw.stepTime ≤ 0) := by omega
  have htr : s1.trace ++ [RunEvent.deferFunc] =
      roundsTrace (ownLogs (ticks.take k) t.logs) ++
        [RunEvent.shouldQuit true, RunEvent.deferFunc] := by
    rw [htrace]
    simp
  refine ⟨{ s1 with world := deferFunc s1.world, trace := s1.trace ++ [RunEvent.deferFunc] },
    ownLogs (ticks.take k) t.logs, ?_, hl, htr, ?_, ?_, ?_, t, hrun, rfl, htw, ?_⟩
  · unfold Run
    simp only [hns, if_false, h1, deferred]
  · simp only [htr, List.countP_append, (roundsTrace_counts _).1, hl]
    simp [List.countP_cons, RunEvent.isStep]
  · simp only [htr, List.countP_append, (roundsTrace_counts _).2]
    simp [List.countP_cons, RunEvent.isDeferFunc]
  · simp
  · show deferFunc s1.world = deferFunc (shouldQuit k t.world).2
    rw [hworld]
    simp

/-- C14 on a wheel of three slots: `shouldQuit` answers `false` once and then
`true`, two ticks come (an item is added while `Run` waits for the first):
`Run` makes one Step, leaves the loop and calls `deferFunc`, which adds 100 to
the clock. -/
theorem C14_witness :
    (0 : Int) ≤ 0 ∧ (0 : Int) < (([[1], [2, 3], [5]] : slotCon Nat).length : Int) ∧
    (0 : Int) < 2 ∧
    (∀ i, i < 1 → ∀ w1 : Nat, (quitAfter 1 i w1).1 = false) ∧
    (∀ w1 : Nat, (quitAfter 1 1 w1).1 = true) ∧
    1 ≤ ([[Op.addItem 8], []] : List (List (Op Nat Nat))).length ∧
    ∃ s1 logs, Run sampleEnv (quitAfter 1) (fun w => w + 100) [[Op.addItem 8], []]
        { stepTime := 2, slots := [[1], [2, 3], [5]], curIndex := 0 } 3 =
        Outcome.returned s1 ∧
      logs.length = 1 ∧
      s1.trace = roundsTrace logs ++ [RunEvent.shouldQuit true, RunEvent.deferFunc] ∧
      s1.trace.countP RunEvent.isStep = 1 ∧
      s1.trace.countP RunEvent.isDeferFunc = 1 ∧
      s1.trace = [RunEvent.shouldQuit false, RunEvent.tick,
        RunEvent.step [Event.visit 2, Event.shouldRelease 2 true, Event.release 2,
          Event.visit 3],
        RunEvent.shouldQuit true, RunEvent.deferFunc] ∧
      s1.tw = { stepTime := 2, slots := [[1, 8], [3], [5]], curIndex := 1 } ∧
      s1.world = 114 ∧
      ∃ t, run sampleEnv
          (roundsOps (quitAfter 1) ([[Op.addItem 8], []] : List (List (Op Nat Nat))) 0 1)
          { tw := { stepTime := 2, slots := [[1], [2, 3], [5]], curIndex := 0 },
            world := 3, logs := [] } = some t ∧
        s1.tw = t.tw ∧ s1.world = (fun w => w + 100) (quitAfter 1 1 t.world).2 := by
  have hfalse : ∀ i, i < 1 → ∀ w1 : Nat, (quitAfter 1 i w1).1 = false := by
    intro i hi w1
    simp only [quitAfter, decide_eq_false_iff_not]
    omega
  have htrue : ∀ w1 : Nat, (quitAfter 1 1 w1).1 = true := by
    intro w1
    simp [quitAfter]
  refine ⟨by decide, by decide, by decide, hfalse, htrue, by decide, ?_⟩
  obtain ⟨s1, logs, h1, h2, h3, h4, h5, _, t, h7, _, h9, h10⟩ :=
    C14_Run_steps_until_quit sampleEnv (quitAfter 1) (fun w => w + 100)
      [[Op.addItem 8], []]
      ({ stepTime := 2, slots := [[1], [2, 3], [5]], curIndex := 0 } : TimingWheel Nat)
      3 1 (by decide) (by decide) (by decide) hfalse htrue (by decide)
  have hval : Run sampleEnv (quitAfter 1) (fun w => w + 100) [[Op.addItem 8], []]
      ({ stepTime := 2, slots := [[1], [2, 3], [5]], curIndex := 0 } : TimingWheel Nat)
      3 = Outcome.returned
        { tw := { stepTime := 2, slots := [[1, 8], [3], [5]], curIndex := 1 },
          world := 114,
          trace := [RunEvent.shouldQuit false, RunEvent.tick,
            RunEvent.step [Event.visit 2, Event.shouldRelease 2 true, Event.release 2,
              Event.visit 3],
            RunEvent.shouldQuit true, RunEvent.deferFunc] } := by rfl
  rw [hval] at h1
  cases h1
  exact ⟨_, logs, hval, h2, h3, h4, h5, rfl, rfl, rfl, t, h7, h9, h10⟩

/-! ## The observer -/

/-- The four ways one round of the loop of `stepForwardWithObserver` can go. -/
theorem rangeLoopWithObserver_cases {α σ : Type} [DecidableEq α] (env : Env α σ)
    (ob : Observer σ) (a : α) (ks : List α) (m : itemCon α) (w : σ) :
    (a ∉ m ∧ rangeLoopWithObserver env ob (a :: ks) m w =
      rangeLoopWithObserver env ob ks m w) ∨
    (a ∈ m ∧ env.isReleaser a = false ∧
      rangeLoopWithObserver env ob (a :: ks) m w =
        Scan.emit [Event.visit a] (rangeLoopWithObserver env ob ks m w)) ∨
    (a ∈ m ∧ env.isReleaser a = true ∧ (env.ShouldRelease a w).1 = false ∧
      rangeLoopWithObserver env ob (a :: ks) m w =
        Scan.emit [Event.visit a, Event.shouldRelease a false]
          (rangeLoopWithObserver env ob ks m (env.ShouldRelease a w).2)) ∨
    (a ∈ m ∧ env.isReleaser a = true ∧ (env.ShouldRelease a w).1 = true ∧
      rangeLoopWithObserver env ob (a :: ks) m w =
        Scan.emit [Event.visit a, Event.shouldRelease a true, Event.release a,
            Event.hook Hook.afterRelease]
          (rangeLoopWithObserver env ob ks (itemCon.delete m a)
            (ob.afterRelease (env.Release a (env.ShouldRelease a w).2)))) := by
  by_cases ha : a ∈ m
  · cases hr : env.isReleaser a
    · exact Or.inr (Or.inl ⟨ha, rfl, by simp [rangeLoopWithObserver, ha, hr]⟩)
    · cases hs : (env.ShouldRelease a w).1
      · exact Or.inr (Or.inr (Or.inl ⟨ha, rfl, rfl,
          by simp [rangeLoopWithObserver, ha, hr, hs]⟩))
      · exact Or.inr (Or.inr (Or.inr ⟨ha, rfl, rfl,
          by simp [rangeLoopWithObserver, ha, hr, hs]⟩))
  · exact Or.inl ⟨ha, by simp [rangeLoopWithObserver, ha]⟩

/-- The observed scan calls `afterRelease()` once for each `Release()` and
calls no other observer method. -/
theorem rangeLoopWithObserver_hooks {α σ : Type} [DecidableEq α] (env : Env α σ)
    (ob : Observer σ) (ks : List α) :
    ∀ (m : itemCon α) (w : σ),
      hookCount Hook.afterRelease (rangeLoopWithObserver env ob ks m w).log =
          releaseTotal (rangeLoopWithObserver env ob ks m w).log ∧
      (∀ h, h ≠ Hook.afterRelease →
        hookCount h (rangeLoopWithObserver env ob ks m w).log = 0) := by
  induction ks with
  | nil =>
    intro m w
    simp [rangeLoopWithObserver, hookCount, releaseTotal]
  | cons a ks ih =>
    intro m w
    rcases rangeLoopWithObserver_cases env ob a ks m w with ⟨_, e⟩ | ⟨_, _, e⟩ |
      ⟨_, _, _, e⟩ | ⟨_, _, _, e⟩ <;> rw [e]
    · exact ih m w
    · obtain ⟨i1, i2⟩ := ih m w
      refine ⟨?_, ?_⟩
      · simp only [hookCount, releaseTotal, emit_log, List.count_append,
          List.countP_append] at i1 ⊢
        rw [i1]
        simp [List.count_cons, List.countP_cons, Event.isRelease]
      · intro h hh
        have := i2 h hh
        simp only [hookCount, emit_log, List.count_append] at this ⊢
        rw [this]
        simp [List.count_cons]
    · obtain ⟨i1, i2⟩ := ih m (env.ShouldRelease a w).2
      refine ⟨?_, ?_⟩
      · simp only [hookCount, releaseTotal, emit_log, List.count_append,
          List.countP_append] at i1 ⊢
        rw [i1]
        simp [List.count_cons, List.countP_cons, Event.isRelease]
      · intro h hh
        have := i2 h hh
        simp only [hookCount, emit_log, List.count_append] at this ⊢
        rw [this]
        simp [List.count_cons]
    · obtain ⟨i1, i2⟩ := ih (itemCon.delete m a)
        (ob.afterRelease (env.Release a (env.ShouldRelease a w).2))
      refine ⟨?_, ?_⟩
      · simp only [hookCount, releaseTotal, emit_log, List.count_append,
          List.countP_append] at i1 ⊢
        rw [i1]
        simp [List.count_cons, List.countP_cons, Event.isRelease]
      · intro h hh
        have := i2 h hh
        simp only [hookCount, emit_log, List.count_append] at this ⊢
        rw [this]
        have hne : ¬ (Hook.afterRelease = h) := fun e => hh e.symm
        simp [List.count_cons, hne]

theorem eraseHooks_emit {α σ : Type} (es : List (Event α)) (r : Scan α σ) :
    eraseHooks (Scan.emit es r).log = eraseHooks es ++ eraseHooks r.log := by
  simp only [eraseHooks, emit_log, List.filter_append]

theorem stepForwardWithObserver_eq {α σ : Type} [DecidableEq α] (env : Env α σ)
    (ob : Observer σ) (tw : TimingWheel α) (w : σ) (idx : Int) (old : itemCon α)
    (hidx : idx = if tw.curIndex + 1 ≥ (tw.slots.length : Int) then 0 else tw.curIndex + 1)
    (hold : slotAt tw.slots idx = some old) :
    stepForwardWithObserver env ob tw w =
      some { tw := { tw with curIndex := idx,
                             slots := tw.slots.set idx.toNat
                               (rangeLoopWithObserver env ob old old w).slot },
             world := (rangeLoopWithObserver env ob old old w).world,
             log := (rangeLoopWithObserver env ob old old w).log } := by
  unfold stepForwardWithObserver
  simp only [← hidx, hold]

theorem stepForwardWithObserver_eq_none {α σ : Type} [DecidableEq α] (env : Env α σ)
    (ob : Observer σ) (tw : TimingWheel α) (w : σ) (idx : Int)
    (hidx : idx = if tw.curIndex + 1 ≥ (tw.slots.length : Int) then 0 else tw.curIndex + 1)
    (hold : slotAt tw.slots idx = none) :
    stepForwardWithObserver env ob tw w = none := by
  unfold stepForwardWithObserver
  simp only [← hidx, hold]

/-- With the cursor in range `stepForwardWithObserver` returns a wheel with the
cursor in range, as many slots and the same step time. -/
theorem stepForwardWithObserver_inRange {α σ : Type} [DecidableEq α] (env : Env α σ)
    (ob : Observer σ) (tw : TimingWheel α) (w : σ) (hr : inRange tw) :
    ∃ r, stepForwardWithObserver env ob tw w = some r ∧ inRange r.tw ∧
      r.tw.slots.length = tw.slots.length ∧ r.tw.stepTime = tw.stepTime := by
  obtain ⟨hi0, hilt⟩ := nextIndex_range tw.curIndex tw.slots.length hr.1 hr.2
  obtain ⟨old, hold⟩ := slotAt_eq_some tw.slots _ hi0 hilt
  refine ⟨_, stepForwardWithObserver_eq env ob tw w _ old rfl hold, ?_, by simp, rfl⟩
  unfold inRange
  simp only [List.length_set]
  exact ⟨hi0, hilt⟩

/-- The log of an observed Step holds one `afterRelease()` for each
`Release()` and no call of another observer method. -/
theorem stepForwardWithObserver_hooks {α σ : Type} [DecidableEq α] (env : Env α σ)
    (ob : Observer σ) (tw : TimingWheel α) (w : σ) (r : Stepped α σ)
    (h : stepForwardWithObserver env ob tw w = some r) :
    hookCount Hook.afterRelease r.log = releaseTotal r.log ∧
      (∀ h1, h1 ≠ Hook.afterRelease → hookCount h1 r.log = 0) := by
  cases hold : slotAt tw.slots
      (if tw.curIndex + 1 ≥ (tw.slots.length : Int) then 0 else tw.curIndex + 1) with
  | none =>
    rw [stepForwardWithObserver_eq_none env ob tw w _ rfl hold] at h
    cases h
  | some old =>
    rw [stepForwardWithObserver_eq env ob tw w _ old rfl hold] at h
    cases h
    exact rangeLoopWithObserver_hooks env ob old old w

theorem releaseTotal_eraseHooks {α : Type} (log : List (Event α)) :
    releaseTotal (eraseHooks log) = releaseTotal log := by
  induction log with
  | nil => rfl
  | cons e log ih =>
    cases e <;>
      simp_all [releaseTotal, eraseHooks, List.filter_cons, List.countP_cons, Event.isHook,
        Event.isRelease]

theorem releaseCount_eraseHooks {α : Type} [DecidableEq α] (k : α) (log : List (Event α)) :
    releaseCount k (eraseHooks log) = releaseCount k log := by
  unfold releaseCount eraseHooks
  exact List.count_filter (by simp [Event.isHook])

theorem runLoopWithStepObserver_quit {α σ : Type} [DecidableEq α] (env : Env α σ)
    (shouldQuit : Nat → σ → Bool × σ) (ob : Observer σ) (ticks : List (List (Op α σ)))
    (i : Nat) (s : RunState α σ) (hq : (shouldQuit i s.world).1 = true) :
    runLoopWithStepObserver env shouldQuit ob ticks i s =
      Outcome.returned { s with world := (shouldQuit i s.world).2,
                                trace := s.trace ++ [RunEvent.shouldQuit true] } := by
  cases ticks <;> simp [runLoopWithStepObserver, hq]

theorem runLoopWithStepObserver_step {α σ : Type} [DecidableEq α] (env : Env α σ)
    (shouldQuit : Nat → σ → Bool × σ) (ob : Observer σ) (others : List (Op α σ))
    (rest : List (List (Op α σ))) (i : Nat) (s : RunState α σ) (t : Sys α σ)
    (r : Stepped α σ) (hq : (shouldQuit i s.world).1 = false)
    (ht : run env others { tw := s.tw, world := (shouldQuit i s.world).2, logs := [] } = some t)
    (hr : stepForwardWithObserver env ob t.tw (ob.beforeStep t.world) = some r) :
    runLoopWithStepObserver env shouldQuit ob (others :: rest) i s =
      runLoopWithStepObserver env shouldQuit ob rest (i + 1)
        { tw := r.tw, world := ob.afterStep r.world,
          trace := s.trace ++ [RunEvent.shouldQuit false] ++
            [RunEvent.tick, RunEvent.hook Hook.beforeStep, RunEvent.step r.log,
             RunEvent.hook Hook.afterStep] } := by
  simp [runLoopWithStepObserver, hq, ht, hr]

theorem observedRoundsTrace_cons {α : Type} (log : List (Event α))
    (logs : List (List (Event α))) :
    observedRoundsTrace (log :: logs) =
      [RunEvent.shouldQuit false, RunEvent.tick, RunEvent.hook Hook.beforeStep,
        RunEvent.step log, RunEvent.hook Hook.afterStep] ++ observedRoundsTrace logs := by
  simp [observedRoundsTrace, List.flatMap_cons]

/-! ## The observer: refinement -/

/-- When the items respect `R` and `R` does not see `afterRelease()`, the
observed scan in a world related to that of the plain scan leaves the same map,
makes the same calls to the items, and leaves a related world. -/
theorem rangeLoopWithObserver_sim {α σ : Type} [DecidableEq α] (env : Env α σ)
    (ob : Observer σ) (R : σ → σ → Prop) (hI : itemsRespect env R)
    (hA : unseen R ob.afterRelease) (ks : List α) :
    ∀ (m : itemCon α) (a b : σ), R a b →
      (rangeLoopWithObserver env ob ks m b).slot = (rangeLoop env ks m a).slot ∧
      eraseHooks (rangeLoopWithObserver env ob ks m b).log = (rangeLoop env ks m a).log ∧
      R (rangeLoop env ks m a).world (rangeLoopWithObserver env ob ks m b).world := by
  induction ks with
  | nil =>
    intro m a b hab
    simpa [rangeLoopWithObserver, rangeLoop, eraseHooks] using hab
  | cons k ks ih =>
    intro m a b hab
    obtain ⟨c1, c2, c3⟩ := hI k a b hab
    rcases rangeLoop_cases env k ks m a with ⟨ha, e⟩ | ⟨ha, hr, e⟩ | ⟨ha, hr, hs, e⟩ |
      ⟨ha, hr, hs, e⟩
    · rcases rangeLoopWithObserver_cases env ob k ks m b with
        ⟨_, e1⟩ | ⟨ha1, _⟩ | ⟨ha1, _⟩ | ⟨ha1, _⟩
      · rw [e, e1]
        exact ih m a b hab
      all_goals exact absurd ha1 ha
    · rcases rangeLoopWithObserver_cases env ob k ks m b with
        ⟨ha1, _⟩ | ⟨_, _, e1⟩ | ⟨_, hr1, _⟩ | ⟨_, hr1, _⟩
      · exact absurd ha ha1
      · rw [e, e1]
        obtain ⟨i1, i2, i3⟩ := ih m a b hab
        refine ⟨i1, ?_, i3⟩
        rw [eraseHooks_emit, i2]
        simp [eraseHooks, Event.isHook]
      all_goals (rw [hr] at hr1; cases hr1)
    · rcases rangeLoopWithObserver_cases env ob k ks m b with
        ⟨ha1, _⟩ | ⟨_, hr1, _⟩ | ⟨_, _, _, e1⟩ | ⟨_, _, hs1, _⟩
      · exact absurd ha ha1
      · rw [hr] at hr1; cases hr1
      · rw [e, e1]
        obtain ⟨i1, i2, i3⟩ := ih m _ _ c2
        refine ⟨i1, ?_, i3⟩
        rw [eraseHooks_emit, i2]
        simp [eraseHooks, Event.isHook]
      · rw [← c1, hs] at hs1; cases hs1
    · rcases rangeLoopWithObserver_cases env ob k ks m b with
        ⟨ha1, _⟩ | ⟨_, hr1, _⟩ | ⟨_, _, hs1, _⟩ | ⟨_, _, _, e1⟩
      · exact absurd ha ha1
      · rw [hr] at hr1; cases hr1
      · rw [← c1, hs] at hs1; cases hs1
      · rw [e, e1]
        have hrel : R (env.Release k (env.ShouldRelease k a).2)
            (ob.afterRelease (env.Release k (env.ShouldRelease k b).2)) :=
          hA _ _ (hI k _ _ c2).2.2
        obtain ⟨i1, i2, i3⟩ := ih (itemCon.delete m k) _ _ hrel
        refine ⟨i1, ?_, i3⟩
        rw [eraseHooks_emit, i2]
        simp [eraseHooks, Event.isHook]

/-- When the items respect `R`, an observed Step in a world related to that of
a plain Step fails with it, or leaves the same wheel, makes the same calls to
the items and leaves a related world. -/
theorem step_sim {α σ : Type} [DecidableEq α] (env : Env α σ) (ob : Observer σ)
    (R : σ → σ → Prop) (hI : itemsRespect env R) (hA : unseen R ob.afterRelease)
    (tw : TimingWheel α) (a b : σ) (hab : R a b) :
    (stepForwardWithObserver env ob tw b = none ∧ stepForward env tw a = none) ∨
    ∃ r p, stepForwardWithObserver env ob tw b = some r ∧ stepForward env tw a = some p ∧
      r.tw = p.tw ∧ eraseHooks r.log = p.log ∧ R p.world r.world := by
  cases hold : slotAt tw.slots
      (if tw.curIndex + 1 ≥ (tw.slots.length : Int) then 0 else tw.curIndex + 1) with
  | none =>
    exact Or.inl ⟨stepForwardWithObserver_eq_none env ob tw b _ rfl hold,
      stepForward_eq_none env tw a _ rfl hold⟩
  | some old =>
    obtain ⟨i1, i2, i3⟩ := rangeLoopWithObserver_sim env ob R hI hA old old a b hab
    refine Or.inr ⟨_, _, stepForwardWithObserver_eq env ob tw b _ old rfl hold,
      stepForward_eq env tw a _ old rfl hold, ?_, i2, i3⟩
    simp only [i1]

/-- A plain Step is the observed Step of an observer that does nothing, but for
the calls of `afterRelease()` in the log. -/
theorem step_idle_observer {α σ : Type} [DecidableEq α] (env : Env α σ)
    (tw : TimingWheel α) (b : σ) :
    (stepForwardWithObserver env
        { beforeStep := id, afterStep := id, afterRelease := id, afterMove := id } tw b = none ∧
      stepForward env tw b = none) ∨
    ∃ r p, stepForwardWithObserver env
        { beforeStep := id, afterStep := id, afterRelease := id, afterMove := id } tw b =
          some r ∧
      stepForward env tw b = some p ∧
      r.tw = p.tw ∧ eraseHooks r.log = p.log ∧ p.world = r.world :=
  step_sim env { beforeStep := id, afterStep := id, afterRelease := id, afterMove := id }
    (fun x y => x = y)
    (fun k x y hxy => by subst hxy; exact ⟨rfl, rfl, rfl⟩)
    (fun x y hxy => hxy) tw b b rfl

/-- When the items respect `R`, plain Steps in related worlds fail together, or
leave the same wheel, make the same calls and leave related worlds. -/
theorem stepForward_respects {α σ : Type} [DecidableEq α] (env : Env α σ)
    (R : σ → σ → Prop) (hI : itemsRespect env R) (tw : TimingWheel α) (a b : σ)
    (hab : R a b) :
    (stepForward env tw a = none ∧ stepForward env tw b = none) ∨
    ∃ p q, stepForward env tw a = some p ∧ stepForward env tw b = some q ∧
      q.tw = p.tw ∧ q.log = p.log ∧ R p.world q.world := by
  rcases step_sim env { beforeStep := id, afterStep := id, afterRelease := id, afterMove := id }
      R hI (fun x y hxy => hxy) tw a b hab with ⟨h1, h2⟩ | ⟨r, p, h1, h2, h3, h4, h5⟩
  · rcases step_idle_observer env tw b with ⟨_, h4⟩ | ⟨r, q, h3, _⟩
    · exact Or.inl ⟨h2, h4⟩
    · rw [h1] at h3
      cases h3
  · rcases step_idle_observer env tw b with ⟨h6, _⟩ | ⟨r1, q, h6, h7, h8, h9, h10⟩
    · rw [h1] at h6
      cases h6
    · rw [h1] at h6
      cases h6
      exact Or.inr ⟨p, q, h2, h7, by rw [← h8, h3], by rw [← h9, h4], by rw [h10]; exact h5⟩

/-- When the items and what the other goroutines do respect `R`, a sequence of
operations, from the same wheel in related worlds, fails in both or leaves the
same wheel and the same logs, in related worlds. -/
theorem run_respects {α σ : Type} [DecidableEq α] (env : Env α σ) (R : σ → σ → Prop)
    (hI : itemsRespect env R) (ops : List (Op α σ)) :
    opsRespect ops R →
    ∀ (tw : TimingWheel α) (logs : List (List (Event α))) (a b : σ), R a b →
      (run env ops { tw := tw, world := a, logs := logs } = none ∧
        run env ops { tw := tw, world := b, logs := logs } = none) ∨
      ∃ t0 t1, run env ops { tw := tw, world := a, logs := logs } = some t0 ∧
        run env ops { tw := tw, world := b, logs := logs } = some t1 ∧
        t1.tw = t0.tw ∧ t1.logs = t0.logs ∧ R t0.world t1.world := by
  induction ops with
  | nil =>
    intro _ tw logs a b hab
    exact Or.inr ⟨_, _, rfl, rfl, rfl, rfl, hab⟩
  | cons op ops ih =>
    intro hO tw logs a b hab
    have hO1 : opsRespect ops R := fun f hf => hO f (List.mem_cons_of_mem _ hf)
    cases op with
    | addItem x =>
      cases hadd : AddItem tw x with
      | none =>
        exact Or.inl ⟨by simp [run, applyOp, hadd], by simp [run, applyOp, hadd]⟩
      | some tw1 =>
        have e0 : run env (Op.addItem x :: ops) { tw := tw, world := a, logs := logs } =
            run env ops { tw := tw1, world := a, logs := logs } := by
          simp [run, applyOp, hadd]
        have e1 : run env (Op.addItem x :: ops) { tw := tw, world := b, logs := logs } =
            run env ops { tw := tw1, world := b, logs := logs } := by
          simp [run, applyOp, hadd]
        rw [e0, e1]
        exact ih hO1 tw1 logs a b hab
    | external f =>
      have e0 : run env (Op.external f :: ops) { tw := tw, world := a, logs := logs } =
          run env ops { tw := tw, world := f a, logs := logs } := by
        simp [run, applyOp]
      have e1 : run env (Op.external f :: ops) { tw := tw, world := b, logs := logs } =
          run env ops { tw := tw, world := f b, logs := logs } := by
        simp [run, applyOp]
      rw [e0, e1]
      exact ih hO1 tw logs (f a) (f b) (hO f (List.mem_cons_self _ _) a b hab)
    | step =>
      rcases stepForward_respects env R hI tw a b hab with ⟨h1, h2⟩ |
        ⟨p, q, h1, h2, h3, h4, h5⟩
      · exact Or.inl ⟨by simp [run, applyOp, h1], by simp [run, applyOp, h2]⟩
      · have e0 : run env (Op.step :: ops) { tw := tw, world := a, logs := logs } =
            run env ops { tw := p.tw, world := p.world, logs := logs ++ [p.log] } := by
          simp [run, applyOp, h1]
        have e1 : run env (Op.step :: ops) { tw := tw, world := b, logs := logs } =
            run env ops { tw := p.tw, world := q.world, logs := logs ++ [p.log] } := by
          simp [run, applyOp, h2, h3, h4]
        rw [e0, e1]
        exact ih hO1 p.tw (logs ++ [p.log]) p.world q.world h5

theorem eraseObserver_append {α : Type} (xs ys : List (RunEvent α)) :
    eraseObserver (xs ++ ys) = eraseObserver xs ++ eraseObserver ys := by
  induction xs with
  | nil => rfl
  | cons e xs ih =>
    cases e <;> simp [eraseObserver, ih]

theorem runLoop_wait {α σ : Type} [DecidableEq α] (env : Env α σ)
    (shouldQuit : Nat → σ → Bool × σ) (i : Nat) (s : RunState α σ)
    (hq : (shouldQuit i s.world).1 = false) :
    runLoop env shouldQuit [] i s =
      Outcome.waiting { s with world := (shouldQuit i s.world).2,
                               trace := s.trace ++ [RunEvent.shouldQuit false] } := by
  simp [runLoop, hq]

theorem runLoop_crash {α σ : Type} [DecidableEq α] (env : Env α σ)
    (shouldQuit : Nat → σ → Bool × σ) (others : List (Op α σ))
    (rest : List (List (Op α σ))) (i : Nat) (s : RunState α σ)
    (hq : (shouldQuit i s.world).1 = false)
    (ht : run env others { tw := s.tw, world := (shouldQuit i s.world).2, logs := [] } = none) :
    runLoop env shouldQuit (others :: rest) i s =
      Outcome.crashed { s with world := (shouldQuit i s.world).2,
                               trace := s.trace ++ [RunEvent.shouldQuit false] } := by
  simp [runLoop, hq, ht]

theorem runLoop_panic {α σ : Type} [DecidableEq α] (env : Env α σ)
    (shouldQuit : Nat → σ → Bool × σ) (others : List (Op α σ))
    (rest : List (List (Op α σ))) (i : Nat) (s : RunState α σ) (t : Sys α σ)
    (hq : (shouldQuit i s.world).1 = false)
    (ht : run env others { tw := s.tw, world := (shouldQuit i s.world).2, logs := [] } = some t)
    (hr : stepForward env t.tw t.world = none) :
    runLoop env shouldQuit (others :: rest) i s =
      Outcome.panicked { tw := t.tw, world := t.world,
                         trace := s.trace ++ [RunEvent.shouldQuit false] ++
                           [RunEvent.tick] } := by
  simp [runLoop, hq, ht, hr]

theorem runLoopWithStepObserver_wait {α σ : Type} [DecidableEq α] (env : Env α σ)
    (shouldQuit : Nat → σ → Bool × σ) (ob : Observer σ) (i : Nat) (s : RunState α σ)
    (hq : (shouldQuit i s.world).1 = false) :
    runLoopWithStepObserver env shouldQuit ob [] i s =
      Outcome.waiting { s with world := (shouldQuit i s.world).2,
                               trace := s.trace ++ [RunEvent.shouldQuit false] } := by
  simp [runLoopWithStepObserver, hq]

theorem runLoopWithStepObserver_crash {α σ : Type} [DecidableEq α] (env : Env α σ)
    (shouldQuit : Nat → σ → Bool × σ) (ob : Observer σ) (others : List (Op α σ))
    (rest : List (List (Op α σ))) (i : Nat) (s : RunState α σ)
    (hq : (shouldQuit i s.world).1 = false)
    (ht : run env others { tw := s.tw, world := (shouldQuit i s.world).2, logs := [] } = none) :
    runLoopWithStepObserver env shouldQuit ob (others :: rest) i s =
      Outcome.crashed { s with world := (shouldQuit i s.world).2,
                               trace := s.trace ++ [RunEvent.shouldQuit false] } := by
  simp [runLoopWithStepObserver, hq, ht]

theorem runLoopWithStepObserver_panic {α σ : Type} [DecidableEq α] (env : Env α σ)
    (shouldQuit : Nat → σ → Bool × σ) (ob : Observer σ) (others : List (Op α σ))
    (rest : List (List (Op α σ))) (i : Nat) (s : RunState α σ) (t : Sys α σ)
    (hq : (shouldQuit i s.world).1 = false)
    (ht : run env others { tw := s.tw, world := (shouldQuit i s.world).2, logs := [] } = some t)
    (hr : stepForwardWithObserver env ob t.tw (ob.beforeStep t.world) = none) :
    runLoopWithStepObserver env shouldQuit ob (others :: rest) i s =
      Outcome.panicked { tw := t.tw, world := ob.beforeStep t.world,
                         trace := s.trace ++ [RunEvent.shouldQuit false] ++
                           [RunEvent.tick, RunEvent.hook Hook.beforeStep] } := by
  simp [runLoopWithStepObserver, hq, ht, hr]

/-- When nothing in the program notices the observer, the loop of
`runWithStepObserver` does what the loop of `Run` does, round for round. -/
theorem runLoop_sim {α σ : Type} [DecidableEq α] (env : Env α σ) (ob : Observer σ)
    (R : σ → σ → Prop) (shouldQuit : Nat → σ → Bool × σ)
    (hI : itemsRespect env R) (hB : unseen R ob.beforeStep) (hS : unseen R ob.afterStep)
    (hA : unseen R ob.afterRelease) (hQ : quitRespects shouldQuit R)
    (ticks : List (List (Op α σ))) :
    (∀ others, others ∈ ticks → opsRespect others R) →
    ∀ (i : Nat) (s0 s1 : RunState α σ), sameState R s0 s1 →
      sameRun R (runLoop env shouldQuit ticks i s0)
        (runLoopWithStepObserver env shouldQuit ob ticks i s1) := by
  induction ticks with
  | nil =>
    intro _ i s0 s1 hs
    obtain ⟨htw, htr, hw⟩ := hs
    obtain ⟨q1, q2⟩ := hQ i _ _ hw
    cases hq : (shouldQuit i s0.world).1 with
    | true =>
      rw [runLoop_quit env shouldQuit [] i s0 hq,
        runLoopWithStepObserver_quit env shouldQuit ob [] i s1 (by rw [← q1]; exact hq)]
      exact ⟨htw, by simp [eraseObserver_append, eraseObserver, htr], q2⟩
    | false =>
      rw [runLoop_wait env shouldQuit i s0 hq,
        runLoopWithStepObserver_wait env shouldQuit ob i s1 (by rw [← q1]; exact hq)]
      exact ⟨htw, by simp [eraseObserver_append, eraseObserver, htr], q2⟩
  | cons others rest ih =>
    intro hO i s0 s1 hs
    obtain ⟨htw, htr, hw⟩ := hs
    obtain ⟨q1, q2⟩ := hQ i _ _ hw
    have hO1 : ∀ o, o ∈ rest → opsRespect o R := fun o ho => hO o (List.mem_cons_of_mem _ ho)
    cases hq : (shouldQuit i s0.world).1 with
    | true =>
      rw [runLoop_quit env shouldQuit _ i s0 hq,
        runLoopWithStepObserver_quit env shouldQuit ob _ i s1 (by rw [← q1]; exact hq)]
      exact ⟨htw, by simp [eraseObserver_append, eraseObserver, htr], q2⟩
    | false =>
      have hq1 : (shouldQuit i s1.world).1 = false := by rw [← q1]; exact hq
      rcases run_respects env R hI others (hO others (List.mem_cons_self _ _)) s0.tw []
          _ _ q2 with ⟨h0, h1⟩ | ⟨t0, t1, h0, h1, htw1, _, hw1⟩
      · rw [runLoop_crash env shouldQuit others rest i s0 hq h0,
          runLoopWithStepObserver_crash env shouldQuit ob others rest i s1 hq1
            (by rw [htw]; exact h1)]
        exact ⟨htw, by simp [eraseObserver_append, eraseObserver, htr], q2⟩
      · have h1a : run env others
            { tw := s1.tw, world := (shouldQuit i s1.world).2, logs := [] } = some t1 := by
          rw [htw]; exact h1
        rcases step_sim env ob R hI hA t0.tw t0.world (ob.beforeStep t1.world)
            (hB _ _ hw1) with ⟨h2, h3⟩ | ⟨r, p, h2, h3, h4, h5, h6⟩
        · rw [runLoop_panic env shouldQuit others rest i s0 t0 hq h0 h3,
            runLoopWithStepObserver_panic env shouldQuit ob others rest i s1 t1 hq1 h1a
              (by rw [htw1]; exact h2)]
          exact ⟨htw1, by simp [eraseObserver_append, eraseObserver, htr], hB _ _ hw1⟩
        · rw [runLoop_step env shouldQuit others rest i s0 t0 p hq h0 h3,
            runLoopWithStepObserver_step env shouldQuit ob others rest i s1 t1 r hq1 h1a
              (by rw [htw1]; exact h2)]
          apply ih hO1
          exact ⟨h4, by simp [eraseObserver_append, eraseObserver, htr, h5], hS _ _ h6⟩

/-- The deferred call keeps an observed run and a plain run the same, when
`deferFunc` respects `R`. -/
theorem deferred_sim {α σ : Type} (R : σ → σ → Prop) (deferFunc : σ → σ)
    (hD : respects R deferFunc) (o0 o1 : Outcome α σ) (h : sameRun R o0 o1) :
    sameRun R (deferred deferFunc o0) (deferred deferFunc o1) := by
  cases o0 <;> cases o1 <;> simp only [sameRun] at h <;> try exact h.elim
  · obtain ⟨h1, h2, h3⟩ := h
    exact ⟨h1, by simp [eraseObserver_append, eraseObserver, h2], hD _ _ h3⟩
  · exact h
  · obtain ⟨h1, h2, h3⟩ := h
    exact ⟨h1, by simp [eraseObserver_append, eraseObserver, h2], hD _ _ h3⟩
  · exact h

/-- When nothing in the program notices the observer, `runWithStepObserver`
does what `Run` does. -/
theorem Run_sim {α σ : Type} [DecidableEq α] (env : Env α σ) (ob : Observer σ)
    (R : σ → σ → Prop) (shouldQuit : Nat → σ → Bool × σ) (deferFunc : σ → σ)
    (ticks : List (List (Op α σ))) (tw : TimingWheel α) (w : σ)
    (hI : itemsRespect env R) (hB : unseen R ob.beforeStep) (hS : unseen R ob.afterStep)
    (hA : unseen R ob.afterRelease) (hQ : quitRespects shouldQuit R)
    (hD : respects R deferFunc) (hO : ∀ others, others ∈ ticks → opsRespect others R)
    (hw : R w w) :
    sameRun R (Run env shouldQuit deferFunc ticks tw w)
      (runWithStepObserver env shouldQuit deferFunc ob ticks tw w) := by
  unfold Run runWithStepObserver
  apply deferred_sim R deferFunc hD
  by_cases hst : tw.stepTime ≤ 0
  · simp only [hst, if_true]
    exact ⟨rfl, rfl, hw⟩
  · simp only [hst, if_false]
    exact runLoop_sim env ob R shouldQuit hI hB hS hA hQ ticks hO 0 _ _ ⟨rfl, rfl, hw⟩

/-- For every observer, the observed Step moves the cursor where the plain
Step moves it, and like it leaves alone the step time, the number of slots and
the slots other than the one at the new cursor. -/
theorem stepForwardWithObserver_frame {α σ : Type} [DecidableEq α] (env : Env α σ)
    (ob : Observer σ) (tw : TimingWheel α) (w : σ) (r : Stepped α σ)
    (h : stepForwardWithObserver env ob tw w = some r) :
    ∃ p, stepForward env tw w = some p ∧ r.tw.curIndex = p.tw.curIndex ∧
      r.tw.stepTime = p.tw.stepTime ∧ r.tw.slots.length = p.tw.slots.length ∧
      (∀ i : Int, i ≠ p.tw.curIndex → slotAt r.tw.slots i = slotAt p.tw.slots i) := by
  cases hold : slotAt tw.slots
      (if tw.curIndex + 1 ≥ (tw.slots.length : Int) then 0 else tw.curIndex + 1) with
  | none =>
    rw [stepForwardWithObserver_eq_none env ob tw w _ rfl hold] at h
    cases h
  | some old =>
    rw [stepForwardWithObserver_eq env ob tw w _ old rfl hold] at h
    cases h
    obtain ⟨h0, _⟩ := slotAt_range _ _ _ hold
    refine ⟨_, stepForward_eq env tw w _ old rfl hold, rfl, rfl, by simp, ?_⟩
    intro i hi
    simp only at hi
    rw [slotAt_set_other _ i _ _ h0 hi, slotAt_set_other _ i _ _ h0 hi]

theorem stepForwardWithObserver_none_iff {α σ : Type} [DecidableEq α] (env : Env α σ)
    (ob : Observer σ) (tw : TimingWheel α) (w : σ) :
    stepForwardWithObserver env ob tw w = none ↔ stepForward env tw w = none := by
  cases hold : slotAt tw.slots
      (if tw.curIndex + 1 ≥ (tw.slots.length : Int) then 0 else tw.curIndex + 1) with
  | none =>
    rw [stepForwardWithObserver_eq_none env ob tw w _ rfl hold,
      stepForward_eq_none env tw w _ rfl hold]
  | some old =>
    rw [stepForwardWithObserver_eq env ob tw w _ old rfl hold,
      stepForward_eq env tw w _ old rfl hold]
    simp

/-! ## The observer: the state an observed run leaves -/

/-- For every observer, the observed scan is the plain scan of items whose
`Release()` is followed by `afterRelease()`: the same map, the same world, and
the same log but for the calls of `afterRelease()`. -/
theorem rangeLoopWithObserver_plain {α σ : Type} [DecidableEq α] (env : Env α σ)
    (ob : Observer σ) (ks : List α) :
    ∀ (m : itemCon α) (w : σ),
      (rangeLoopWithObserver env ob ks m w).slot =
          (rangeLoop (observedEnv env ob) ks m w).slot ∧
      eraseHooks (rangeLoopWithObserver env ob ks m w).log =
          (rangeLoop (observedEnv env ob) ks m w).log ∧
      (rangeLoopWithObserver env ob ks m w).world =
          (rangeLoop (observedEnv env ob) ks m w).world := by
  induction ks with
  | nil =>
    intro m w
    simp [rangeLoopWithObserver, rangeLoop, eraseHooks]
  | cons k ks ih =>
    intro m w
    rcases rangeLoop_cases (observedEnv env ob) k ks m w with ⟨ha, e⟩ | ⟨ha, hr, e⟩ |
      ⟨ha, hr, hs, e⟩ | ⟨ha, hr, hs, e⟩
    · rcases rangeLoopWithObserver_cases env ob k ks m w with
        ⟨_, e1⟩ | ⟨ha1, _⟩ | ⟨ha1, _⟩ | ⟨ha1, _⟩
      · rw [e, e1]
        exact ih m w
      all_goals exact absurd ha1 ha
    · have hr0 : env.isReleaser k = false := hr
      rcases rangeLoopWithObserver_cases env ob k ks m w with
        ⟨ha1, _⟩ | ⟨_, _, e1⟩ | ⟨_, hr1, _⟩ | ⟨_, hr1, _⟩
      · exact absurd ha ha1
      · rw [e, e1]
        obtain ⟨i1, i2, i3⟩ := ih m w
        refine ⟨i1, ?_, i3⟩
        rw [eraseHooks_emit, i2]
        simp [eraseHooks, Event.isHook]
      all_goals (rw [hr0] at hr1; cases hr1)
    · have hr0 : env.isReleaser k = true := hr
      have hs0 : (env.ShouldRelease k w).1 = false := hs
      rcases rangeLoopWithObserver_cases env ob k ks m w with
        ⟨ha1, _⟩ | ⟨_, hr1, _⟩ | ⟨_, _, _, e1⟩ | ⟨_, _, hs1, _⟩
      · exact absurd ha ha1
      · rw [hr0] at hr1; cases hr1
      · rw [e, e1]
        obtain ⟨i1, i2, i3⟩ := ih m (env.ShouldRelease k w).2
        refine ⟨i1, ?_, i3⟩
        rw [eraseHooks_emit]
        simp only [emit_log]
        rw [show (rangeLoop (observedEnv env ob) ks m
            ((observedEnv env ob).ShouldRelease k w).2).log =
            (rangeLoop (observedEnv env ob) ks m (env.ShouldRelease k w).2).log from rfl,
          ← i2]
        simp [eraseHooks, Event.isHook]
      · rw [hs0] at hs1; cases hs1
    · have hr0 : env.isReleaser k = true := hr
      have hs0 : (env.ShouldRelease k w).1 = true := hs
      rcases rangeLoopWithObserver_cases env ob k ks m w with
        ⟨ha1, _⟩ | ⟨_, hr1, _⟩ | ⟨_, _, hs1, _⟩ | ⟨_, _, _, e1⟩
      · exact absurd ha ha1
      · rw [hr0] at hr1; cases hr1
      · rw [hs0] at hs1; cases hs1
      · rw [e, e1]
        obtain ⟨i1, i2, i3⟩ := ih (itemCon.delete m k)
          (ob.afterRelease (env.Release k (env.ShouldRelease k w).2))
        refine ⟨i1, ?_, i3⟩
        rw [eraseHooks_emit]
        simp only [emit_log]
        rw [show (rangeLoop (observedEnv env ob) ks (itemCon.delete m k)
            ((observedEnv env ob).Release k ((observedEnv env ob).ShouldRelease k w).2)).log =
            (rangeLoop (observedEnv env ob) ks (itemCon.delete m k)
              (ob.afterRelease (env.Release k (env.ShouldRelease k w).2))).log from rfl,
          ← i2]
        simp [eraseHooks, Event.isHook]

/-- For every observer, the observed Step is the plain Step of items whose
`Release()` is followed by `afterRelease()`. -/
theorem stepForwardWithObserver_plain {α σ : Type} [DecidableEq α] (env : Env α σ)
    (ob : Observer σ) (tw : TimingWheel α) (w : σ) (r : Stepped α σ)
    (h : stepForwardWithObserver env ob tw w = some r) :
    ∃ q, stepForward (observedEnv env ob) tw w = some q ∧
      r.tw = q.tw ∧ r.world = q.world ∧ eraseHooks r.log = q.log := by
  cases hold : slotAt tw.slots
      (if tw.curIndex + 1 ≥ (tw.slots.length : Int) then 0 else tw.curIndex + 1) with
  | none =>
    rw [stepForwardWithObserver_eq_none env ob tw w _ rfl hold] at h
    cases h
  | some old =>
    rw [stepForwardWithObserver_eq env ob tw w _ old rfl hold] at h
    cases h
    obtain ⟨i1, i2, i3⟩ := rangeLoopWithObserver_plain env ob old old w
    refine ⟨_, stepForward_eq (observedEnv env ob) tw w _ old rfl hold, ?_, i3, i2⟩
    simp only [i1]

/-- Operations other than Steps do not call the items. -/
theorem run_noSteps {α σ : Type} [DecidableEq α] (env env1 : Env α σ)
    (ops : List (Op α σ)) :
    countSteps ops = 0 → ∀ s : Sys α σ, run env ops s = run env1 ops s := by
  induction ops with
  | nil =>
    intro _ s
    rfl
  | cons op ops ih =>
    intro h s
    rw [countSteps_cons] at h
    cases op with
    | step => simp [countSteps] at h
    | addItem x =>
      have e : applyOp env s (Op.addItem x) = applyOp env1 s (Op.addItem x) := rfl
      simp only [run, e]
      cases applyOp env1 s (Op.addItem x) with
      | none => rfl
      | some s1 => exact ih (by omega) s1
    | external f =>
      have e : applyOp env s (Op.external f) = applyOp env1 s (Op.external f) := rfl
      simp only [run, e]
      cases applyOp env1 s (Op.external f) with
      | none => rfl
      | some s1 => exact ih (by omega) s1

/-- The loop of `runWithStepObserver`: if `shouldQuit` answers `false` on the
calls `i`, ..., `i + k - 1` and `true` on the call `i + k`, and `k` ticks come,
the loop makes `k` rounds and is left, with `beforeStep()` before and
`afterStep()` after each Step.  When the other goroutines make no Steps, the
state it leaves is that of the run of `observedRoundsOps` on items whose
`Release()` is followed by `afterRelease()`. -/
theorem runLoopWithStepObserver_rounds {α σ : Type} [DecidableEq α] (env : Env α σ)
    (shouldQuit : Nat → σ → Bool × σ) (ob : Observer σ) (k : Nat) :
    ∀ (ticks : List (List (Op α σ))) (i : Nat) (s : RunState α σ), inRange s.tw →
      (∀ j, i ≤ j → j < i + k → ∀ w, (shouldQuit j w).1 = false) →
      (∀ w, (shouldQuit (i + k) w).1 = true) → k ≤ ticks.length →
      ∃ s1 logs, runLoopWithStepObserver env shouldQuit ob ticks i s = Outcome.returned s1 ∧
        logs.length = k ∧
        s1.trace = s.trace ++ observedRoundsTrace logs ++ [RunEvent.shouldQuit true] ∧
        (∀ log, log ∈ logs → hookCount Hook.afterRelease log = releaseTotal log ∧
          ∀ h, h ≠ Hook.afterRelease → hookCount h log = 0) ∧
        ((∀ others, others ∈ ticks.take k → countSteps others = 0) →
          ∃ t, run (observedEnv env ob) (observedRoundsOps shouldQuit ob ticks i k)
              { tw := s.tw, world := s.world, logs := [] } = some t ∧
            logs.map eraseHooks = t.logs ∧
            s1.tw = t.tw ∧ s1.world = (shouldQuit (i + k) t.world).2) := by
  induction k with
  | zero =>
    intro ticks i s _ _ htrue _
    refine ⟨_, [], runLoopWithStepObserver_quit env shouldQuit ob ticks i s (htrue s.world),
      rfl, ?_, by simp, ?_⟩
    · simp [observedRoundsTrace]
    · intro _
      refine ⟨{ tw := s.tw, world := s.world, logs := [] }, ?_, rfl, rfl, rfl⟩
      cases ticks <;> rfl
  | succ k ih =>
    intro ticks i s hr hfalse htrue hlen
    cases ticks with
    | nil => simp at hlen
    | cons others rest =>
      have hq : (shouldQuit i s.world).1 = false := hfalse i (le_refl _) (by omega) s.world
      obtain ⟨t0, ht0, hrt0, _, _, _⟩ :=
        run_ok env others { tw := s.tw, world := (shouldQuit i s.world).2, logs := [] } hr
      obtain ⟨r, hstep, hrr, _, _⟩ :=
        stepForwardWithObserver_inRange env ob t0.tw (ob.beforeStep t0.world) hrt0
      obtain ⟨s1, logs, h1, hl1, htrace, hhooks, hstate⟩ :=
        ih rest (i + 1)
          { tw := r.tw, world := ob.afterStep r.world,
            trace := s.trace ++ [RunEvent.shouldQuit false] ++
              [RunEvent.tick, RunEvent.hook Hook.beforeStep, RunEvent.step r.log,
               RunEvent.hook Hook.afterStep] } hrr
          (fun j h1 h2 w => hfalse j (by omega) (by omega) w)
          (by
            have : i + 1 + k = i + (k + 1) := by omega
            rw [this]
            exact htrue)
          (by simpa using hlen)
      refine ⟨s1, r.log :: logs, ?_, by simp [hl1], ?_, ?_, ?_⟩
      · rw [runLoopWithStepObserver_step env shouldQuit ob others rest i s t0 r hq ht0 hstep]
        exact h1
      · rw [htrace, observedRoundsTrace_cons]
        simp
      · intro log hlog
        rcases List.mem_cons.mp hlog with h | h
        · rw [h]
          exact stepForwardWithObserver_hooks env ob t0.tw (ob.beforeStep t0.world) r hstep
        · exact hhooks log h
      · intro hns
        have hns0 : countSteps others = 0 :=
          hns others (by simp [List.take_succ_cons])
        obtain ⟨t1, hrun1, hlogs1, htw1, hworld1⟩ :=
          hstate (fun o ho => hns o (by
            simp only [List.take_succ_cons]
            exact List.mem_cons_of_mem _ ho))
        obtain ⟨new0, hlog0, hlen0, _⟩ := run_logs env others _ t0 ht0
        have hnil : t0.logs = [] := by
          rw [hns0] at hlen0
          rw [hlog0, List.length_eq_zero.mp hlen0]
          rfl
        obtain ⟨new1, hlog1, _, hfrom1⟩ := run_logs (observedEnv env ob) _ _ t1 hrun1
        simp only [List.nil_append] at hlog1
        obtain ⟨q, hq1, hq2, hq3, hq4⟩ :=
          stepForwardWithObserver_plain env ob t0.tw (ob.beforeStep t0.world) r hstep
        have ht0a : run (observedEnv env ob) others
            { tw := s.tw, world := (shouldQuit i s.world).2, logs := [] } = some t0 := by
          rw [← run_noSteps env (observedEnv env ob) others hns0]
          exact ht0
        have hrun : run (observedEnv env ob)
            (observedRoundsOps shouldQuit ob (others :: rest) i (k + 1))
            { tw := s.tw, world := s.world, logs := [] } =
            some { t1 with logs := [q.log] ++ new1 } := by
          have h3 := hfrom1 [q.log]
          simp only [observedRoundsOps, run, applyOp]
          rw [run_append, ht0a]
          simp only [Option.some_bind, run, applyOp, hq1, hnil, List.nil_append]
          rw [← hq2, ← hq3]
          exact h3
        refine ⟨{ t1 with logs := [q.log] ++ new1 }, hrun, ?_, htw1, ?_⟩
        · simp only [List.map_cons, hq4, hlogs1, hlog1]
          rfl
        · rw [hworld1]
          have : i + 1 + k = i + (k + 1) := by omega
          rw [this]

/-- C17, as stated, fails: the items of `flagEnv` are due while a flag is 0,
and the `afterRelease()` of `flagObserver` raises the flag.  On the slot
`[2, 4]` the plain Step releases both items; the observed Step releases 2,
calls `afterRelease()`, and keeps 4. -/
theorem C17_counterexample :
    stepForward flagEnv
      ({ stepTime := 1, slots := [[], [2, 4]], curIndex := 0 } : TimingWheel Nat) 0 =
      some { tw := { stepTime := 1, slots := [[], []], curIndex := 1 }, world := 0,
             log := [Event.visit 2, Event.shouldRelease 2 true, Event.release 2,
               Event.visit 4, Event.shouldRelease 4 true, Event.release 4] } ∧
    stepForwardWithObserver flagEnv flagObserver
      ({ stepTime := 1, slots := [[], [2, 4]], curIndex := 0 } : TimingWheel Nat) 0 =
      some { tw := { stepTime := 1, slots := [[], [4]], curIndex := 1 }, world := 1,
             log := [Event.visit 2, Event.shouldRelease 2 true, Event.release 2,
               Event.hook Hook.afterRelease, Event.visit 4, Event.shouldRelease 4 false] } ∧
    (stepForwardWithObserver flagEnv flagObserver
      ({ stepTime := 1, slots := [[], [2, 4]], curIndex := 0 } : TimingWheel Nat) 0).map
        (fun r => r.tw) ≠
      (stepForward flagEnv
        ({ stepTime := 1, slots := [[], [2, 4]], curIndex := 0 } : TimingWheel Nat) 0).map
        (fun r => r.tw) := by
  have h1 : stepForward flagEnv
      ({ stepTime := 1, slots := [[], [2, 4]], curIndex := 0 } : TimingWheel Nat) 0 =
      some { tw := { stepTime := 1, slots := [[], []], curIndex := 1 }, world := 0,
             log := [Event.visit 2, Event.shouldRelease 2 true, Event.release 2,
               Event.visit 4, Event.shouldRelease 4 true, Event.release 4] } := by rfl
  have h2 : stepForwardWithObserver flagEnv flagObserver
      ({ stepTime := 1, slots := [[], [2, 4]], curIndex := 0 } : TimingWheel Nat) 0 =
      some { tw := { stepTime := 1, slots := [[], [4]], curIndex := 1 }, world := 1,
             log := [Event.visit 2, Event.shouldRelease 2 true, Event.release 2,
               Event.hook Hook.afterRelease, Event.visit 4, Event.shouldRelease 4 false] } := by
    rfl
  refine ⟨h1, h2, ?_⟩
  rw [h1, h2]
  decide

/-- C17, amended.  For every wheel and every observer:
`stepForwardWithObserver` fails exactly when `stepForward` does; when it
returns it has called `afterRelease()` exactly once per `Release()` and no
other observer method, it has moved the cursor where `stepForward` moves it and
left the step time, the number of slots and the slots other than the one at the
new cursor as `stepForward` leaves them, and the wheel, the world and the calls
to the items are those of `stepForward` on items whose `Release()` is followed
by `afterRelease()`.  When the items do not notice `afterRelease()` (a relation
`R` between worlds holds at the start, `R` does not see `afterRelease()`, and
the items respect `R`), it also leaves the wheel `stepForward` leaves and makes
the same calls to the items, so releases the same items, and the worlds are
related.  For every observer, under the `shouldQuit` answers and ticks under
which `Run` makes `k` Steps and returns, `runWithStepObserver` makes `k` Steps
and returns, with `beforeStep()` once before and `afterStep()` once after each
Step, and `deferFunc()` last; when the other goroutines make no Steps, the
Steps and the state it leaves are those of the sequence `observedRoundsOps` (in
each round: `shouldQuit()`, what the other goroutines do, `beforeStep()`, one
Step, `afterStep()`), followed by `shouldQuit()` and `deferFunc()`.  And when
nothing in the program notices the observer (`R` does not see its methods; the
items, `shouldQuit`, `deferFunc` and the other goroutines respect `R`),
`runWithStepObserver` ends as `Run` ends, with the same wheel and, but for the
observer calls, the same trace: the same Steps making the same calls. -/
theorem C17_observer_refines_when_unnoticed {α σ : Type} [DecidableEq α] (env : Env α σ)
    (ob : Observer σ) (tw : TimingWheel α) (w : σ) :
    ((stepForwardWithObserver env ob tw w = none ↔ stepForward env tw w = none) ∧
      ∀ r, stepForwardWithObserver env ob tw w = some r →
        hookCount Hook.afterRelease r.log = releaseTotal r.log ∧
        (∀ h, h ≠ Hook.afterRelease → hookCount h r.log = 0) ∧
        ∃ p, stepForward env tw w = some p ∧ r.tw.curIndex = p.tw.curIndex ∧
          r.tw.stepTime = p.tw.stepTime ∧ r.tw.slots.length = p.tw.slots.length ∧
          (∀ i : Int, i ≠ p.tw.curIndex → slotAt r.tw.slots i = slotAt p.tw.slots i) ∧
          ∃ q, stepForward (observedEnv env ob) tw w = some q ∧
            r.tw = q.tw ∧ r.world = q.world ∧ eraseHooks r.log = q.log) ∧
    (∀ R : σ → σ → Prop, itemsRespect env R → unseen R ob.afterRelease → R w w →
      ((stepForwardWithObserver env ob tw w = none ∧ stepForward env tw w = none) ∨
        ∃ r p, stepForwardWithObserver env ob tw w = some r ∧
          stepForward env tw w = some p ∧
          r.tw = p.tw ∧ eraseHooks r.log = p.log ∧
          (∀ k, releaseCount k r.log = releaseCount k p.log) ∧
          hookCount Hook.afterRelease r.log = releaseTotal p.log ∧
          R p.world r.world)) ∧
    (∀ (shouldQuit : Nat → σ → Bool × σ) (deferFunc : σ → σ)
      (ticks : List (List (Op α σ))) (k : Nat),
      inRange tw → 0 < tw.stepTime →
      (∀ i, i < k → ∀ w1, (shouldQuit i w1).1 = false) →
      (∀ w1, (shouldQuit k w1).1 = true) → k ≤ ticks.length →
      ∃ s1 logs,
        runWithStepObserver env shouldQuit deferFunc ob ticks tw w = Outcome.returned s1 ∧
        logs.length = k ∧
        s1.trace =
          observedRoundsTrace logs ++ [RunEvent.shouldQuit true, RunEvent.deferFunc] ∧
        (∀ log, log ∈ logs → hookCount Hook.afterRelease log = releaseTotal log ∧
          ∀ h, h ≠ Hook.afterRelease → hookCount h log = 0) ∧
        ((∀ others, others ∈ ticks.take k → countSteps others = 0) →
          ∃ t, run (observedEnv env ob) (observedRoundsOps shouldQuit ob ticks 0 k)
              { tw := tw, world := w, logs := [] } = some t ∧
            logs.map eraseHooks = t.logs ∧
            s1.tw = t.tw ∧ s1.world = deferFunc (shouldQuit k t.world).2)) ∧
    (∀ (R : σ → σ → Prop) (shouldQuit : Nat → σ → Bool × σ) (deferFunc : σ → σ)
      (ticks : List (List (Op α σ))),
      itemsRespect env R → unseen R ob.beforeStep → unseen R ob.afterStep →
      unseen R ob.afterRelease → quitRespects shouldQuit R → respects R deferFunc →
      (∀ others, others ∈ ticks → opsRespect others R) → R w w →
      sameRun R (Run env shouldQuit deferFunc ticks tw w)
        (runWithStepObserver env shouldQuit deferFunc ob ticks tw w)) := by
  refine ⟨⟨stepForwardWithObserver_none_iff env ob tw w, ?_⟩, ?_, ?_, ?_⟩
  · intro r hr
    obtain ⟨h1, h2⟩ := stepForwardWithObserver_hooks env ob tw w r hr
    obtain ⟨p, h3, h4, h5, h6, h7⟩ := stepForwardWithObserver_frame env ob tw w r hr
    exact ⟨h1, h2, p, h3, h4, h5, h6, h7, stepForwardWithObserver_plain env ob tw w r hr⟩
  · intro R hI hA hw
    rcases step_sim env ob R hI hA tw w w hw with h | ⟨r, p, hr, hp, htw, hlog, hworld⟩
    · exact Or.inl h
    · refine Or.inr ⟨r, p, hr, hp, htw, hlog, ?_, ?_, hworld⟩
      · intro k
        rw [← hlog, releaseCount_eraseHooks]
      · rw [(stepForwardWithObserver_hooks env ob tw w r hr).1, ← hlog,
          releaseTotal_eraseHooks]
  · intro shouldQuit deferFunc ticks k hr hstep hfalse htrue hticks
    obtain ⟨s1, logs, h1, hl1, ht1, hh1, hst1⟩ :=
      runLoopWithStepObserver_rounds env shouldQuit ob k ticks 0
        { tw := tw, world := w, trace := [] } hr
        (fun j _ h2 w1 => hfalse j (by omega) w1) (by simpa using htrue) hticks
    have hns : ¬ (tw.stepTime ≤ 0) := by omega
    refine ⟨{ s1 with world := deferFunc s1.world,
                      trace := s1.trace ++ [RunEvent.deferFunc] }, logs, ?_, hl1, ?_, hh1,
      ?_⟩
    · unfold runWithStepObserver
      simp only [hns, if_false, h1, deferred]
    · simp only [ht1]
      simp
    · intro hno
      obtain ⟨t, hrun, hlogs, htw, hworld⟩ := hst1 hno
      refine ⟨t, hrun, hlogs, htw, ?_⟩
      show deferFunc s1.world = deferFunc (shouldQuit k t.world).2
      rw [hworld]
      simp
  · intro R shouldQuit deferFunc ticks hI hB hS hA hQ hD hO hw
    exact Run_sim env ob R shouldQuit deferFunc ticks tw w hI hB hS hA hQ hD hO hw

/-- C17, amended, on a wheel of three slots with the clock at 3 and an observer
that counts the calls of its methods and leaves the clock alone.  The items,
`shouldQuit` and `deferFunc` read and change the clock only.  The observed Step
and the plain Step both leave slot 1 as `[3, 40]`, and `afterRelease()` is
called twice, once for 2 and once for 6.  One round of `Run` and of
`runWithStepObserver`, an item being added while they wait for the tick, leave
the same wheel and the clock at 126; the observer has counted 4 calls. -/
theorem C17_witness :
    itemsRespect pairEnv (fun a b : Nat × Nat => a.1 = b.1) ∧
    unseen (fun a b : Nat × Nat => a.1 = b.1) countingObserver.beforeStep ∧
    unseen (fun a b : Nat × Nat => a.1 = b.1) countingObserver.afterStep ∧
    unseen (fun a b : Nat × Nat => a.1 = b.1) countingObserver.afterRelease ∧
    quitRespects (quitAfter 1) (fun a b : Nat × Nat => a.1 = b.1) ∧
    respects (fun a b : Nat × Nat => a.1 = b.1) (fun w => (w.1 + 100, w.2)) ∧
    (∀ others, others ∈ ([[Op.addItem 8]] : List (List (Op Nat (Nat × Nat)))) →
      opsRespect others (fun a b : Nat × Nat => a.1 = b.1)) ∧
    (∃ r p,
      stepForwardWithObserver pairEnv countingObserver
        { stepTime := 2, slots := [[1], [2, 3, 40, 6], [5]], curIndex := 0 } (3, 0) = some r ∧
      stepForward pairEnv
        { stepTime := 2, slots := [[1], [2, 3, 40, 6], [5]], curIndex := 0 } (3, 0) = some p ∧
      r.tw = p.tw ∧ eraseHooks r.log = p.log ∧
      hookCount Hook.afterRelease r.log = releaseTotal p.log ∧
      p.tw = { stepTime := 2, slots := [[1], [3, 40], [5]], curIndex := 1 } ∧
      releaseTotal p.log = 2 ∧ p.world = (26, 0) ∧ r.world.1 = 26) ∧
    (∃ s0 s1,
      Run pairEnv (quitAfter 1) (fun w => (w.1 + 100, w.2)) [[Op.addItem 8]]
        { stepTime := 2, slots := [[1], [2, 3, 40, 6], [5]], curIndex := 0 } (3, 0) =
        Outcome.returned s0 ∧
      runWithStepObserver pairEnv (quitAfter 1) (fun w => (w.1 + 100, w.2)) countingObserver
        [[Op.addItem 8]]
        { stepTime := 2, slots := [[1], [2, 3, 40, 6], [5]], curIndex := 0 } (3, 0) =
        Outcome.returned s1 ∧
      s1.tw = s0.tw ∧ eraseObserver s1.trace = s0.trace ∧ s0.world.1 = s1.world.1 ∧
      s0.tw = { stepTime := 2, slots := [[1, 8], [3, 40], [5]], curIndex := 1 } ∧
      s0.world = (126, 0) ∧ s1.world = (126, 4)) := by
  have hI : itemsRespect pairEnv (fun a b : Nat × Nat => a.1 = b.1) := by
    intro k a b hab
    have h : a.1 = b.1 := hab
    simp only [pairEnv, h, and_self]
  have hB : unseen (fun a b : Nat × Nat => a.1 = b.1) countingObserver.beforeStep :=
    fun a b hab => hab
  have hS : unseen (fun a b : Nat × Nat => a.1 = b.1) countingObserver.afterStep :=
    fun a b hab => hab
  have hA : unseen (fun a b : Nat × Nat => a.1 = b.1) countingObserver.afterRelease :=
    fun a b hab => hab
  have hQ : quitRespects (quitAfter 1) (fun a b : Nat × Nat => a.1 = b.1) :=
    fun i a b hab => ⟨rfl, hab⟩
  have hD : respects (fun a b : Nat × Nat => a.1 = b.1) (fun w => (w.1 + 100, w.2)) := by
    intro a b hab
    have h : a.1 = b.1 := hab
    simp only [h]
  have hO : ∀ others, others ∈ ([[Op.addItem 8]] : List (List (Op Nat (Nat × Nat)))) →
      opsRespect others (fun a b : Nat × Nat => a.1 = b.1) := by
    intro others ho f hf
    rw [List.mem_singleton.mp ho] at hf
    cases List.mem_singleton.mp hf
  have hthm := C17_observer_refines_when_unnoticed pairEnv countingObserver
      ({ stepTime := 2, slots := [[1], [2, 3, 40, 6], [5]], curIndex := 0 } : TimingWheel Nat)
      (3, 0)
  refine ⟨hI, hB, hS, hA, hQ, hD, hO, ?_, ?_⟩
  · have hp : stepForward pairEnv
        ({ stepTime := 2, slots := [[1], [2, 3, 40, 6], [5]], curIndex := 0 } :
          TimingWheel Nat) (3, 0) =
        some { tw := { stepTime := 2, slots := [[1], [3, 40], [5]], curIndex := 1 },
               world := (26, 0),
               log := [Event.visit 2, Event.shouldRelease 2 true, Event.release 2,
                 Event.visit 3, Event.visit 40, Event.shouldRelease 40 false,
                 Event.visit 6, Event.shouldRelease 6 true, Event.release 6] } := by
      rfl
    rcases hthm.2.1 (fun a b : Nat × Nat => a.1 = b.1) hI hA rfl with ⟨_, h⟩ |
      ⟨r, p, h1, h2, h3, h4, _, h6, h7⟩
    · rw [hp] at h
      cases h
    · have hp2 := h2
      rw [hp] at hp2
      cases hp2
      exact ⟨r, _, h1, h2, h3, h4, h6, rfl, rfl, rfl, h7.symm⟩
  · have h0 : Run pairEnv (quitAfter 1) (fun w => (w.1 + 100, w.2)) [[Op.addItem 8]]
        ({ stepTime := 2, slots := [[1], [2, 3, 40, 6], [5]], curIndex := 0 } :
          TimingWheel Nat) (3, 0) =
        Outcome.returned
          { tw := { stepTime := 2, slots := [[1, 8], [3, 40], [5]], curIndex := 1 },
            world := (126, 0),
            trace := [RunEvent.shouldQuit false, RunEvent.tick,
              RunEvent.step [Event.visit 2, Event.shouldRelease 2 true, Event.release 2,
                Event.visit 3, Event.visit 40, Event.shouldRelease 40 false,
                Event.visit 6, Event.shouldRelease 6 true, Event.release 6],
              RunEvent.shouldQuit true, RunEvent.deferFunc] } := by rfl
    have h1 : runWithStepObserver pairEnv (quitAfter 1) (fun w => (w.1 + 100, w.2))
        countingObserver [[Op.addItem 8]]
        ({ stepTime := 2, slots := [[1], [2, 3, 40, 6], [5]], curIndex := 0 } :
          TimingWheel Nat) (3, 0) =
        Outcome.returned
          { tw := { stepTime := 2, slots := [[1, 8], [3, 40], [5]], curIndex := 1 },
            world := (126, 4),
            trace := [RunEvent.shouldQuit false, RunEvent.tick,
              RunEvent.hook Hook.beforeStep,
              RunEvent.step [Event.visit 2, Event.shouldRelease 2 true, Event.release 2,
                Event.hook Hook.afterRelease, Event.visit 3, Event.visit 40,
                Event.shouldRelease 40 false, Event.visit 6, Event.shouldRelease 6 true,
                Event.release 6, Event.hook Hook.afterRelease],
              RunEvent.hook Hook.afterStep, RunEvent.shouldQuit true,
              RunEvent.deferFunc] } := by rfl
    have hsame := hthm.2.2.2 (fun a b : Nat × Nat => a.1 = b.1) (quitAfter 1)
      (fun w => (w.1 + 100, w.2)) [[Op.addItem 8]] hI hB hS hA hQ hD hO rfl
    rw [h0, h1] at hsame
    obtain ⟨e1, e2, e3⟩ := hsame
    exact ⟨_, _, h0, h1, e1, e2, e3, rfl, rfl, rfl⟩

/-- C19, on the code: `afterMove()` is never called.  The log of every
`stepForwardWithObserver` holds no call of `afterMove()`.  On a wheel of three
slots with the clock at 3 and a counting observer, the observed Step moves the
cursor to slot 1 and releases 2 and 6; its only observer calls are the two
`afterRelease()`, and the counter ends at 2.  One round of
`runWithStepObserver` on the same wheel calls `beforeStep()` and `afterStep()`
around the Step, and the counter ends at 4. -/
theorem C19_afterMove_is_never_called :
    (∀ (α σ : Type) [DecidableEq α] (env : Env α σ) (ob : Observer σ) (tw : TimingWheel α)
      (w : σ),
      ((stepForwardWithObserver env ob tw w).map
        (fun r => hookCount Hook.afterMove r.log)).getD 0 = 0) ∧
    stepForwardWithObserver pairEnv countingObserver
      ({ stepTime := 2, slots := [[1], [2, 3, 40, 6], [5]], curIndex := 0 } : TimingWheel Nat)
      (3, 0) =
      some { tw := { stepTime := 2, slots := [[1], [3, 40], [5]], curIndex := 1 },
             world := (26, 2),
             log := [Event.visit 2, Event.shouldRelease 2 true, Event.release 2,
               Event.hook Hook.afterRelease, Event.visit 3, Event.visit 40,
               Event.shouldRelease 40 false, Event.visit 6, Event.shouldRelease 6 true,
               Event.release 6, Event.hook Hook.afterRelease] } ∧
    runWithStepObserver pairEnv (quitAfter 1) (fun w => w) countingObserver [[]]
      ({ stepTime := 2, slots := [[1], [2, 3, 40, 6], [5]], curIndex := 0 } : TimingWheel Nat)
      (3, 0) =
      Outcome.returned
        { tw := { stepTime := 2, slots := [[1], [3, 40], [5]], curIndex := 1 },
          world := (26, 4),
          trace := [RunEvent.shouldQuit false, RunEvent.tick,
            RunEvent.hook Hook.beforeStep,
            RunEvent.step [Event.visit 2, Event.shouldRelease 2 true, Event.release 2,
              Event.hook Hook.afterRelease, Event.visit 3, Event.visit 40,
              Event.shouldRelease 40 false, Event.visit 6, Event.shouldRelease 6 true,
              Event.release 6, Event.hook Hook.afterRelease],
            RunEvent.hook Hook.afterStep, RunEvent.shouldQuit true, RunEvent.deferFunc] } := by
  refine ⟨?_, by rfl, by rfl⟩
  intro α σ _ env ob tw w
  cases h : stepForwardWithObserver env ob tw w with
  | none => rfl
  | some r =>
    simp only [Option.map_some', Option.getD_some]
    exact (stepForwardWithObserver_hooks env ob tw w r h).2 Hook.afterMove (by decide)

/-! ## Items of any Go type: the claims on AddItem -/

/-- On comparable items `AddItemAny` is `AddItem`. -/
theorem AddItemAny_comparable {α : Type} [DecidableEq α] (tw : TimingWheel (AnyItem α))
    (k : α) : AddItemAny tw (AnyItem.comparable k) = AddItem tw (AnyItem.comparable k) := by
  unfold AddItemAny AddItem
  cases slotAt tw.slots tw.curIndex <;> rfl

/-- An item that Go cannot hash makes `AddItem` panic, on every wheel. -/
theorem AddItemAny_unhashable {α : Type} [DecidableEq α] (tw : TimingWheel (AnyItem α))
    (item : AnyItem α) (h : item.hashable = false) : AddItemAny tw item = none := by
  unfold AddItemAny
  cases item with
  | unhashable k => cases slotAt tw.slots tw.curIndex <;> rfl
  | comparable k => cases h
  | notSelfEqual k => cases h

theorem AddItemAny_eq_none {α : Type} [DecidableEq α] (tw : TimingWheel (AnyItem α))
    (item : AnyItem α) (h : slotAt tw.slots tw.curIndex = none) :
    AddItemAny tw item = none := by
  unfold AddItemAny
  rw [h]

/-- An item that is not equal to itself gets a new entry in the current
slot. -/
theorem AddItemAny_notSelfEqual {α : Type} [DecidableEq α] (tw : TimingWheel (AnyItem α))
    (k : α) (m : itemCon (AnyItem α)) (h : slotAt tw.slots tw.curIndex = some m) :
    AddItemAny tw (AnyItem.notSelfEqual k) =
      some { tw with slots := tw.slots.set tw.curIndex.toNat (m ++ [AnyItem.notSelfEqual k]) } := by
  unfold AddItemAny
  rw [h]

/-- With its cursor in range, the wheel takes every item that Go can hash, and
keeps its cursor, its number of slots and its step time. -/
theorem AddItemAny_ok {α : Type} [DecidableEq α] (tw : TimingWheel (AnyItem α))
    (item : AnyItem α) (hr : inRange tw) (hh : item.hashable = true) :
    ∃ tw1, AddItemAny tw item = some tw1 ∧ tw1.curIndex = tw.curIndex ∧
      tw1.slots.length = tw.slots.length ∧ tw1.stepTime = tw.stepTime := by
  obtain ⟨m, hm⟩ := slotAt_eq_some tw.slots tw.curIndex hr.1 hr.2
  cases item with
  | unhashable k => cases hh
  | comparable k =>
    rw [AddItemAny_comparable, AddItem_eq tw _ m hm]
    exact ⟨_, rfl, rfl, by simp, rfl⟩
  | notSelfEqual k =>
    rw [AddItemAny_notSelfEqual tw k m hm]
    exact ⟨_, rfl, rfl, by simp, rfl⟩

/-- With its cursor in range, a wheel that holds keys of any type makes its
Step, and keeps its cursor in range, its number of slots and its step time. -/
theorem stepForwardAny_ok {α σ : Type} [DecidableEq α] (env : Env (AnyItem α) σ)
    (tw : TimingWheel (AnyItem α)) (w : σ) (hr : inRange tw) :
    ∃ r, stepForwardAny env tw w = some r ∧ inRange r.tw ∧
      r.tw.slots.length = tw.slots.length ∧ r.tw.stepTime = tw.stepTime := by
  obtain ⟨h0, hlt⟩ := hr
  obtain ⟨hi0, hilt⟩ := nextIndex_range tw.curIndex tw.slots.length h0 hlt
  obtain ⟨old, hold⟩ := slotAt_eq_some tw.slots _ hi0 hilt
  have hstep : stepForwardAny env tw w =
      some { tw := { tw with
               curIndex := (if tw.curIndex + 1 ≥ (tw.slots.length : Int) then 0
                 else tw.curIndex + 1),
               slots := tw.slots.set
                 (if tw.curIndex + 1 ≥ (tw.slots.length : Int) then 0
                   else tw.curIndex + 1).toNat (rangeLoopAny env old old w).slot },
             world := (rangeLoopAny env old old w).world,
             log := (rangeLoopAny env old old w).log } := by
    unfold stepForwardAny
    simp only [hold]
  refine ⟨_, hstep, ?_, by simp, rfl⟩
  unfold inRange
  simp only [List.length_set]
  exact ⟨hi0, hilt⟩

/-- Every operation returns on a wheel whose cursor is in range, unless it adds
an item that Go cannot hash. -/
theorem applyOpAny_ok {α σ : Type} [DecidableEq α] (env : Env (AnyItem α) σ)
    (s : Sys (AnyItem α) σ) (op : Op (AnyItem α) σ) (hr : inRange s.tw)
    (hh : ∀ x ∈ addedItems [op], x.hashable = true) :
    ∃ s1, applyOpAny env s op = some s1 ∧ inRange s1.tw ∧
      s1.tw.slots.length = s.tw.slots.length ∧ s1.tw.stepTime = s.tw.stepTime := by
  cases op with
  | addItem item =>
    obtain ⟨tw1, hadd, hc, hl, ht⟩ :=
      AddItemAny_ok s.tw item hr (hh item (by simp [addedItems]))
    have happ : applyOpAny env s (Op.addItem item) = some { s with tw := tw1 } := by
      simp only [applyOpAny, hadd]
    refine ⟨_, happ, ?_, hl, ht⟩
    unfold inRange
    show 0 ≤ tw1.curIndex ∧ tw1.curIndex < (tw1.slots.length : Int)
    rw [hc, hl]
    exact hr
  | step =>
    obtain ⟨r, hstep, hr1, hl, ht⟩ := stepForwardAny_ok env s.tw s.world hr
    have happ : applyOpAny env s Op.step =
        some { tw := r.tw, world := r.world, logs := s.logs ++ [r.log] } := by
      simp only [applyOpAny, hstep]
    exact ⟨_, happ, hr1, hl, ht⟩
  | external f =>
    exact ⟨{ s with world := f s.world }, rfl, hr, rfl, rfl⟩

theorem addedItems_cons {α σ : Type} (op : Op α σ) (ops : List (Op α σ)) :
    addedItems (op :: ops) = addedItems [op] ++ addedItems ops := by
  cases op <;> simp [addedItems]

/-- Every sequence of operations that adds only items Go can hash returns on a
wheel whose cursor is in range. -/
theorem runAny_ok {α σ : Type} [DecidableEq α] (env : Env (AnyItem α) σ)
    (ops : List (Op (AnyItem α) σ)) (s : Sys (AnyItem α) σ) (hr : inRange s.tw)
    (hh : ∀ x ∈ addedItems ops, x.hashable = true) :
    ∃ s1, runAny env ops s = some s1 ∧ inRange s1.tw ∧
      s1.tw.slots.length = s.tw.slots.length ∧ s1.tw.stepTime = s.tw.stepTime := by
  induction ops generalizing s with
  | nil => exact ⟨s, rfl, hr, rfl, rfl⟩
  | cons op ops ih =>
    rw [addedItems_cons] at hh
    obtain ⟨s1, h1, hr1, hl1, ht1⟩ :=
      applyOpAny_ok env s op hr (fun x hx => hh x (List.mem_append_left _ hx))
    obtain ⟨s2, h2, hr2, hl2, ht2⟩ :=
      ih s1 hr1 (fun x hx => hh x (List.mem_append_right _ hx))
    exact ⟨s2, by simp only [runAny, h1, h2], hr2, by rw [hl2, hl1], by rw [ht2, ht1]⟩

/-- C4, refuted for items of every type: on a wheel with its cursor in range,
`AddItem` of an item that Go cannot hash panics and adds nothing; and `AddItem`
of an item that is not equal to itself, already in the current slot, adds it
again, so the size of the slot grows from 1 to 2. -/
theorem C4_counterexample :
    inRange ({ stepTime := 2, slots := [[], []], curIndex := 0 } : TimingWheel (AnyItem Nat)) ∧
    AddItemAny ({ stepTime := 2, slots := [[], []], curIndex := 0 } : TimingWheel (AnyItem Nat))
      (AnyItem.unhashable 1) = none ∧
    AnyItem.notSelfEqual 0 ∈ ([AnyItem.notSelfEqual 0] : itemCon (AnyItem Nat)) ∧
    AddItemAny ({ stepTime := 2, slots := [[AnyItem.notSelfEqual 0], []], curIndex := 0 } :
        TimingWheel (AnyItem Nat)) (AnyItem.notSelfEqual 0) =
      some { stepTime := 2, slots := [[AnyItem.notSelfEqual 0, AnyItem.notSelfEqual 0], []],
             curIndex := 0 } ∧
    ([AnyItem.notSelfEqual 0, AnyItem.notSelfEqual 0] : itemCon (AnyItem Nat)).length =
      ([AnyItem.notSelfEqual 0] : itemCon (AnyItem Nat)).length + 1 := by
  refine ⟨by decide, by rfl, by decide, by rfl, by rfl⟩

/-- C4, amended: on a wheel whose `curIndex` is in range, `AddItem(item)` panics
for an item that Go cannot hash; for every item that Go can hash it returns,
makes `item` a member of the slot at `curIndex` and changes nothing else: the
other slots, `curIndex`, `stepTime` and the number of slots are as before, the
members of the current slot are the previous ones and `item`, and the size of
the current slot grows by 0 if `item` was in it and is equal to itself, and by
1 otherwise. -/
theorem C4_AddItem_frame_hashable {α : Type} [DecidableEq α] (tw : TimingWheel (AnyItem α))
    (item : AnyItem α)
    (h0 : 0 ≤ tw.curIndex) (hlt : tw.curIndex < (tw.slots.length : Int)) :
    (item.hashable = false → AddItemAny tw item = none) ∧
    (item.hashable = true →
      ∃ (tw1 : TimingWheel (AnyItem α)) (m m1 : itemCon (AnyItem α)),
        AddItemAny tw item = some tw1 ∧
        slotAt tw.slots tw.curIndex = some m ∧
        slotAt tw1.slots tw.curIndex = some m1 ∧
        item ∈ m1 ∧
        (∀ x, x ∈ m → x ∈ m1) ∧
        (∀ x, x ∈ m1 → x ∈ m ∨ x = item) ∧
        m1.length = (if item ∈ m ∧ item.selfEqual = true then m.length else m.length + 1) ∧
        (∀ i : Int, i ≠ tw.curIndex → slotAt tw1.slots i = slotAt tw.slots i) ∧
        tw1.curIndex = tw.curIndex ∧
        tw1.stepTime = tw.stepTime ∧
        tw1.slots.length = tw.slots.length) := by
  refine ⟨AddItemAny_unhashable tw item, ?_⟩
  intro hh
  cases item with
  | unhashable k => cases hh
  | comparable k =>
    obtain ⟨tw1, m, m1, h1, h2, h3, h4, h5, h6, h7, h8, h9, h10, h11⟩ :=
      AddItem_frame tw (AnyItem.comparable k) h0 hlt
    refine ⟨tw1, m, m1, by rw [AddItemAny_comparable]; exact h1, h2, h3, h4, h5, h6, ?_,
      h8, h9, h10, h11⟩
    rw [h7]
    simp [AnyItem.selfEqual]
  | notSelfEqual k =>
    obtain ⟨m, hm⟩ := slotAt_eq_some tw.slots tw.curIndex h0 hlt
    refine ⟨_, m, m ++ [AnyItem.notSelfEqual k], AddItemAny_notSelfEqual tw k m hm, hm, ?_, ?_,
      ?_, ?_, ?_, ?_, rfl, rfl, ?_⟩
    · exact slotAt_set_same tw.slots tw.curIndex _ h0 hlt
    · simp
    · intro x hx
      exact List.mem_append_left _ hx
    · intro x hx
      simpa using hx
    · simp [AnyItem.selfEqual]
    · intro i hi
      exact slotAt_set_other tw.slots i tw.curIndex _ h0 hi
    · simp

/-- C4, amended, on a wheel of three slots with the cursor at 1: adding the
comparable item 7 to the slot that holds 5 gives the slot that holds 5 and 7
and leaves the rest alone. -/
theorem C4_witness :
    (0 : Int) ≤ 1 ∧
    (1 : Int) < (([[AnyItem.comparable 4], [AnyItem.comparable 5], []] :
      slotCon (AnyItem Nat)).length : Int) ∧
    AddItemAny ({ stepTime := 2, slots := [[AnyItem.comparable 4], [AnyItem.comparable 5], []],
                  curIndex := 1 } : TimingWheel (AnyItem Nat)) (AnyItem.comparable 7) =
      some { stepTime := 2,
             slots := [[AnyItem.comparable 4], [AnyItem.comparable 5, AnyItem.comparable 7], []],
             curIndex := 1 } ∧
    ∃ (tw1 : TimingWheel (AnyItem Nat)) (m m1 : itemCon (AnyItem Nat)),
      AddItemAny ({ stepTime := 2, slots := [[AnyItem.comparable 4], [AnyItem.comparable 5], []],
                    curIndex := 1 } : TimingWheel (AnyItem Nat)) (AnyItem.comparable 7) =
        some tw1 ∧
      slotAt [[AnyItem.comparable 4], [AnyItem.comparable 5], []] 1 = some m ∧
      slotAt tw1.slots 1 = some m1 ∧
      AnyItem.comparable 7 ∈ m1 ∧
      m1.length = m.length + 1 ∧
      tw1.curIndex = 1 ∧ tw1.stepTime = 2 ∧ tw1.slots.length = 3 := by
  refine ⟨by decide, by decide, by rfl, ?_⟩
  obtain ⟨tw1, m, m1, h1, h2, h3, h4, _, _, h7, _, h9, h10, h11⟩ :=
    (C4_AddItem_frame_hashable
      ({ stepTime := 2, slots := [[AnyItem.comparable 4], [AnyItem.comparable 5], []],
         curIndex := 1 } : TimingWheel (AnyItem Nat)) (AnyItem.comparable 7)
      (by decide) (by decide)).2 rfl
  refine ⟨tw1, m, m1, h1, h2, h3, h4, ?_, h9, h10, h11⟩
  have hm : m = [AnyItem.comparable 5] := by
    have : slotAt ([[AnyItem.comparable 4], [AnyItem.comparable 5], []] :
        slotCon (AnyItem Nat)) 1 = some [AnyItem.comparable 5] := by rfl
    rw [this] at h2
    exact (Option.some.inj h2).symm
  rw [h7, hm]
  decide

/-- C5, refuted for items of every type: on a fresh wheel of two slots, one
`AddItem` of an item that is not equal to itself leaves one entry and
`itemCount()` 1, and two in a row leave two entries and `itemCount()` 2. -/
theorem C5_counterexample :
    AddItemAny ({ stepTime := 2, slots := [[], []], curIndex := 0 } : TimingWheel (AnyItem Nat))
        (AnyItem.notSelfEqual 0) =
      some { stepTime := 2, slots := [[AnyItem.notSelfEqual 0], []], curIndex := 0 } ∧
    (AddItemAny ({ stepTime := 2, slots := [[], []], curIndex := 0 } : TimingWheel (AnyItem Nat))
        (AnyItem.notSelfEqual 0)).bind (fun tw1 => AddItemAny tw1 (AnyItem.notSelfEqual 0)) =
      some { stepTime := 2, slots := [[AnyItem.notSelfEqual 0, AnyItem.notSelfEqual 0], []],
             curIndex := 0 } ∧
    itemCount ({ stepTime := 2, slots := [[AnyItem.notSelfEqual 0], []], curIndex := 0 } :
      TimingWheel (AnyItem Nat)) = 1 ∧
    itemCount ({ stepTime := 2, slots := [[AnyItem.notSelfEqual 0, AnyItem.notSelfEqual 0], []],
                 curIndex := 0 } : TimingWheel (AnyItem Nat)) = 2 := by
  refine ⟨by rfl, by rfl, by rfl, by rfl⟩

/-- C5, amended: `AddItem` is idempotent for every item that is equal to itself.
On every wheel, calling `AddItem(item)` twice in a row with such an item leaves
the wheel in exactly the state one call leaves it in (slots, cursor and step
time), with the same `itemCount()`; where one call panics (the item cannot be
hashed, or the cursor is out of range), so do two.  For an item that is not
equal to itself, on a wheel whose cursor is in range, both calls return and
`itemCount()` after the second is one more than after the first. -/
theorem C5_AddItem_idempotent_selfEqual {α : Type} [DecidableEq α]
    (tw : TimingWheel (AnyItem α)) (item : AnyItem α) :
    (item.selfEqual = true →
      (AddItemAny tw item).bind (fun tw1 => AddItemAny tw1 item) = AddItemAny tw item ∧
      ((AddItemAny tw item).bind (fun tw1 => AddItemAny tw1 item)).map itemCount =
        (AddItemAny tw item).map itemCount) ∧
    (item.selfEqual = false → inRange tw →
      ∃ tw1 tw2, AddItemAny tw item = some tw1 ∧ AddItemAny tw1 item = some tw2 ∧
        itemCount tw2 = itemCount tw1 + 1) := by
  constructor
  · intro he
    have key : (AddItemAny tw item).bind (fun tw1 => AddItemAny tw1 item) =
        AddItemAny tw item := by
      cases item with
      | notSelfEqual k => cases he
      | unhashable k =>
        rw [AddItemAny_unhashable tw (AnyItem.unhashable k) rfl]
        rfl
      | comparable k =>
        have h := (AddItem_twice tw (AnyItem.comparable k)).1
        rw [AddItemAny_comparable]
        have hfun : (fun tw1 => AddItemAny tw1 (AnyItem.comparable k)) =
            (fun tw1 => AddItem tw1 (AnyItem.comparable k)) := by
          funext tw1
          exact AddItemAny_comparable tw1 k
        rw [hfun]
        exact h
    exact ⟨key, by rw [key]⟩
  · intro he hr
    cases item with
    | comparable k => cases he
    | unhashable k => cases he
    | notSelfEqual k =>
      obtain ⟨m, hm⟩ := slotAt_eq_some tw.slots tw.curIndex hr.1 hr.2
      have h2 : slotAt (tw.slots.set tw.curIndex.toNat (m ++ [AnyItem.notSelfEqual k]))
          tw.curIndex = some (m ++ [AnyItem.notSelfEqual k]) :=
        slotAt_set_same tw.slots tw.curIndex _ hr.1 hr.2
      refine ⟨_, _, AddItemAny_notSelfEqual tw k m hm,
        AddItemAny_notSelfEqual _ k (m ++ [AnyItem.notSelfEqual k]) h2, ?_⟩
      have hc := itemCount_set
        ({ tw with slots := tw.slots.set tw.curIndex.toNat (m ++ [AnyItem.notSelfEqual k]) })
        ({ tw with slots :=
            ((tw.slots.set tw.curIndex.toNat (m ++ [AnyItem.notSelfEqual k])).set
              tw.curIndex.toNat (m ++ [AnyItem.notSelfEqual k] ++ [AnyItem.notSelfEqual k])) })
        tw.curIndex (m ++ [AnyItem.notSelfEqual k])
        (m ++ [AnyItem.notSelfEqual k] ++ [AnyItem.notSelfEqual k]) h2 rfl
      simp only [List.length_append, List.length_singleton] at hc
      push_cast at hc
      linarith

/-- C5, amended, on a wheel of three slots with the cursor at 1: adding the
comparable item 7 twice gives the wheel that adding it once gives, and adding
an item that is not equal to itself twice gives `itemCount()` 4 after 3. -/
theorem C5_witness :
    AnyItem.selfEqual (AnyItem.comparable 7 : AnyItem Nat) = true ∧
    (AddItemAny ({ stepTime := 2, slots := [[AnyItem.comparable 4], [AnyItem.comparable 5], []],
                   curIndex := 1 } : TimingWheel (AnyItem Nat)) (AnyItem.comparable 7)).bind
        (fun tw1 => AddItemAny tw1 (AnyItem.comparable 7)) =
      some { stepTime := 2,
             slots := [[AnyItem.comparable 4], [AnyItem.comparable 5, AnyItem.comparable 7], []],
             curIndex := 1 } ∧
    AnyItem.selfEqual (AnyItem.notSelfEqual 0 : AnyItem Nat) = false ∧
    inRange ({ stepTime := 2, slots := [[AnyItem.comparable 4], [AnyItem.comparable 5], []],
               curIndex := 1 } : TimingWheel (AnyItem Nat)) ∧
    ∃ tw1 tw2,
      AddItemAny ({ stepTime := 2, slots := [[AnyItem.comparable 4], [AnyItem.comparable 5], []],
                    curIndex := 1 } : TimingWheel (AnyItem Nat)) (AnyItem.notSelfEqual 0) =
        some tw1 ∧
      AddItemAny tw1 (AnyItem.notSelfEqual 0) = some tw2 ∧
      itemCount tw2 = itemCount tw1 + 1 := by
  have h1 := (C5_AddItem_idempotent_selfEqual
    ({ stepTime := 2, slots := [[AnyItem.comparable 4], [AnyItem.comparable 5], []],
       curIndex := 1 } : TimingWheel (AnyItem Nat)) (AnyItem.comparable 7)).1 rfl
  have h2 := (C5_AddItem_idempotent_selfEqual
    ({ stepTime := 2, slots := [[AnyItem.comparable 4], [AnyItem.comparable 5], []],
       curIndex := 1 } : TimingWheel (AnyItem Nat)) (AnyItem.notSelfEqual 0)).2 rfl
    (by decide)
  refine ⟨rfl, ?_, rfl, by decide, h2⟩
  rw [h1.1]
  rfl

/-! ## Wheels reachable from a fresh wheel -/

/-- C13, refuted for items of every type: on the wheel that
`NewTimingWheel(3ns, 2)` returns, with its cursor in range, `AddItem` of an
item that Go cannot hash panics. -/
theorem C13_counterexample :
    (NewTimingWheel 3 2 : Except Error (TimingWheel (AnyItem Nat))) =
      Except.ok { stepTime := 2, slots := [[], []], curIndex := 0 } ∧
    inRange ({ stepTime := 2, slots := [[], []], curIndex := 0 } : TimingWheel (AnyItem Nat)) ∧
    AddItemAny ({ stepTime := 2, slots := [[], []], curIndex := 0 } : TimingWheel (AnyItem Nat))
      (AnyItem.unhashable 1) = none ∧
    runAny anyEnv [Op.addItem (AnyItem.unhashable 1)]
      { tw := { stepTime := 2, slots := [[], []], curIndex := 0 }, world := 0, logs := [] } =
      none := by
  refine ⟨by rfl, by decide, by rfl, by rfl⟩

/-- C13, amended: in every state reached from a successful `NewTimingWheel(max,
slotCnt)` by a sequence of `AddItem` calls with items that Go can hash, Steps
and changes of the world, the sequence returns, the number of slots is still
`slotCnt`, `stepTime` is unchanged and `0 <= curIndex < slotCnt`; hence the slot
at `curIndex` exists, `stepForward` returns, and `AddItem` returns for every
item that Go can hash, and panics for the others.  (`itemCount` only reads the
slots: it is a total function of the wheel.) -/
theorem C13_reachable_wheels_stay_in_range {α σ : Type} [DecidableEq α]
    (env : Env (AnyItem α) σ) (max slotCnt : Int) (tw0 : TimingWheel (AnyItem α))
    (hfresh : NewTimingWheel max slotCnt = Except.ok tw0) (w : σ)
    (ops : List (Op (AnyItem α) σ))
    (hops : ∀ x ∈ addedItems ops, x.hashable = true) :
    ∃ s1, runAny env ops { tw := tw0, world := w, logs := [] } = some s1 ∧
      (s1.tw.slots.length : Int) = slotCnt ∧ s1.tw.stepTime = tw0.stepTime ∧
      0 ≤ s1.tw.curIndex ∧ s1.tw.curIndex < slotCnt ∧
      (∃ m, slotAt s1.tw.slots s1.tw.curIndex = some m) ∧
      (∀ x, x.hashable = true → ∃ tw2, AddItemAny s1.tw x = some tw2) ∧
      (∀ x, x.hashable = false → AddItemAny s1.tw x = none) ∧
      (∃ r, stepForwardAny env s1.tw s1.world = some r) := by
  obtain ⟨hr0, hl0, _, _⟩ := fresh_inRange max slotCnt tw0 hfresh
  obtain ⟨s1, h1, hr1, hl1, ht1⟩ :=
    runAny_ok env ops { tw := tw0, world := w, logs := [] } hr0 hops
  have hlen : (s1.tw.slots.length : Int) = slotCnt := by rw [hl1]; exact hl0
  refine ⟨s1, h1, hlen, ht1, hr1.1, by rw [← hlen]; exact hr1.2, ?_, ?_, ?_, ?_⟩
  · exact slotAt_eq_some _ _ hr1.1 hr1.2
  · intro x hx
    obtain ⟨tw2, hadd, _⟩ := AddItemAny_ok s1.tw x hr1 hx
    exact ⟨tw2, hadd⟩
  · intro x hx
    exact AddItemAny_unhashable s1.tw x hx
  · obtain ⟨r, hstep, _⟩ := stepForwardAny_ok env s1.tw s1.world hr1
    exact ⟨r, hstep⟩

/-- C13, amended, on the wheel `NewTimingWheel(3ns, 2)`: after the adds of a
comparable item and of an item that is not equal to itself, and three Steps,
the wheel still has 2 slots and step time 2, and its cursor is in range. -/
theorem C13_witness :
    (NewTimingWheel 3 2 : Except Error (TimingWheel (AnyItem Nat))) =
      Except.ok { stepTime := 2, slots := [[], []], curIndex := 0 } ∧
    (∀ x ∈ addedItems ([Op.addItem (AnyItem.comparable 7), Op.step,
        Op.addItem (AnyItem.notSelfEqual 0), Op.step, Op.step] : List (Op (AnyItem Nat) Nat)),
      x.hashable = true) ∧
    ∃ s1, runAny anyEnv [Op.addItem (AnyItem.comparable 7), Op.step,
          Op.addItem (AnyItem.notSelfEqual 0), Op.step, Op.step]
        { tw := { stepTime := 2, slots := [[], []], curIndex := 0 },
          world := 0, logs := [] } = some s1 ∧
      (s1.tw.slots.length : Int) = 2 ∧ s1.tw.stepTime = 2 ∧
      0 ≤ s1.tw.curIndex ∧ s1.tw.curIndex < 2 ∧
      (∀ x, x.hashable = true → ∃ tw2, AddItemAny s1.tw x = some tw2) ∧
      (∃ r, stepForwardAny anyEnv s1.tw s1.world = some r) := by
  have hops : ∀ x ∈ addedItems ([Op.addItem (AnyItem.comparable 7), Op.step,
      Op.addItem (AnyItem.notSelfEqual 0), Op.step, Op.step] : List (Op (AnyItem Nat) Nat)),
      x.hashable = true := by
    intro x hx
    simp only [addedItems, List.mem_cons, List.mem_singleton, List.not_mem_nil, or_false] at hx
    rcases hx with rfl | rfl <;> rfl
  refine ⟨by rfl, hops, ?_⟩
  obtain ⟨s1, h1, h2, h3, h4, h5, _, h7, _, h9⟩ :=
    C13_reachable_wheels_stay_in_range anyEnv 3 2
      ({ stepTime := 2, slots := [[], []], curIndex := 0 } : TimingWheel (AnyItem Nat))
      (by rfl) 0
      [Op.addItem (AnyItem.comparable 7), Op.step, Op.addItem (AnyItem.notSelfEqual 0),
        Op.step, Op.step] hops
  exact ⟨s1, h1, h2, h3, h4, h5, h7, h9⟩

end timingwheel
